import Mathlib

/-!
# Studio Analytics (nexus-ig-analyzer): relationship classifier and bot detector

A shallow embedding of the algorithmic core of the application:

* `analyzeData`  (src/src/app.js, lines 328-333): the relationship classification, and
  the last step of `extractUsernames` (line 303), which makes its lists duplicate-free;
* `detectBot`, `analyzeAdditionalHeuristics`, `calculateEntropy`, `hasKeyboardPattern`,
  `createBotResult`, `analyzeBatch`, `getDefaultPatterns`, `calculateEngagement`
  (src/nexus-api.js);
* `BOT_DETECTION` and `ENGAGEMENT` (src/config.js).

Modelling conventions.

* A JavaScript string is the list of its UTF-16 code units (`JSString`), so `length`,
  `includes` and the non-unicode regular expressions of the source see what they see
  in the engine.
* `String.prototype.toLowerCase` depends on the Unicode tables of the engine, which are
  not part of the repository: it is a parameter `lower` of the functions that use it.
  `asciiToLowerCase` is the instance that agrees with the engine on ASCII handles.
* Regular expression literals are written in a small abstract syntax (`Branch`, `Atom`)
  and run by `matchAtoms`; `RegExp.prototype.test` is `retest`.
* Scores and weights are JavaScript numbers holding integers: they are `Int`.  A number
  produced by a division is a `JSNum` (a fraction, an infinity or NaN).
* Floating point.  The operators `/`, `*` and `-` return the binary64 number nearest to
  the exact result (`roundDouble`; `JSNum.round64` computes it on fractions).  The numbers
  a result holds are rounded in this way: `averageScore`, the `ratio` handed to
  `toFixed(2)`, and the entropy as the loop of `calculateEntropy` accumulates it
  (`calculateEntropy64`, with the `Math.log2` of the engine as a parameter `log2`).
  A quotient that is only compared with a constant (`digitRatio > 0.5`, `ratio < ceiling`)
  is compared as an exact fraction: rounding is monotone and leaves the constants as they
  are, so it changes such a comparison only for a quotient within half a unit in the last
  place of the constant, which takes a denominator of `2 ^ 51` or more.
* The test `entropy > 4.0` inside `detectBot` is made on the exact entropy
  `-Σ p * log2 p` (`Entropy.value`), decided by an equivalent test on natural numbers
  (`Entropy.gt`).  The last section compares it with the binary64 computation: both tests
  fail on every string of at most 16 distinct characters and at most 500000 code units,
  and they differ on a string of 160000001 characters.
* A catalog pattern is its weight, its description and the predicate
  `s => pattern.regex.test(s)`; the literals of the source have no `g` or `y` flag, so
  `test` keeps no state between calls.
-/

namespace NexusIG

/-! ## Strings -/

/-- A JavaScript string: its sequence of UTF-16 code units. -/
abbrev JSString := List Nat

/-- The code units of a literal made of characters of the Basic Multilingual Plane. -/
def str (s : String) : JSString := s.toList.map Char.toNat

/-- WhiteSpace and LineTerminator code units of ECMAScript, the ones `trim` removes. -/
def isTrimUnit (u : Nat) : Bool :=
  u == 0x09 || u == 0x0A || u == 0x0B || u == 0x0C || u == 0x0D || u == 0x20 ||
  u == 0xA0 || u == 0x1680 || (0x2000 ≤ u && u ≤ 0x200A) || u == 0x2028 || u == 0x2029 ||
  u == 0x202F || u == 0x205F || u == 0x3000 || u == 0xFEFF

/-- `String.prototype.trim`: drops the white space at both ends. -/
def trim (s : JSString) : JSString :=
  ((s.dropWhile isTrimUnit).reverse.dropWhile isTrimUnit).reverse

/-- `toLowerCase` on one ASCII code unit; other code units are left alone. -/
def asciiLowerUnit (u : Nat) : Nat := if 65 ≤ u ∧ u ≤ 90 then u + 32 else u

/-- `String.prototype.toLowerCase` restricted to what it does on ASCII letters. -/
def asciiToLowerCase (s : JSString) : JSString := s.map asciiLowerUnit

/-- `username.toLowerCase().trim()` (nexus-api.js line 46). -/
def normalize (lower : JSString → JSString) (username : JSString) : JSString :=
  trim (lower username)

/-- `str.includes(p)`: `p` occurs as a contiguous block of `s`. -/
def includes (s p : JSString) : Bool := s.tails.any fun t => p.isPrefixOf t

/-! ## Numbers produced by a division -/

/-- A JavaScript number as produced by `/` on two integers: NaN, an infinity, or the
fraction `num / den` with `den > 0`. -/
inductive JSNum where
  | nan
  | posInf
  | negInf
  | frac (num : Int) (den : Nat)
  deriving DecidableEq, Repr

namespace JSNum

/-- The quotient `a / b` of two integer-valued numbers before it is rounded: the exact
fraction (`JSNum.round64` gives the binary64 number `/` returns). -/
def div (a : Int) (b : Nat) : JSNum :=
  if b = 0 then (if a = 0 then nan else if 0 < a then posInf else negInf)
  else frac a b

/-- The comparison `x > p / q` against a positive fraction literal (here `0.5 = 1/2`,
`4 = 4/1`); NaN compares false. -/
def gtFrac (x : JSNum) (p : Int) (q : Nat) : Bool :=
  match x with
  | nan => false
  | posInf => true
  | negInf => false
  | frac n d => decide (p * d < n * q)

/-- Truthiness: NaN and zero are falsy. -/
def truthy : JSNum → Bool
  | nan => false
  | posInf => true
  | negInf => true
  | frac n _ => n != 0

/-- The expression `x || 0`. -/
def orZero (x : JSNum) : JSNum := if x.truthy then x else frac 0 1

/-- The rational value of a number that has one. -/
def toRat : JSNum → Option ℚ
  | frac n d => some ((n : ℚ) / (d : ℚ))
  | _ => none

end JSNum

/-! ## IEEE 754 binary64 rounding

The operators `/`, `*`, `+` and `-` of JavaScript return the binary64 number nearest to
the exact result, the one with an even significand at a tie (roundTiesToEven).
`roundDouble` states this over any ordered field; `JSNum.round64` computes it on
fractions. -/

/-- The integer nearest to `z`, the even one of the two when `z` is half-way between
two integers. -/
def roundHalfEven {K : Type*} [LinearOrderedField K] [FloorRing K] (z : K) : ℤ :=
  if 2 * (z - ⌊z⌋) < 1 then ⌊z⌋
  else if 1 < 2 * (z - ⌊z⌋) then ⌊z⌋ + 1
  else if ⌊z⌋ % 2 = 0 then ⌊z⌋ else ⌊z⌋ + 1

/-- The exponent of the unit in the last place of the binary64 numbers around `x`:
52 below the exponent of `x`, and -1074 throughout the subnormal range. -/
def quantum {K : Type*} [LinearOrderedField K] [FloorRing K] (x : K) : ℤ :=
  max (Int.log 2 |x| - 52) (-1074)

/-- The binary64 number nearest to `x` (ties to even), for `x` below the overflow
threshold `2 ^ 1024 - 2 ^ 970`: the multiple of `2 ^ quantum x` nearest to `x`. -/
def roundDouble {K : Type*} [LinearOrderedField K] [FloorRing K] (x : K) : K :=
  if 0 ≤ x then (roundHalfEven (x / 2 ^ quantum x) : K) * 2 ^ quantum x
  else -((roundHalfEven (-x / 2 ^ quantum x) : K) * 2 ^ quantum x)

/-- The finite binary64 numbers: `m * 2 ^ e` with `|m| < 2 ^ 53` and
`-1074 ≤ e ≤ 971`. -/
def IsDouble {K : Type*} [LinearOrderedField K] [FloorRing K] (x : K) : Prop :=
  ∃ m e : ℤ, |m| < 2 ^ 53 ∧ -1074 ≤ e ∧ e ≤ 971 ∧ x = (m : K) * 2 ^ e

/-- The loop behind `ilog2`; `fuel` bounds the number of halvings. -/
def ilog2Aux : Nat → Nat → Nat
  | 0, _ => 0
  | fuel + 1, n => if n < 2 then 0 else ilog2Aux fuel (n / 2) + 1

/-- The position of the leading bit of `n`: `⌊log2 n⌋` for `n > 0`, and 0 for 0. -/
def ilog2 (n : Nat) : Nat := ilog2Aux n n

/-- `⌊log2 (n / d)⌋` for positive `n` and `d`. -/
def floorLog2 (n d : Nat) : Int :=
  let k : Int := (ilog2 n : Int) - (ilog2 d : Int)
  if d * 2 ^ k.toNat ≤ n * 2 ^ (-k).toNat then k else k - 1

/-- The integer nearest to `n / d` for `d > 0`, the even one at a tie. -/
def roundHalfEvenNat (n d : Nat) : Nat :=
  if 2 * (n % d) < d then n / d
  else if d < 2 * (n % d) then n / d + 1
  else if (n / d) % 2 = 0 then n / d else n / d + 1

/-- The binary64 number nearest to the positive fraction `n / d`: `m * 2 ^ q` with `q` the
quantum and `m` the integer nearest to `n / d / 2 ^ q`, and `Infinity` when that reaches
`2 ^ 1024`. -/
def roundPos (n d : Nat) : JSNum :=
  let q := max (floorLog2 n d - 52) (-1074)
  let m := roundHalfEvenNat (n * 2 ^ (-q).toNat) (d * 2 ^ q.toNat)
  if 1024 + (-q).toNat ≤ ilog2 (m * 2 ^ q.toNat) then .posInf
  else .frac (m * 2 ^ q.toNat : Nat) (2 ^ (-q).toNat)

/-- Unary minus. -/
def JSNum.neg : JSNum → JSNum
  | .nan => .nan
  | .posInf => .negInf
  | .negInf => .posInf
  | .frac n d => .frac (-n) d

/-- The binary64 number an exact result is rounded to; the sign of a zero is not kept. -/
def JSNum.round64 : JSNum → JSNum
  | .frac a d =>
    if d = 0 then .frac a d
    else if a = 0 then .frac 0 1
    else if 0 < a then roundPos a.toNat d
    else (roundPos (-a).toNat d).neg
  | x => x

/-! ## Values handed to `detectBot` -/

/-- The JavaScript values a caller can pass as `username`. -/
inductive JSValue where
  | undefined
  | null
  | boolean (b : Bool)
  | number (n : Int)
  | notANumber
  | object
  | string (s : JSString)
  deriving DecidableEq, Repr

namespace JSValue

/-- Truthiness of a value (`!v` is its negation). -/
def truthy : JSValue → Bool
  | undefined => false
  | null => false
  | boolean b => b
  | number n => n != 0
  | notANumber => false
  | object => true
  | string s => !s.isEmpty

/-- The test `typeof v === 'string'`. -/
def isString : JSValue → Bool
  | string _ => true
  | _ => false

end JSValue

/-! ## Regular expressions

The literals of the source use character classes, literal words, quantifiers on one
class, `^`, `$` and a top-level alternation; none has the `u`, `g`, `m` or `s` flag.
A literal is a list of alternatives (`Branch`), each a sequence of quantified classes.
The one back-reference, `/(.)\1{4,}/`, is `repeatedChars`. -/

/-- `\d`. -/
def isDigit (u : Nat) : Bool := 48 ≤ u && u ≤ 57

/-- `[a-z]` without the `i` flag. -/
def isLowerAZ (u : Nat) : Bool := 97 ≤ u && u ≤ 122

/-- `[a-z]` under the `i` flag: an ASCII letter of either case.  (Canonicalize never
maps a code unit of 128 or more to one below 128.) -/
def isAlphaI (u : Nat) : Bool := (65 ≤ u && u ≤ 90) || (97 ≤ u && u ≤ 122)

/-- `.`: any code unit but a line terminator. -/
def isDot (u : Nat) : Bool := u != 0x0A && u != 0x0D && u != 0x2028 && u != 0x2029

/-- `[^aeiou]` under the `i` flag. -/
def isNotVowelI (u : Nat) : Bool :=
  !(u == 97 || u == 101 || u == 105 || u == 111 || u == 117 ||
    u == 65 || u == 69 || u == 73 || u == 79 || u == 85)

/-- A literal ASCII lower-case letter or sign `c` under the `i` flag. -/
def isUnitI (c : Nat) (u : Nat) : Bool := u == c || (isLowerAZ c && u + 32 == c)

/-- A literal code unit `c` without flag. -/
def isUnit (c : Nat) (u : Nat) : Bool := u == c

/-- A quantified class `c{lo,hi}`; `hi = none` is `c{lo,}`. -/
structure Atom where
  cls : Nat → Bool
  lo : Nat
  hi : Option Nat

/-- One alternative of a literal: `^`?, a sequence of atoms, `$`?. -/
structure Branch where
  bol : Bool
  atoms : List Atom
  eol : Bool

/-- A literal word without flag, one atom per code unit. -/
def word (w : String) : List Atom := (str w).map fun c => ⟨isUnit c, 1, some 1⟩

/-- A literal word under the `i` flag. -/
def wordI (w : String) : List Atom := (str w).map fun c => ⟨isUnitI c, 1, some 1⟩

/-- Consume between `lo` and `hi` code units of class `c` at the front of the input,
then hand the rest to the continuation `k`. -/
def matchRep (c : Nat → Bool) (k : JSString → Bool) : Nat → Option Nat → JSString → Bool
  | lo, _, [] => lo == 0 && k []
  | lo, hi, x :: t =>
    (lo == 0 && k (x :: t)) ||
    (hi != some 0 && c x && matchRep c k (lo - 1) (hi.map fun h => h - 1) t)

/-- Match a sequence of atoms at the front of the input; with `eol` the match has to
end where the input ends. -/
def matchAtoms (eol : Bool) : List Atom → JSString → Bool
  | [], s => !eol || s.isEmpty
  | a :: rest, s => matchRep a.cls (matchAtoms eol rest) a.lo a.hi s

/-- One alternative tried at every start position, or only at the first with `^`. -/
def Branch.test (b : Branch) (s : JSString) : Bool :=
  if b.bol then matchAtoms b.eol b.atoms s
  else s.tails.any fun t => matchAtoms b.eol b.atoms t

/-- `regex.test(s)` for a literal given by its alternatives. -/
def retest (branches : List Branch) (s : JSString) : Bool :=
  branches.any fun b => b.test s

/-- `/(.)\1{4,}/.test(s)`: a code unit matched by `.` followed by at least four
copies of itself. -/
def repeatedChars (s : JSString) : Bool :=
  s.tails.any fun t =>
    match t with
    | [] => false
    | x :: r => isDot x && matchRep (isUnit x) (fun _ => true) 4 none r

/-! ## Configuration (src/config.js) and defaults (src/nexus-api.js) -/

/-- An entry of a pattern catalog; `regex` is `s => pattern.regex.test(s)`. -/
structure Pattern where
  regex : JSString → Bool
  score : Int
  description : String

/-- `THRESHOLDS`; `REAL_USER` is present in config.js only and never read. -/
structure Thresholds where
  LIKELY_BOT : Int
  SUSPICIOUS : Int
  POSSIBLE_BOT : Int
  REAL_USER : Option Int

/-- `COLORS`; `UNKNOWN` is present in config.js only and never read. -/
structure Colors where
  LIKELY_BOT : String
  SUSPICIOUS : String
  POSSIBLE_BOT : String
  REAL_USER : String
  UNKNOWN : Option String

/-- `BOT_DETECTION`; a catalog is given by its `Object.entries`, in that order. -/
structure BotDetection where
  THRESHOLDS : Option Thresholds
  PATTERNS : Option (List (String × Pattern))
  COLORS : Option Colors

/-- The object `config()` returns: `window.StudioConfig || {}`. -/
structure StudioConfig where
  BOT_DETECTION : Option BotDetection

/-- The value `{}` of `config()` when `window.StudioConfig` is not set. -/
def emptyConfig : StudioConfig := ⟨none⟩

/-- `BOT_DETECTION.PATTERNS` of src/config.js (lines 83-94). -/
def configPatterns : List (String × Pattern) :=
  [ ("MANY_NUMBERS", ⟨retest [⟨false, [⟨isDigit, 5, none⟩], false⟩], 25,
      "Many consecutive numbers"⟩),
    ("USER_PREFIX", ⟨retest [⟨true, wordI "user" ++ [⟨isDigit, 1, none⟩], true⟩], 30,
      "Generic user pattern"⟩),
    ("RANDOM_STRING", ⟨retest [⟨true, [⟨isAlphaI, 2, some 4⟩, ⟨isDigit, 6, none⟩], true⟩], 25,
      "Random string pattern"⟩),
    ("UNDERSCORE_NUMBERS", ⟨retest [⟨false, word "_" ++ [⟨isDigit, 4, none⟩], true⟩], 20,
      "Trailing underscore numbers"⟩),
    ("REPEATED_CHARS", ⟨repeatedChars, 15, "Repeated characters"⟩),
    ("NO_VOWELS", ⟨retest [⟨true, [⟨isNotVowelI, 8, none⟩], true⟩], 20,
      "No vowels in long name"⟩),
    ("TEMP_PATTERN", ⟨retest [⟨true, wordI "temp", false⟩, ⟨false, wordI "test", false⟩,
        ⟨false, wordI "fake", false⟩, ⟨false, wordI "bot", false⟩], 35,
      "Suspicious prefix"⟩),
    ("ALL_LOWERCASE_NUMBERS", ⟨retest [⟨true, [⟨isLowerAZ, 1, none⟩, ⟨isDigit, 1, none⟩], true⟩],
      10, "Lowercase + numbers"⟩),
    ("VERY_LONG", ⟨retest [⟨true, [⟨isDot, 25, none⟩], true⟩], 15, "Very long username"⟩),
    ("VERY_SHORT", ⟨retest [⟨true, [⟨isDot, 1, some 3⟩], true⟩], 10, "Very short username"⟩) ]

/-- The frozen `StudioConfig` of src/config.js, as far as the bot detector reads it. -/
def studioConfig : StudioConfig :=
  ⟨some ⟨some ⟨70, 50, 30, some 0⟩, some configPatterns,
    some ⟨"#8B3A3A", "#C9A24D", "#5C4A1A", "#4A5D4A", some "#3A4F6B"⟩⟩⟩

/-- `getDefaultPatterns()` (nexus-api.js lines 107-120). -/
def getDefaultPatterns : List (String × Pattern) :=
  [ ("MANY_NUMBERS", ⟨retest [⟨false, [⟨isDigit, 5, none⟩], false⟩], 25,
      "Muchos números consecutivos"⟩),
    ("USER_PREFIX", ⟨retest [⟨true, wordI "user" ++ [⟨isDigit, 1, none⟩], true⟩], 30,
      "Patrón genérico de usuario"⟩),
    ("RANDOM_STRING", ⟨retest [⟨true, [⟨isAlphaI, 2, some 4⟩, ⟨isDigit, 6, none⟩], true⟩], 25,
      "Cadena aleatoria"⟩),
    ("UNDERSCORE_NUMBERS", ⟨retest [⟨false, word "_" ++ [⟨isDigit, 4, none⟩], true⟩], 20,
      "Números al final con guión"⟩),
    ("REPEATED_CHARS", ⟨repeatedChars, 15, "Caracteres repetidos"⟩),
    ("NO_VOWELS", ⟨retest [⟨true, [⟨isNotVowelI, 8, none⟩], true⟩], 20,
      "Sin vocales en nombre largo"⟩),
    ("TEMP_PATTERN", ⟨retest [⟨true, wordI "temp", false⟩, ⟨true, wordI "test", false⟩,
        ⟨true, wordI "fake", false⟩, ⟨true, wordI "bot", false⟩, ⟨true, wordI "spam", false⟩], 35,
      "Prefijo sospechoso"⟩),
    ("ALL_LOWERCASE_NUMBERS", ⟨retest [⟨true, [⟨isLowerAZ, 1, none⟩, ⟨isDigit, 1, none⟩], true⟩],
      10, "Minúsculas + números"⟩),
    ("VERY_LONG", ⟨retest [⟨true, [⟨isDot, 25, none⟩], true⟩], 15, "Nombre muy largo"⟩),
    ("VERY_SHORT", ⟨retest [⟨true, [⟨isDot, 1, some 3⟩], true⟩], 10, "Nombre muy corto"⟩) ]

/-! ## Additional heuristics (nexus-api.js lines 127-206) -/

/-- An entry of the `patterns` list of a result. -/
structure DetectedPattern where
  name : String
  description : String
  score : Int
  deriving DecidableEq, Repr

/-- A high surrogate followed by a low surrogate is one element of `for (... of str)`. -/
def isHighSurrogate (u : Nat) : Bool := 0xD800 ≤ u && u ≤ 0xDBFF

/-- The second half of a surrogate pair. -/
def isLowSurrogate (u : Nat) : Bool := 0xDC00 ≤ u && u ≤ 0xDFFF

/-- The elements `for (const char of str)` iterates over: code points, each as the
string of its one or two code units. -/
def codePoints : JSString → List JSString
  | [] => []
  | [a] => [[a]]
  | a :: b :: rest =>
    if isHighSurrogate a && isLowSurrogate b then [a, b] :: codePoints rest
    else [a] :: codePoints (b :: rest)

/-- The update `frequencies[char] = (frequencies[char] || 0) + 1`. -/
def bump (frequencies : List (JSString × Nat)) (char : JSString) : List (JSString × Nat) :=
  match frequencies with
  | [] => [(char, 1)]
  | (key, count) :: rest =>
    if key = char then (key, count + 1) :: rest else (key, count) :: bump rest char

/-- The number `calculateEntropy` returns, `-Σ (count / len) * log2 (count / len)` over
the counts of the frequency table, kept as the data it is computed from. -/
structure Entropy where
  len : Nat
  counts : List Nat
  deriving DecidableEq, Repr

/-- `calculateEntropy(str)` (lines 181-196): `len` is the number of code units, the
table counts code points. -/
def calculateEntropy (str : JSString) : Entropy :=
  let len := str.length
  let frequencies := (codePoints str).foldl bump []
  ⟨len, frequencies.map Prod.snd⟩

/-- The comparison `entropy > k` in exact arithmetic (for the sum as binary64 arithmetic
accumulates it see `calculateEntropy64`).  With `n = len` and counts `c`,
`-Σ (c / n) * log2 (c / n) > k` is `Σ c * (log2 n - log2 c) > k * n`, that is
`Π n ^ c > 2 ^ (k * n) * Π c ^ c` (proved below as `calculateEntropy_gt_iff`). -/
def Entropy.gt (e : Entropy) (k : Nat) : Bool :=
  decide (2 ^ (k * e.len) * (e.counts.map fun c => c ^ c).prod
    < (e.counts.map fun c => e.len ^ c).prod)

/-- The real number an `Entropy` stands for: `entropy` after the loop of lines 189-193,
with exact division and logarithm. -/
noncomputable def Entropy.value (e : Entropy) : ℝ :=
  -(e.counts.map fun (c : Nat) =>
      ((c : ℝ) / (e.len : ℝ)) * Real.logb 2 ((c : ℝ) / (e.len : ℝ))).sum

/-- The property keys of the frequency table that are array indices: the one-digit
strings "0" to "9". -/
def isIndexKey (key : JSString) : Bool :=
  match key with
  | [u] => decide (48 ≤ u ∧ u ≤ 57)
  | _ => false

/-- The order in which `Object.values` visits a table (line 190): first the array-index
keys in ascending numeric order, then the other keys in the order of their creation. -/
def objectValues (frequencies : List (JSString × Nat)) : List Nat :=
  (((frequencies.filter fun e => isIndexKey e.1).insertionSort
      fun a b => a.1.headD 0 ≤ b.1.headD 0) ++
    frequencies.filter fun e => !isIndexKey e.1).map Prod.snd

/-- One turn of the loop of lines 190-193 in binary64 arithmetic:
`probability = count / length` and `entropy -= probability * Math.log2(probability)`,
the quotient, the product and the difference each rounded to the nearest binary64 number.
`log2` is the `Math.log2` of the engine, which is not part of the repository. -/
def entropyStep {K : Type*} [LinearOrderedField K] [FloorRing K] (log2 : K → K)
    (length : Nat) (entropy : K) (count : Nat) : K :=
  let probability := roundDouble ((count : K) / (length : K))
  roundDouble (entropy - roundDouble (probability * log2 probability))

/-- `calculateEntropy(str)` (lines 181-196) as the engine computes it: the loop over
`Object.values(frequencies)`, started at 0, in binary64 arithmetic.  `Entropy.value` is the
same sum with exact division, logarithm, product and sum. -/
def calculateEntropy64 {K : Type*} [LinearOrderedField K] [FloorRing K] (log2 : K → K)
    (str : JSString) : K :=
  (objectValues ((codePoints str).foldl bump [])).foldl (entropyStep log2 str.length) 0

/-- What the results on `calculateEntropy64` ask of the `Math.log2` of the engine: at a
power of two that is a binary64 number it returns the exponent, and everywhere else it is
within one unit in the last place of the logarithm (a relative error of at most `2 ^ -52`,
or `2 ^ -1074` in the subnormal range). -/
def Log2Accurate (log2 : ℝ → ℝ) : Prop :=
  (∀ k : ℤ, -1074 ≤ k → k ≤ 1023 → log2 (2 ^ k) = k) ∧
  ∀ x : ℝ, 0 < x →
    |log2 x - Real.logb 2 x| ≤ 2 ^ (-52 : ℤ) * |Real.logb 2 x| + 2 ^ (-1074 : ℤ)

/-- The correctly rounded `Math.log2`: the binary64 number nearest to the logarithm. -/
noncomputable def log2Rounded (x : ℝ) : ℝ := roundDouble (Real.logb 2 x)

/-- `hasKeyboardPattern(str)` (lines 203-206). -/
def hasKeyboardPattern (s : JSString) : Bool :=
  ["qwerty", "asdf", "zxcv", "1234", "qazwsx"].any fun p => includes s (str p)

/-- The literal `/(_oficial|_real|_original|\d{4}$)/` (line 164). -/
def suffixBranches : List Branch :=
  [⟨false, word "_oficial", false⟩, ⟨false, word "_real", false⟩,
   ⟨false, word "_original", false⟩, ⟨false, [⟨isDigit, 4, some 4⟩], true⟩]

/-- The object `{ score, patterns }` of `analyzeAdditionalHeuristics`. -/
structure Additional where
  score : Int
  patterns : List DetectedPattern
  deriving DecidableEq, Repr

/-- One `if (cond) { score += w; patterns.push({...}) }` step. -/
def Additional.push (acc : Additional) (cond : Bool) (name description : String) (w : Int) :
    Additional :=
  if cond then ⟨acc.score + w, acc.patterns ++ [⟨name, description, w⟩]⟩ else acc

/-- `analyzeAdditionalHeuristics(username)` (lines 127-174). -/
def analyzeAdditionalHeuristics (username : JSString) : Additional :=
  let acc : Additional := ⟨0, []⟩
  let entropy := calculateEntropy username
  let acc := acc.push (entropy.gt 4) "HIGH_ENTROPY" "Alta aleatoriedad en nombre" 15
  let acc := acc.push (hasKeyboardPattern username) "KEYBOARD_PATTERN"
    "Patrón de teclado detectado" 10
  let digitRatio := JSNum.div ((username.filter isDigit).length : Nat) username.length
  let acc := acc.push (digitRatio.gtFrac 1 2) "HIGH_DIGIT_RATIO" "Más del 50% son números" 20
  let acc := acc.push (retest suffixBranches username) "SUSPICIOUS_SUFFIX"
    "Sufijo sospechoso" 10
  acc

/-! ## `detectBot` (nexus-api.js lines 40-102, 211-220) -/

/-- The object `detectBot` returns. -/
structure BotResult where
  isBot : Bool
  score : Int
  classification : String
  color : String
  patterns : List DetectedPattern
  confidence : String
  deriving DecidableEq, Repr

/-- `createBotResult(score, classification, color, patterns)`; the caller that leaves
`patterns` out passes the default `[]`. -/
def createBotResult (score : Int) (classification color : String)
    (patterns : List DetectedPattern) : BotResult :=
  { isBot := decide (score ≥ 50)
    score := score
    classification := classification
    color := color
    patterns := patterns
    confidence := if score ≥ 70 then "Alta" else if score ≥ 40 then "Media" else "Baja" }

/-- `config().BOT_DETECTION?.PATTERNS || getDefaultPatterns()` (line 51). -/
def patternsOf (cfg : StudioConfig) : List (String × Pattern) :=
  match cfg.BOT_DETECTION with
  | some bd => bd.PATTERNS.getD getDefaultPatterns
  | none => getDefaultPatterns

/-- `config().BOT_DETECTION?.THRESHOLDS || { 70, 50, 30 }` (lines 52-56). -/
def thresholdsOf (cfg : StudioConfig) : Thresholds :=
  match cfg.BOT_DETECTION with
  | some bd => bd.THRESHOLDS.getD ⟨70, 50, 30, none⟩
  | none => ⟨70, 50, 30, none⟩

/-- `config().BOT_DETECTION?.COLORS || { ... }` (lines 80-85). -/
def colorsOf (cfg : StudioConfig) : Colors :=
  match cfg.BOT_DETECTION with
  | some bd => bd.COLORS.getD ⟨"#F44336", "#FF9800", "#FFC107", "#4CAF50", none⟩
  | none => ⟨"#F44336", "#FF9800", "#FFC107", "#4CAF50", none⟩

/-- The loop `Object.entries(patterns).forEach(...)` (lines 59-68): the state is the
pair of `score` and `detectedPatterns`. -/
def testPatterns (patterns : List (String × Pattern)) (normalizedUsername : JSString) :
    Int × List DetectedPattern :=
  patterns.foldl
    (fun acc entry =>
      if entry.2.regex normalizedUsername then
        (acc.1 + entry.2.score, acc.2 ++ [⟨entry.1, entry.2.description, entry.2.score⟩])
      else acc)
    (0, [])

/-- The string a value holds once the guard of line 42 has let it through. -/
def JSValue.toJSString : JSValue → JSString
  | .string s => s
  | _ => []

/-- `detectBot(username)`. -/
def detectBot (lower : JSString → JSString) (cfg : StudioConfig) (username : JSValue) :
    BotResult :=
  if !username.truthy || !username.isString then
    createBotResult 0 "Unknown" "Invalid username" []
  else
    let normalizedUsername := normalize lower username.toJSString
    let patterns := patternsOf cfg
    let thresholds := thresholdsOf cfg
    let tested := testPatterns patterns normalizedUsername
    let additionalScore := analyzeAdditionalHeuristics normalizedUsername
    let score := tested.1 + additionalScore.score
    let detectedPatterns := tested.2 ++ additionalScore.patterns
    let score := min score 100
    let colors := colorsOf cfg
    if score ≥ thresholds.LIKELY_BOT then
      createBotResult score "Bot Probable" colors.LIKELY_BOT detectedPatterns
    else if score ≥ thresholds.SUSPICIOUS then
      createBotResult score "Sospechoso" colors.SUSPICIOUS detectedPatterns
    else if score ≥ thresholds.POSSIBLE_BOT then
      createBotResult score "Posible Bot" colors.POSSIBLE_BOT detectedPatterns
    else
      createBotResult score "Usuario Real" colors.REAL_USER detectedPatterns

/-! ## `analyzeBatch` (nexus-api.js lines 227-245) -/

/-- An element `{ username, analysis }` of `results`. -/
structure BatchEntry where
  username : JSValue
  analysis : BotResult
  deriving DecidableEq, Repr

/-- The `summary` object. -/
structure Summary where
  total : Nat
  likelyBots : Nat
  suspicious : Nat
  possibleBots : Nat
  realUsers : Nat
  averageScore : JSNum
  deriving DecidableEq, Repr

/-- The object `analyzeBatch` returns; `summary = none` is the empty object `{}`. -/
structure BatchResult where
  results : List BatchEntry
  summary : Option Summary
  deriving DecidableEq, Repr

/-- The argument of `analyzeBatch`: an array of values, or anything else. -/
inductive BatchInput where
  | notArray
  | array (usernames : List JSValue)

/-- `analyzeBatch(usernames)`. -/
def analyzeBatch (lower : JSString → JSString) (cfg : StudioConfig) :
    BatchInput → BatchResult
  | .notArray => ⟨[], none⟩
  | .array usernames =>
    let results : List BatchEntry :=
      usernames.map fun username => ⟨username, detectBot lower cfg username⟩
    let summary : Summary :=
      { total := results.length
        likelyBots := (results.filter fun r => decide (r.analysis.score ≥ 70)).length
        suspicious :=
          (results.filter fun r =>
            decide (r.analysis.score ≥ 50) && decide (r.analysis.score < 70)).length
        possibleBots :=
          (results.filter fun r =>
            decide (r.analysis.score ≥ 30) && decide (r.analysis.score < 50)).length
        realUsers := (results.filter fun r => decide (r.analysis.score < 30)).length
        averageScore :=
          (JSNum.div (results.foldl (fun sum r => sum + r.analysis.score) 0)
            results.length).round64.orZero }
    ⟨results, some summary⟩

/-! ## Relationship classification (src/src/app.js lines 328-333) -/

/-- A `Set` of strings built by `new Set(list)`, with its `has`. -/
structure JSSet where
  elems : List JSString

/-- `set.has(u)`. -/
def JSSet.has (set : JSSet) (u : JSString) : Bool := set.elems.contains u

/-- The three lists `analyzeData` computes. -/
structure Relationships where
  notFollowingBack : List JSString
  mutuals : List JSString
  onlyFollowers : List JSString
  deriving DecidableEq, Repr

/-- The classification step of `analyzeData`. -/
def analyzeData (followersData followingData : List JSString) : Relationships :=
  let followersSet : JSSet := ⟨followersData⟩
  let followingSet : JSSet := ⟨followingData⟩
  let notFollowingBack := followingData.filter fun u => !followersSet.has u
  let mutuals := followingData.filter fun u => followersSet.has u
  let onlyFollowers := followersData.filter fun u => !followingSet.has u
  ⟨notFollowingBack, mutuals, onlyFollowers⟩

/-! ## Engagement calculator (nexus-api.js lines 257-330) -/

namespace JSNum

/-- The quotient `a / b` of two integer-valued numbers of either sign; the sign of a
zero quotient is not kept. -/
def quot (a b : Int) : JSNum :=
  if b < 0 then div (-a) (-b).toNat else div a b.toNat

/-- The comparison `x < y`; false when a side is NaN. -/
def lt : JSNum → JSNum → Bool
  | nan, _ => false
  | _, nan => false
  | posInf, _ => false
  | negInf, negInf => false
  | negInf, _ => true
  | frac _ _, posInf => true
  | frac _ _, negInf => false
  | frac a b, frac c d => decide (a * d < c * b)

/-- The comparison `x <= y`; false when a side is NaN. -/
def le : JSNum → JSNum → Bool
  | nan, _ => false
  | _, nan => false
  | _, posInf => true
  | negInf, _ => true
  | posInf, _ => false
  | frac _ _, negInf => false
  | frac a b, frac c d => decide (a * d ≤ c * b)

end JSNum

/-- An argument of `calculateEngagement` as `parseInt` reads it: an integer-valued number
below 10^21 in magnitude (or its decimal string), or a value `parseInt` turns into NaN. -/
inductive CountArg where
  | count (n : Int)
  | nonNumeric
  deriving DecidableEq, Repr

/-- `parseInt(x)`; `none` is NaN. -/
def parseInt : CountArg → Option Int
  | .count n => some n
  | .nonNumeric => none

/-- The expression `parseInt(x) || 0`: NaN and 0 are falsy and give 0. -/
def parseIntOrZero (x : CountArg) : Int :=
  match parseInt x with
  | some n => if n = 0 then 0 else n
  | none => 0

/-- An entry of `ENGAGEMENT.RATINGS`. -/
structure Rating where
  maxRatio : JSNum
  color : String
  insight : String
  deriving DecidableEq, Repr

/-- `ENGAGEMENT.RATINGS`. -/
structure Ratings where
  EXCELLENT : Rating
  VERY_GOOD : Rating
  GOOD : Rating
  AVERAGE : Rating
  LOW : Rating
  deriving DecidableEq, Repr

/-- `ENGAGEMENT`. -/
structure EngagementSettings where
  RATINGS : Option Ratings
  deriving DecidableEq, Repr

/-- The object `config()` returns, as far as the engagement calculator reads it. -/
structure EngagementConfig where
  ENGAGEMENT : Option EngagementSettings
  deriving DecidableEq, Repr

/-- `ENGAGEMENT.RATINGS` of src/config.js (lines 111-117). -/
def configRatings : Ratings :=
  { EXCELLENT := ⟨.frac 1 2, "#4A5D4A", "Base de seguidores excelente"⟩
    VERY_GOOD := ⟨.frac 1 1, "#2E3F2F", "Cuenta bien equilibrada"⟩
    GOOD := ⟨.frac 2 1, "#C9A24D", "Engagement activo"⟩
    AVERAGE := ⟨.frac 5 1, "#8A6F2F", "Considerar optimizar"⟩
    LOW := ⟨.posInf, "#8B3A3A", "Ratio de seguimiento alto"⟩ }

/-- The frozen `StudioConfig` of src/config.js, as far as the engagement calculator reads it. -/
def studioEngagement : EngagementConfig := ⟨some ⟨some configRatings⟩⟩

/-- The value `{}` of `config()` when `window.StudioConfig` is not set. -/
def emptyEngagement : EngagementConfig := ⟨none⟩

/-- The inline default of lines 285-291. -/
def defaultRatings : Ratings :=
  { EXCELLENT := ⟨.frac 1 2, "#4CAF50", "Excelente base de seguidores"⟩
    VERY_GOOD := ⟨.frac 1 1, "#8BC34A", "Cuenta bien equilibrada"⟩
    GOOD := ⟨.frac 2 1, "#FFC107", "Engagement activo"⟩
    AVERAGE := ⟨.frac 5 1, "#FF9800", "Considera optimizar"⟩
    LOW := ⟨.posInf, "#F44336", "Ratio de seguimiento alto"⟩ }

/-- `config().ENGAGEMENT?.RATINGS || { ... }` (lines 285-291). -/
def ratingsOf (cfg : EngagementConfig) : Ratings :=
  match cfg.ENGAGEMENT with
  | some e => e.RATINGS.getD defaultRatings
  | none => defaultRatings

/-- The loop behind `decimal`; `fuel` bounds the number of digits. -/
def decimalAux : Nat → Nat → JSString
  | 0, _ => []
  | fuel + 1, n => if n < 10 then [48 + n] else decimalAux fuel (n / 10) ++ [48 + n % 10]

/-- The decimal digits of `n` as code units, most significant first (`"0"` for 0). -/
def decimal (n : Nat) : JSString := decimalAux (n + 1) n

/-- The digits `Number.prototype.toFixed(2)` prints for a number `x ≥ 0`, given the
integer `n` nearest to `100 x`: the digits of `n`, padded with zeros to three digits, with
a point before the last two. -/
def fixed2 (n : Nat) : JSString :=
  let m := decimal n
  let m := if m.length ≤ 2 then List.replicate (3 - m.length) 48 ++ m else m
  m.take (m.length - 2) ++ [46] ++ m.drop (m.length - 2)

/-- The value of the `ratio` property: a number (`ratio: 0`, `ratio: Infinity`) or the
string `ratio.toFixed(2)`.  From `10 ^ 21` on `toFixed` returns the exponent form of
`Number::toString` (such as `"1e+21"`), whose digits are not spelled out here: that string
is kept as the number it denotes (`exponential`). -/
inductive RatioField where
  | number (x : JSNum)
  | string (s : JSString)
  | exponential (x : JSNum)
  deriving DecidableEq, Repr

/-- `x.toFixed(2)` for a binary64 number `x`: for finite `|x| < 10 ^ 21` the sign, then
`fixed2 n` for the integer `n` nearest to `100 |x|`, the larger one at a tie. -/
def toFixed2 : JSNum → RatioField
  | .nan => .string (str "NaN")
  | .posInf => .string (str "Infinity")
  | .negInf => .string (str "-Infinity")
  | .frac a d =>
    if 10 ^ 21 * d ≤ a.natAbs then .exponential (.frac a d)
    else
      let n := (200 * a.natAbs + d) / (2 * d)
      .string ((if a < 0 then [45] else []) ++ fixed2 n)

/-- The number a digit string denotes. -/
def ofDigits (s : JSString) : Nat := s.foldl (fun acc u => 10 * acc + (u - 48)) 0

/-- The number a string returned by `toFixed` denotes: `NaN`, an infinity, or an optional
minus sign, digits, and digits after a point. -/
def decimalValue (s : JSString) : JSNum :=
  if s = str "NaN" then .nan
  else if s = str "Infinity" then .posInf
  else if s = str "-Infinity" then .negInf
  else
    let negative := s.head? == some 45
    let body := if negative then s.tail else s
    let whole := body.takeWhile fun u => u != 46
    let fraction := (body.dropWhile fun u => u != 46).drop 1
    .frac (if negative then -(ofDigits (whole ++ fraction) : Int)
      else (ofDigits (whole ++ fraction) : Int)) (10 ^ fraction.length)

/-- The number a `ratio` property holds or denotes. -/
def RatioField.value : RatioField → JSNum
  | .number x => x
  | .string s => decimalValue s
  | .exponential x => x

/-- The number `x.toFixed(2)` denotes for a number `t ≥ 0`: `t` itself from `10 ^ 21` on,
and below that the multiple of 1/100 nearest to `t`, the larger one at a tie. -/
def fixedValuePos (t : ℚ) : ℚ := if 10 ^ 21 ≤ t then t else (⌊100 * t + 1 / 2⌋ : ℚ) / 100

/-- The number `x.toFixed(2)` denotes: the sign is set aside before rounding. -/
def fixedValue (r : ℚ) : ℚ := if r < 0 then -fixedValuePos (-r) else fixedValuePos r

/-- The object `calculateEngagement` returns; `none` is a property the object lacks. -/
structure EngagementResult where
  ratio : RatioField
  rating : String
  insight : String
  color : String
  recommendation : String
  followers : Option Int
  following : Option Int
  difference : Option Int
  deriving DecidableEq, Repr

/-- The `if` chain of lines 293-318: `rating`, `insight`, `color`, `recommendation`. -/
def selectBand (ratings : Ratings) (ratio : JSNum) : String × String × String × String :=
  if ratio.lt ratings.EXCELLENT.maxRatio then
    ("Excelente", ratings.EXCELLENT.insight, ratings.EXCELLENT.color,
      "¡Mantén el buen trabajo! Tu cuenta tiene una presencia fuerte.")
  else if ratio.lt ratings.VERY_GOOD.maxRatio then
    ("Muy Bueno", ratings.VERY_GOOD.insight, ratings.VERY_GOOD.color,
      "Tu cuenta está bien posicionada. Sigue creciendo orgánicamente.")
  else if ratio.lt ratings.GOOD.maxRatio then
    ("Bueno", ratings.GOOD.insight, ratings.GOOD.color,
      "Considera dejar de seguir cuentas inactivas para mejorar tu ratio.")
  else if ratio.lt ratings.AVERAGE.maxRatio then
    ("Promedio", ratings.AVERAGE.insight, ratings.AVERAGE.color,
      "Revisa las cuentas que sigues y limpia las que no te siguen de vuelta.")
  else
    ("Bajo", ratings.LOW.insight, ratings.LOW.color,
      "Te recomendamos hacer una limpieza de seguidos para mejorar tu presencia.")

/-- `calculateEngagement(followers, following)`.  The quotient `ratio` of line 282 is kept
as the exact fraction for the comparisons with the ceilings; `toFixed` is applied to the
binary64 number the division returns. -/
def calculateEngagement (cfg : EngagementConfig) (followers following : CountArg) :
    EngagementResult :=
  let followers := parseIntOrZero followers
  let following := parseIntOrZero following
  if followers = 0 ∧ following = 0 then
    { ratio := .number (.frac 0 1)
      rating := "Sin Datos"
      insight := "No hay datos suficientes para el análisis"
      color := "#9E9E9E"
      recommendation := "Sube tus archivos de Instagram para obtener métricas"
      followers := none
      following := none
      difference := none }
  else if followers = 0 then
    { ratio := .number .posInf
      rating := "Muy Bajo"
      insight := "Sin seguidores detectados"
      color := "#F44336"
      recommendation := "Enfócate en crear contenido de calidad para atraer seguidores"
      followers := none
      following := none
      difference := none }
  else
    let ratio := JSNum.quot following followers
    let ratings := ratingsOf cfg
    let band := selectBand ratings ratio
    { ratio := toFixed2 ratio.round64
      rating := band.1
      insight := band.2.1
      color := band.2.2.1
      recommendation := band.2.2.2
      followers := some followers
      following := some following
      difference := some (followers - following) }

/-! ## The last step of `extractUsernames` (src/src/app.js line 303) -/

/-- The array `[...new Set(list)]`: the elements of `list`, each once, in the order of
their first occurrence. -/
def setToArray : List JSString → List JSString
  | [] => []
  | x :: xs => x :: (setToArray xs).filter fun y => y != x

/-- The value `extractUsernames` returns for the list `usernames` of strings collected from
the file (each already `String(u)`):
`[...new Set(usernames.map(u => String(u).trim()).filter(Boolean))]`. -/
def uniqueTrimmed (usernames : List JSString) : List JSString :=
  setToArray ((usernames.map trim).filter fun u => !u.isEmpty)

/-- A configuration with the catalog of config.js and the thresholds 90, 80, 60. -/
def strictThresholds : StudioConfig :=
  ⟨some ⟨some ⟨90, 80, 60, none⟩, some configPatterns, none⟩⟩

/-- The words of the specification: the handle ends with `_oficial`, `_real` or
`_original`, or with four ASCII digits. -/
def endsWithSuspiciousSuffix (s : JSString) : Bool :=
  (str "_oficial").isSuffixOf s || (str "_real").isSuffixOf s ||
  (str "_original").isSuffixOf s ||
  (decide (4 ≤ s.length) && (s.drop (s.length - 4)).all isDigit)

/-- The words of the specification for TEMP_PATTERN: the handle begins with one of the
listed words `temp`, `test`, `fake`, `bot`. -/
def beginsWithListedWord (s : JSString) : Bool :=
  ["temp", "test", "fake", "bot"].any fun w => (str w).isPrefixOf s

/-- The configuration of config.js with the first two catalog entries in the other order
(USER_PREFIX before MANY_NUMBERS). -/
def swappedCatalog : StudioConfig :=
  ⟨some ⟨some ⟨70, 50, 30, some 0⟩,
    some (match configPatterns with
      | a :: b :: rest => b :: a :: rest
      | other => other),
    some ⟨"#8B3A3A", "#C9A24D", "#5C4A1A", "#4A5D4A", some "#3A4F6B"⟩⟩⟩

/-- The words of the specification: the Shannon entropy `-Σ p_c * log2 p_c` of a sequence
of characters, over its distinct characters `c`, with `p_c` the count of `c` divided by
the number of characters. -/
noncomputable def shannonEntropy (chars : List JSString) : ℝ :=
  -(chars.dedup.map fun c =>
      ((chars.count c : ℝ) / (chars.length : ℝ))
        * Real.logb 2 ((chars.count c : ℝ) / (chars.length : ℝ))).sum

/-- The string made of `e.2` copies of the code unit `e.1`, for each entry `e` in turn. -/
def blocks : List (Nat × Nat) → JSString
  | [] => []
  | e :: rest => List.replicate e.2 e.1 ++ blocks rest

/-- A string of 160000001 letters: 10000001 times "a", then 10000000 times each of the
letters "b" to "p". -/
def nearlyUniform : JSString :=
  blocks [(97, 10000001), (98, 10000000), (99, 10000000), (100, 10000000),
    (101, 10000000), (102, 10000000), (103, 10000000), (104, 10000000),
    (105, 10000000), (106, 10000000), (107, 10000000), (108, 10000000),
    (109, 10000000), (110, 10000000), (111, 10000000), (112, 10000000)]

/-- A catalog a caller injects: one pattern that matches every handle, of weight -5. -/
def negativeCatalog : StudioConfig :=
  ⟨some ⟨none, some [("NEGATIVE", ⟨fun _ => true, -5, "Negative weight"⟩)], none⟩⟩

/-! ## Derived quantities used to state the results -/

/-- The entry pushed for a matching catalog pattern (lines 62-66). -/
def toDetected (entry : String × Pattern) : DetectedPattern :=
  ⟨entry.1, entry.2.description, entry.2.score⟩

/-- The catalog patterns whose regex matches, in catalog order. -/
def matching (patterns : List (String × Pattern)) (n : JSString) : List (String × Pattern) :=
  patterns.filter fun entry => entry.2.regex n

/-- The sum of the weights of the additional heuristics that are triggered. -/
def heuristicWeight (n : JSString) : Int :=
  (if (calculateEntropy n).gt 4 then 15 else 0) +
  (if hasKeyboardPattern n then 10 else 0) +
  (if (JSNum.div ((n.filter isDigit).length : Nat) n.length).gtFrac 1 2 then 20 else 0) +
  (if retest suffixBranches n then 10 else 0)

/-- The score before the cap of line 76. -/
def rawScore (cfg : StudioConfig) (n : JSString) : Int :=
  (testPatterns (patternsOf cfg) n).1 + (analyzeAdditionalHeuristics n).score

/-- The list `detectedPatterns` after line 73. -/
def detectedOf (cfg : StudioConfig) (n : JSString) : List DetectedPattern :=
  (testPatterns (patternsOf cfg) n).2 ++ (analyzeAdditionalHeuristics n).patterns

/-- The label chosen at lines 87-99. -/
def classify (t : Thresholds) (score : Int) : String :=
  if score ≥ t.LIKELY_BOT then "Bot Probable"
  else if score ≥ t.SUSPICIOUS then "Sospechoso"
  else if score ≥ t.POSSIBLE_BOT then "Posible Bot"
  else "Usuario Real"

/-- The colour chosen at lines 87-99. -/
def colorFor (t : Thresholds) (c : Colors) (score : Int) : String :=
  if score ≥ t.LIKELY_BOT then c.LIKELY_BOT
  else if score ≥ t.SUSPICIOUS then c.SUSPICIOUS
  else if score ≥ t.POSSIBLE_BOT then c.POSSIBLE_BOT
  else c.REAL_USER

/-! ## The pattern loop and the heuristics -/

theorem testPatterns_foldl (n : JSString) (ps : List (String × Pattern)) (a : Int)
    (l : List DetectedPattern) :
    ps.foldl
      (fun acc entry =>
        if entry.2.regex n then
          (acc.1 + entry.2.score, acc.2 ++ [⟨entry.1, entry.2.description, entry.2.score⟩])
        else acc)
      (a, l)
    = (a + ((matching ps n).map fun e => e.2.score).sum, l ++ (matching ps n).map toDetected) := by
  induction ps generalizing a l with
  | nil => simp [matching]
  | cons p ps ih =>
    rw [List.foldl_cons]
    by_cases hp : p.2.regex n = true
    · rw [if_pos hp, ih]
      simp [matching, List.filter_cons, hp, toDetected, add_assoc]
    · rw [if_neg hp, ih]
      simp [matching, List.filter_cons, hp]

theorem testPatterns_eq (ps : List (String × Pattern)) (n : JSString) :
    testPatterns ps n
      = (((matching ps n).map fun e => e.2.score).sum, (matching ps n).map toDetected) := by
  unfold testPatterns
  rw [testPatterns_foldl]
  simp

theorem additional_score (n : JSString) :
    (analyzeAdditionalHeuristics n).score = heuristicWeight n := by
  simp only [analyzeAdditionalHeuristics, Additional.push, heuristicWeight]
  split_ifs <;> rfl

theorem push_sum (acc : Additional) (c : Bool) (nm d : String) (w : Int)
    (h : acc.score = (acc.patterns.map fun p => p.score).sum) :
    (acc.push c nm d w).score = ((acc.push c nm d w).patterns.map fun p => p.score).sum := by
  unfold Additional.push
  split_ifs
  · simp [h]
  · exact h

theorem additional_sum (n : JSString) :
    (analyzeAdditionalHeuristics n).score
      = ((analyzeAdditionalHeuristics n).patterns.map fun p => p.score).sum := by
  unfold analyzeAdditionalHeuristics
  exact push_sum _ _ _ _ _ (push_sum _ _ _ _ _ (push_sum _ _ _ _ _ (push_sum _ _ _ _ _ rfl)))

theorem additional_nonneg (n : JSString) : 0 ≤ (analyzeAdditionalHeuristics n).score := by
  rw [additional_score]
  unfold heuristicWeight
  split_ifs <;> decide

/-! ## The shape of a `detectBot` result -/

theorem detectBot_guard (lower : JSString → JSString) (cfg : StudioConfig) (v : JSValue)
    (hv : v = .string [] ∨ v.isString = false) :
    detectBot lower cfg v = createBotResult 0 "Unknown" "Invalid username" [] := by
  rcases hv with rfl | hv
  · simp [detectBot, JSValue.truthy]
  · simp [detectBot, hv]

theorem detectBot_string (lower : JSString → JSString) (cfg : StudioConfig) (h : JSString)
    (hne : h ≠ []) :
    detectBot lower cfg (.string h)
      = createBotResult (min (rawScore cfg (normalize lower h)) 100)
          (classify (thresholdsOf cfg) (min (rawScore cfg (normalize lower h)) 100))
          (colorFor (thresholdsOf cfg) (colorsOf cfg) (min (rawScore cfg (normalize lower h)) 100))
          (detectedOf cfg (normalize lower h)) := by
  simp only [detectBot, JSValue.truthy, JSValue.isString, JSValue.toJSString, classify, colorFor,
    rawScore, detectedOf]
  have : h.isEmpty = false := by cases h <;> simp_all
  simp only [this]
  split_ifs <;> simp_all

/-! ## Relationship classification -/

theorem mem_filter_has (xs ys : List JSString) (u : JSString) :
    u ∈ xs.filter (fun v => (JSSet.mk ys).has v) ↔ u ∈ xs ∧ u ∈ ys := by
  simp [JSSet.has]

theorem mem_filter_not_has (xs ys : List JSString) (u : JSString) :
    u ∈ xs.filter (fun v => !(JSSet.mk ys).has v) ↔ u ∈ xs ∧ u ∉ ys := by
  simp [JSSet.has]

/-- C1. The classification of `analyzeData` splits `following` into `notFollowingBack` and
`mutuals` (disjoint, union `following`), `mutuals` is the intersection of the two lists,
and `followers` splits into `onlyFollowers` and `mutuals` (disjoint, union `followers`).
It holds for all lists, duplicate-free or not. -/
theorem analyzeData_partition (followers following : List JSString) :
    (∀ u, u ∈ (analyzeData followers following).notFollowingBack ∨
        u ∈ (analyzeData followers following).mutuals ↔ u ∈ following) ∧
    (∀ u, ¬ (u ∈ (analyzeData followers following).notFollowingBack ∧
        u ∈ (analyzeData followers following).mutuals)) ∧
    (∀ u, u ∈ (analyzeData followers following).mutuals ↔ u ∈ followers ∧ u ∈ following) ∧
    (∀ u, u ∈ (analyzeData followers following).onlyFollowers ∨
        u ∈ (analyzeData followers following).mutuals ↔ u ∈ followers) ∧
    (∀ u, ¬ (u ∈ (analyzeData followers following).onlyFollowers ∧
        u ∈ (analyzeData followers following).mutuals)) := by
  simp only [analyzeData, mem_filter_has, mem_filter_not_has]
  refine ⟨?_, ?_, ?_, ?_, ?_⟩ <;> intro u <;> tauto

/-! ## Normalization -/

theorem trim_eq (s : JSString) : trim s = (s.dropWhile isTrimUnit).rdropWhile isTrimUnit := rfl

theorem dropWhile_rdropWhile (p : Nat → Bool) (a : List Nat)
    (ha : a.dropWhile p = a) : (a.rdropWhile p).dropWhile p = a.rdropWhile p := by
  rcases hb : a.rdropWhile p with _ | ⟨x, t⟩
  · rfl
  · have hpre : (x :: t) <+: a := hb ▸ List.rdropWhile_prefix p a
    obtain ⟨r, hr⟩ := hpre
    subst hr
    have hx : ¬ p x = true := by
      have := (List.dropWhile_eq_self_iff).1 ha (by simp)
      simpa using this
    simp [List.dropWhile_cons, hx]

theorem trim_trim (s : JSString) : trim (trim s) = trim s := by
  simp only [trim_eq]
  rw [dropWhile_rdropWhile _ _ (List.dropWhile_idempotent _ _), List.rdropWhile_idempotent]

theorem trim_nil : trim [] = [] := rfl

theorem detectBot_lower_congr (lower lower2 : JSString → JSString) (cfg : StudioConfig)
    (h : JSString) (hl : lower h = lower2 h) :
    detectBot lower cfg (.string h) = detectBot lower2 cfg (.string h) := by
  simp only [detectBot, normalize, JSValue.toJSString, hl]

/-- C2 (amended). A handle and its lowercased, trimmed form get the same result from
`detectBot` (score, classification and all other fields), unless the handle is not empty
and its normalized form is: such a handle is scored as a string, its normalized form is
rejected as invalid.  `lower` is assumed to fix the empty string and the normalized form. -/
theorem detectBot_normalize (lower : JSString → JSString) (cfg : StudioConfig) (h : JSString)
    (hnil : lower [] = [])
    (hlow : lower (normalize lower h) = normalize lower h)
    (hne : normalize lower h = [] → h = []) :
    detectBot lower cfg (.string h) = detectBot lower cfg (.string (normalize lower h)) := by
  by_cases hh : h = []
  · subst hh
    simp [normalize, hnil, trim_nil]
  · have hn : normalize lower h ≠ [] := fun e => hh (hne e)
    have hnn : normalize lower (normalize lower h) = normalize lower h := by
      rw [normalize, hlow]
      exact trim_trim _
    rw [detectBot_string lower cfg h hh, detectBot_string lower cfg _ hn, hnn]

/-- C2 (witness): the handle " User12 " with the configuration of config.js. -/
theorem detectBot_normalize_witness :
    asciiToLowerCase [] = [] ∧
    asciiToLowerCase (normalize asciiToLowerCase (str " User12 "))
      = normalize asciiToLowerCase (str " User12 ") ∧
    (normalize asciiToLowerCase (str " User12 ") = [] → str " User12 " = []) ∧
    detectBot asciiToLowerCase studioConfig (.string (str " User12 "))
      = detectBot asciiToLowerCase studioConfig
          (.string (normalize asciiToLowerCase (str " User12 "))) :=
  ⟨by decide, by decide, by decide,
    detectBot_normalize asciiToLowerCase studioConfig (str " User12 ")
      (by decide) (by decide) (by decide)⟩

/-- C2 (counterexample). The handle of three spaces is classified 'Usuario Real', its
lowercased, trimmed form (the empty string) 'Unknown'. -/
theorem detectBot_blank_classification :
    (detectBot asciiToLowerCase studioConfig (.string (str "   "))).classification
      = "Usuario Real" ∧
    (detectBot asciiToLowerCase studioConfig
      (.string (normalize asciiToLowerCase (str "   ")))).classification = "Unknown" ∧
    (detectBot asciiToLowerCase studioConfig (.string (str "   "))).classification
      ≠ (detectBot asciiToLowerCase studioConfig
          (.string (normalize asciiToLowerCase (str "   ")))).classification := by
  decide

/-! ## Score and classification -/

theorem detectBot_score (lower : JSString → JSString) (cfg : StudioConfig) (h : JSString)
    (hne : h ≠ []) :
    (detectBot lower cfg (.string h)).score = min (rawScore cfg (normalize lower h)) 100 := by
  rw [detectBot_string lower cfg h hne]
  rfl

theorem detectBot_patterns (lower : JSString → JSString) (cfg : StudioConfig) (h : JSString)
    (hne : h ≠ []) :
    (detectBot lower cfg (.string h)).patterns = detectedOf cfg (normalize lower h) := by
  rw [detectBot_string lower cfg h hne]
  rfl

theorem detectBot_label (lower : JSString → JSString) (cfg : StudioConfig) (h : JSString)
    (hne : h ≠ []) :
    (detectBot lower cfg (.string h)).classification
      = classify (thresholdsOf cfg) (detectBot lower cfg (.string h)).score := by
  rw [detectBot_string lower cfg h hne]
  rfl

theorem rawScore_eq (cfg : StudioConfig) (n : JSString) :
    rawScore cfg n
      = ((matching (patternsOf cfg) n).map fun e => e.2.score).sum + heuristicWeight n := by
  rw [rawScore, testPatterns_eq, additional_score]

theorem rawScore_eq_sum (cfg : StudioConfig) (n : JSString) :
    rawScore cfg n = ((detectedOf cfg n).map fun p => p.score).sum := by
  rw [rawScore, detectedOf, testPatterns_eq, List.map_append, List.sum_append,
    ← additional_sum, List.map_map]
  rfl

theorem rawScore_nonneg (cfg : StudioConfig) (n : JSString)
    (hw : ∀ e ∈ patternsOf cfg, 0 ≤ e.2.score) : 0 ≤ rawScore cfg n := by
  rw [rawScore, testPatterns_eq]
  have h1 : 0 ≤ ((matching (patternsOf cfg) n).map fun e => e.2.score).sum := by
    apply List.sum_nonneg
    intro x hx
    obtain ⟨e, he, rfl⟩ := List.mem_map.1 hx
    exact hw e (List.mem_of_mem_filter he)
  have h2 := additional_nonneg n
  show 0 ≤ _ + _
  omega

/-- C3. For a non-empty string handle the score is `min(100, S)`, with `S` the sum of the
weights of the catalog patterns that match the normalized handle plus the weights (15, 10,
20, 10) of the additional heuristics that are triggered; it is also `min(100, ·)` of the
sum of the `score` fields of the returned `patterns` list. -/
theorem detectBot_score_sum (lower : JSString → JSString) (cfg : StudioConfig) (h : JSString)
    (hne : h ≠ []) :
    (detectBot lower cfg (.string h)).score
      = min 100
          ((((patternsOf cfg).filter fun e => e.2.regex (normalize lower h)).map
              fun e => e.2.score).sum
            + ((if (calculateEntropy (normalize lower h)).gt 4 then 15 else 0)
              + (if hasKeyboardPattern (normalize lower h) then 10 else 0)
              + (if (JSNum.div (((normalize lower h).filter isDigit).length : Nat)
                    (normalize lower h).length).gtFrac 1 2 then 20 else 0)
              + (if retest suffixBranches (normalize lower h) then 10 else 0))) ∧
    (detectBot lower cfg (.string h)).score
      = min 100 (((detectBot lower cfg (.string h)).patterns.map fun p => p.score).sum) := by
  constructor
  · rw [detectBot_score lower cfg h hne, rawScore_eq, min_comm]
    rfl
  · rw [detectBot_patterns lower cfg h hne, detectBot_score lower cfg h hne,
      rawScore_eq_sum, min_comm]

/-- C3 (witness): the handle "qwerty123". -/
theorem detectBot_score_sum_witness :
    str "qwerty123" ≠ [] ∧
    (detectBot asciiToLowerCase studioConfig (.string (str "qwerty123"))).score
      = min 100 (((detectBot asciiToLowerCase studioConfig
          (.string (str "qwerty123"))).patterns.map fun p => p.score).sum) :=
  ⟨by decide, (detectBot_score_sum asciiToLowerCase studioConfig (str "qwerty123")
    (by decide)).2⟩

/-- C4 (amended). For every value passed as handle and every catalog whose weights are
non-negative integers, the score is an integer between 0 and 100. -/
theorem detectBot_score_range (lower : JSString → JSString) (cfg : StudioConfig) (v : JSValue)
    (hw : ∀ e ∈ patternsOf cfg, 0 ≤ e.2.score) :
    0 ≤ (detectBot lower cfg v).score ∧ (detectBot lower cfg v).score ≤ 100 := by
  by_cases hv : v = .string [] ∨ v.isString = false
  · rw [detectBot_guard lower cfg v hv]
    decide
  · obtain ⟨h, rfl, hne⟩ : ∃ h, v = .string h ∧ h ≠ [] := by
      cases v <;> simp_all [JSValue.isString]
    rw [detectBot_score lower cfg h hne]
    have := rawScore_nonneg cfg (normalize lower h) hw
    omega

theorem configPatterns_nonneg : ∀ e ∈ configPatterns, 0 ≤ e.2.score := by
  simp [configPatterns]

theorem getDefaultPatterns_nonneg : ∀ e ∈ getDefaultPatterns, 0 ≤ e.2.score := by
  simp [getDefaultPatterns]

/-- C4 (witness): the catalog of config.js and the handle "user12345". -/
theorem detectBot_score_range_witness :
    (∀ e ∈ patternsOf studioConfig, 0 ≤ e.2.score) ∧
    0 ≤ (detectBot asciiToLowerCase studioConfig (.string (str "user12345"))).score ∧
    (detectBot asciiToLowerCase studioConfig (.string (str "user12345"))).score ≤ 100 :=
  ⟨configPatterns_nonneg,
    detectBot_score_range asciiToLowerCase studioConfig (.string (str "user12345"))
      configPatterns_nonneg⟩

/-- C4 (counterexample). With an injected catalog holding the integer weight -5 the
handle "a" gets the score -5, outside the range from 0 to 100. -/
theorem detectBot_negative_score :
    (detectBot asciiToLowerCase negativeCatalog (.string (str "a"))).score = -5 ∧
    ¬ (0 ≤ (detectBot asciiToLowerCase negativeCatalog (.string (str "a"))).score) := by
  decide

/-- C5. With the thresholds 70, 50, 30, the classification of a non-empty string handle
is 'Bot Probable' iff score >= 70, 'Sospechoso' iff 50 <= score < 70, 'Posible Bot' iff
30 <= score < 50, 'Usuario Real' iff score < 30, and it is one of these four labels. -/
theorem detectBot_classification (lower : JSString → JSString) (cfg : StudioConfig)
    (h : JSString) (hne : h ≠ [])
    (h70 : (thresholdsOf cfg).LIKELY_BOT = 70) (h50 : (thresholdsOf cfg).SUSPICIOUS = 50)
    (h30 : (thresholdsOf cfg).POSSIBLE_BOT = 30) :
    ((detectBot lower cfg (.string h)).classification = "Bot Probable"
      ↔ 70 ≤ (detectBot lower cfg (.string h)).score) ∧
    ((detectBot lower cfg (.string h)).classification = "Sospechoso"
      ↔ 50 ≤ (detectBot lower cfg (.string h)).score
        ∧ (detectBot lower cfg (.string h)).score < 70) ∧
    ((detectBot lower cfg (.string h)).classification = "Posible Bot"
      ↔ 30 ≤ (detectBot lower cfg (.string h)).score
        ∧ (detectBot lower cfg (.string h)).score < 50) ∧
    ((detectBot lower cfg (.string h)).classification = "Usuario Real"
      ↔ (detectBot lower cfg (.string h)).score < 30) ∧
    (detectBot lower cfg (.string h)).classification
      ∈ ["Bot Probable", "Sospechoso", "Posible Bot", "Usuario Real"] := by
  rw [detectBot_label lower cfg h hne]
  generalize (detectBot lower cfg (.string h)).score = s
  unfold classify
  rw [h70, h50, h30]
  split_ifs <;> refine ⟨?_, ?_, ?_, ?_, ?_⟩ <;>
    first
      | decide
      | (constructor <;> intro hh <;> first | omega | (exact absurd hh (by decide)) | rfl)

/-- C5 (witness): the handle "xy_1234" with the thresholds of config.js. -/
theorem detectBot_classification_witness :
    str "xy_1234" ≠ [] ∧ (thresholdsOf studioConfig).LIKELY_BOT = 70 ∧
    (thresholdsOf studioConfig).SUSPICIOUS = 50 ∧ (thresholdsOf studioConfig).POSSIBLE_BOT = 30 ∧
    ((detectBot asciiToLowerCase studioConfig (.string (str "xy_1234"))).classification
        = "Sospechoso"
      ↔ 50 ≤ (detectBot asciiToLowerCase studioConfig (.string (str "xy_1234"))).score
        ∧ (detectBot asciiToLowerCase studioConfig (.string (str "xy_1234"))).score < 70) :=
  ⟨by decide, rfl, rfl, rfl,
    (detectBot_classification asciiToLowerCase studioConfig (str "xy_1234") (by decide)
      rfl rfl rfl).2.1⟩

/-- C6. On the empty string and on every value that is not a string, `detectBot`
returns score 0, classification 'Unknown', no patterns and `isBot` false. -/
theorem detectBot_invalid (lower : JSString → JSString) (cfg : StudioConfig) (v : JSValue)
    (hv : v = .string [] ∨ v.isString = false) :
    (detectBot lower cfg v).score = 0 ∧
    (detectBot lower cfg v).classification = "Unknown" ∧
    (detectBot lower cfg v).patterns = [] ∧
    (detectBot lower cfg v).isBot = false := by
  rw [detectBot_guard lower cfg v hv]
  exact ⟨rfl, rfl, rfl, rfl⟩

/-- C6 (witness): the value `null`. -/
theorem detectBot_invalid_witness :
    (JSValue.null = .string [] ∨ JSValue.null.isString = false) ∧
    (detectBot asciiToLowerCase studioConfig .null).score = 0 ∧
    (detectBot asciiToLowerCase studioConfig .null).classification = "Unknown" ∧
    (detectBot asciiToLowerCase studioConfig .null).patterns = [] ∧
    (detectBot asciiToLowerCase studioConfig .null).isBot = false :=
  ⟨Or.inr rfl, detectBot_invalid asciiToLowerCase studioConfig .null (Or.inr rfl)⟩

/-! ## The handle "user12345" -/

/-- C7 (counterexample). The score of "user12345" is not 50 and its classification is not
'Sospechoso'. -/
theorem detectBot_user12345_not_50 :
    (detectBot asciiToLowerCase studioConfig (.string (str "user12345"))).score ≠ 50 ∧
    (detectBot asciiToLowerCase studioConfig (.string (str "user12345"))).classification
      ≠ "Sospechoso" := by
  decide

/-- C7 (amended). With either built-in catalog, `detectBot("user12345")` returns score 100
(105 before the cap) and 'Bot Probable': MANY_NUMBERS 25, USER_PREFIX 30,
ALL_LOWERCASE_NUMBERS 10, KEYBOARD_PATTERN 10 ("1234"), HIGH_DIGIT_RATIO 20 and
SUSPICIOUS_SUFFIX 10, in this order. -/
theorem detectBot_user12345 (lower : JSString → JSString) (cfg : StudioConfig)
    (hlow : lower (str "user12345") = str "user12345")
    (hcfg : cfg = studioConfig ∨ cfg = emptyConfig) :
    (detectBot lower cfg (.string (str "user12345"))).score = 100 ∧
    (detectBot lower cfg (.string (str "user12345"))).classification = "Bot Probable" ∧
    (detectBot lower cfg (.string (str "user12345"))).patterns.map (fun p => (p.name, p.score))
      = [("MANY_NUMBERS", 25), ("USER_PREFIX", 30), ("ALL_LOWERCASE_NUMBERS", 10),
         ("KEYBOARD_PATTERN", 10), ("HIGH_DIGIT_RATIO", 20), ("SUSPICIOUS_SUFFIX", 10)] := by
  have hl : lower (str "user12345") = asciiToLowerCase (str "user12345") := by
    rw [hlow]; decide
  rw [detectBot_lower_congr lower asciiToLowerCase cfg _ hl]
  rcases hcfg with rfl | rfl <;> decide

/-- C7 (witness): the configuration of config.js. -/
theorem detectBot_user12345_witness :
    asciiToLowerCase (str "user12345") = str "user12345" ∧
    (detectBot asciiToLowerCase studioConfig (.string (str "user12345"))).score = 100 ∧
    (detectBot asciiToLowerCase studioConfig (.string (str "user12345"))).classification
      = "Bot Probable" :=
  ⟨by decide,
    (detectBot_user12345 asciiToLowerCase studioConfig (by decide) (Or.inl rfl)).1,
    (detectBot_user12345 asciiToLowerCase studioConfig (by decide) (Or.inl rfl)).2.1⟩

/-! ## The generic user pattern -/

theorem matchRep_zero (c : Nat → Bool) (k : JSString → Bool) (s : JSString) :
    matchRep c k 0 (some 0) s = k s := by
  cases s <;> simp [matchRep]

theorem matchRep_one (c : Nat → Bool) (k : JSString → Bool) (x : Nat) (t : JSString) :
    matchRep c k 1 (some 1) (x :: t) = (c x && k t) := by
  have h10 : ((some 1 : Option Nat) != some 0) = true := by decide
  simp [matchRep, matchRep_zero, h10]

theorem matchRep_all (c : Nat → Bool) (k : JSString → Bool) (s : JSString) (lo : Nat)
    (hc : ∀ x ∈ s, c x = true) (hlo : lo ≤ s.length) (hk : k [] = true) :
    matchRep c k lo none s = true := by
  induction s generalizing lo with
  | nil =>
    have : lo = 0 := by simpa using hlo
    simp [matchRep, this, hk]
  | cons x t ih =>
    have hx : c x = true := hc x (List.mem_cons_self _ _)
    have ht := ih (lo - 1) (fun y hy => hc y (List.mem_cons_of_mem _ hy))
      (by simp at hlo; omega)
    simp [matchRep, hx, ht]

theorem str_user : str "user" = [117, 115, 101, 114] := by decide

theorem userPrefix_matches (ds : JSString) (hds : ds ≠ []) (hd : ∀ d ∈ ds, isDigit d = true) :
    retest [⟨true, wordI "user" ++ [⟨isDigit, 1, none⟩], true⟩] (str "user" ++ ds) = true := by
  have hlen : 1 ≤ ds.length := by
    cases ds with
    | nil => exact absurd rfl hds
    | cons _ _ => simp
  have hrep := matchRep_all isDigit (fun x => List.isEmpty x) ds 1 hd hlen rfl
  simp [retest, Branch.test, wordI, str_user, matchAtoms, matchRep_one, isUnitI, hrep]

theorem userPrefix_entry (cfg : StudioConfig)
    (hcat : patternsOf cfg = configPatterns ∨ patternsOf cfg = getDefaultPatterns) :
    (∃ e ∈ patternsOf cfg, e.1 = "USER_PREFIX" ∧ e.2.score = 30 ∧
      e.2.regex = retest [⟨true, wordI "user" ++ [⟨isDigit, 1, none⟩], true⟩]) ∧
    ∀ e ∈ patternsOf cfg, 0 ≤ e.2.score := by
  rcases hcat with hc | hc <;> rw [hc]
  · exact ⟨⟨_, List.mem_cons_of_mem _ (List.mem_cons_self _ _), rfl, rfl, rfl⟩,
      configPatterns_nonneg⟩
  · exact ⟨⟨_, List.mem_cons_of_mem _ (List.mem_cons_self _ _), rfl, rfl, rfl⟩,
      getDefaultPatterns_nonneg⟩

/-- C8. With a built-in catalog, every handle whose normalized form is "user" followed by
one or more ASCII digits has USER_PREFIX (weight 30) among its reported patterns and a
score of at least 30. -/
theorem detectBot_generic_user (lower : JSString → JSString) (cfg : StudioConfig)
    (h ds : JSString) (hnil : lower [] = [])
    (hn : normalize lower h = str "user" ++ ds) (hds : ds ≠ [])
    (hd : ∀ d ∈ ds, isDigit d = true)
    (hcat : patternsOf cfg = configPatterns ∨ patternsOf cfg = getDefaultPatterns) :
    (∃ p ∈ (detectBot lower cfg (.string h)).patterns, p.name = "USER_PREFIX" ∧ p.score = 30) ∧
    30 ≤ (detectBot lower cfg (.string h)).score := by
  have hne : h ≠ [] := by
    rintro rfl
    rw [normalize, hnil, trim_nil, str_user] at hn
    exact absurd hn (by simp)
  obtain ⟨⟨e, he, hname, hscore, hre⟩, hw⟩ := userPrefix_entry cfg hcat
  have hmatch : e ∈ matching (patternsOf cfg) (normalize lower h) := by
    refine List.mem_filter.2 ⟨he, ?_⟩
    rw [hre, hn]
    exact userPrefix_matches ds hds hd
  constructor
  · refine ⟨toDetected e, ?_, hname, hscore⟩
    rw [detectBot_patterns lower cfg h hne, detectedOf, testPatterns_eq]
    exact List.mem_append_left _ (List.mem_map_of_mem _ hmatch)
  · rw [detectBot_score lower cfg h hne, rawScore_eq]
    have hsum : (30 : Int)
        ≤ ((matching (patternsOf cfg) (normalize lower h)).map fun e => e.2.score).sum := by
      rw [← hscore]
      apply List.single_le_sum
      · intro x hx
        obtain ⟨e2, he2, rfl⟩ := List.mem_map.1 hx
        exact hw e2 (List.mem_of_mem_filter he2)
      · exact List.mem_map_of_mem (fun e => e.2.score) hmatch
    have hadd : 0 ≤ heuristicWeight (normalize lower h) := by
      rw [← additional_score]
      exact additional_nonneg _
    omega

/-- C8 (witness): the handle " USER77 ". -/
theorem detectBot_generic_user_witness :
    asciiToLowerCase [] = [] ∧
    normalize asciiToLowerCase (str " USER77 ") = str "user" ++ str "77" ∧
    str "77" ≠ [] ∧ (∀ d ∈ str "77", isDigit d = true) ∧
    (patternsOf studioConfig = configPatterns ∨ patternsOf studioConfig = getDefaultPatterns) ∧
    30 ≤ (detectBot asciiToLowerCase studioConfig (.string (str " USER77 "))).score :=
  ⟨by decide, by decide, by decide, by decide, Or.inl rfl,
    (detectBot_generic_user asciiToLowerCase studioConfig (str " USER77 ") (str "77")
      (by decide) (by decide) (by decide) (by decide) (Or.inl rfl)).2⟩

/-! ## Batches -/

theorem analyzeBatch_results (lower : JSString → JSString) (cfg : StudioConfig)
    (hs : List JSValue) :
    (analyzeBatch lower cfg (.array hs)).results
      = hs.map fun username => ⟨username, detectBot lower cfg username⟩ := rfl

/-- C9. The `results` of `analyzeBatch` have the length of the input array, and the entry
at every index holds the handle at that index and `detectBot` of that handle. -/
theorem analyzeBatch_order (lower : JSString → JSString) (cfg : StudioConfig)
    (hs : List JSValue) :
    (analyzeBatch lower cfg (.array hs)).results.length = hs.length ∧
    ∀ i : Nat,
      ((analyzeBatch lower cfg (.array hs)).results[i]?).map (fun r => r.username) = hs[i]? ∧
      ((analyzeBatch lower cfg (.array hs)).results[i]?).map (fun r => r.analysis)
        = (hs[i]?).map (detectBot lower cfg) := by
  rw [analyzeBatch_results]
  refine ⟨by simp, fun i => ?_⟩
  rw [List.getElem?_map]
  cases hs[i]? <;> simp

theorem foldl_score_sum (rs : List BatchEntry) (a : Int) :
    rs.foldl (fun sum r => sum + r.analysis.score) a
      = a + (rs.map fun r => r.analysis.score).sum := by
  induction rs generalizing a with
  | nil => simp
  | cons r rs ih => simp [ih, add_assoc]

/-! ## Entropy: the integer test against the real number -/

theorem sum_mul_logb (f : Nat → ℝ) (cs : List Nat) (hf : ∀ c ∈ cs, 0 < f c) :
    (cs.map fun (c : Nat) => (c : ℝ) * Real.logb 2 (f c)).sum
      = Real.logb 2 (cs.map fun (c : Nat) => f c ^ c).prod := by
  induction cs with
  | nil => simp
  | cons c cs ih =>
    have hc : 0 < f c := hf c (List.mem_cons_self _ _)
    have hcs : ∀ d ∈ cs, 0 < f d := fun d hd => hf d (List.mem_cons_of_mem _ hd)
    have hp : 0 < (cs.map fun (c : Nat) => f c ^ c).prod := by
      apply List.prod_pos
      intro x hx
      obtain ⟨d, hd, rfl⟩ := List.mem_map.1 hx
      exact pow_pos (hcs d hd) d
    rw [List.map_cons, List.sum_cons, List.map_cons, List.prod_cons,
      Real.logb_mul (pow_pos hc c).ne' hp.ne', Real.logb_pow, ih hcs]

theorem Entropy.value_eq (e : Entropy) (hlen : 0 < e.len) (hpos : ∀ c ∈ e.counts, 0 < c) :
    e.value * e.len
      = Real.logb 2 (e.counts.map fun (c : Nat) => (e.len : ℝ) ^ c).prod
        - Real.logb 2 (e.counts.map fun (c : Nat) => (c : ℝ) ^ c).prod := by
  have hn : (0 : ℝ) < e.len := by exact_mod_cast hlen
  rw [← sum_mul_logb (fun _ => (e.len : ℝ)) e.counts (fun _ _ => hn),
    ← sum_mul_logb (fun c => (c : ℝ)) e.counts
      (fun c hc => Nat.cast_pos.2 (hpos c hc))]
  unfold Entropy.value
  generalize e.counts = cs at hpos
  induction cs with
  | nil => simp
  | cons c cs ih =>
    have hc : (0 : ℝ) < c := by exact_mod_cast hpos c (List.mem_cons_self _ _)
    have ih2 := ih (fun d hd => hpos d (List.mem_cons_of_mem _ hd))
    simp only [List.map_cons, List.sum_cons] at ih2 ⊢
    rw [Real.logb_div hc.ne' hn.ne']
    have hne : (e.len : ℝ) ≠ 0 := hn.ne'
    field_simp
    field_simp at ih2
    linarith

theorem cast_prod_pow (n : Nat) (cs : List Nat) :
    (((cs.map fun (c : Nat) => n ^ c).prod : Nat) : ℝ)
      = (cs.map fun (c : Nat) => (n : ℝ) ^ c).prod := by
  induction cs with
  | nil => simp
  | cons c cs ih => simp [ih]

theorem cast_prod_self_pow (cs : List Nat) :
    (((cs.map fun (c : Nat) => c ^ c).prod : Nat) : ℝ)
      = (cs.map fun (c : Nat) => (c : ℝ) ^ c).prod := by
  induction cs with
  | nil => simp
  | cons c cs ih => simp [ih]

theorem Entropy.gt_iff (e : Entropy) (k : Nat) (hlen : 0 < e.len)
    (hpos : ∀ c ∈ e.counts, 0 < c) :
    e.gt k = true ↔ (k : ℝ) < e.value := by
  have hn : (0 : ℝ) < e.len := by exact_mod_cast hlen
  have hA : (0 : ℝ) < (e.counts.map fun (c : Nat) => (e.len : ℝ) ^ c).prod := by
    apply List.prod_pos
    intro x hx
    obtain ⟨d, _, rfl⟩ := List.mem_map.1 hx
    exact pow_pos hn d
  have hB : (0 : ℝ) < (e.counts.map fun (c : Nat) => (c : ℝ) ^ c).prod := by
    apply List.prod_pos
    intro x hx
    obtain ⟨d, hd, rfl⟩ := List.mem_map.1 hx
    exact pow_pos (by exact_mod_cast hpos d hd) d
  have h2 : (0 : ℝ) < 2 ^ (k * e.len) := by positivity
  have key : (k : ℝ) < e.value ↔
      Real.logb 2 (2 ^ (k * e.len) * (e.counts.map fun (c : Nat) => (c : ℝ) ^ c).prod)
        < Real.logb 2 (e.counts.map fun (c : Nat) => (e.len : ℝ) ^ c).prod := by
    rw [Real.logb_mul h2.ne' hB.ne', Real.logb_pow, Real.logb_self_eq_one (by norm_num)]
    have hv := Entropy.value_eq e hlen hpos
    push_cast
    constructor
    · intro h
      have : 0 < (e.value - k) * e.len := mul_pos (sub_pos.2 h) hn
      nlinarith
    · intro h
      have : 0 < (e.value - k) * e.len := by nlinarith
      exact sub_pos.1 ((pos_iff_pos_of_mul_pos this).2 hn)
  rw [key, Real.logb_lt_logb_iff (by norm_num) (mul_pos h2 hB) hA, ← cast_prod_pow,
    ← cast_prod_self_pow]
  unfold Entropy.gt
  rw [decide_eq_true_iff]
  constructor
  · intro h
    exact_mod_cast h
  · intro h
    exact_mod_cast h

theorem bump_pos (freq : List (JSString × Nat)) (ch : JSString)
    (h : ∀ p ∈ freq, 0 < p.2) : ∀ p ∈ bump freq ch, 0 < p.2 := by
  induction freq with
  | nil =>
    intro p hp
    simp only [bump, List.mem_singleton] at hp
    subst hp
    exact Nat.one_pos
  | cons q rest ih =>
    obtain ⟨key, count⟩ := q
    intro p hp
    simp only [bump] at hp
    split_ifs at hp with hk
    · rcases List.mem_cons.1 hp with rfl | hp
      · exact Nat.succ_pos _
      · exact h p (List.mem_cons_of_mem _ hp)
    · rcases List.mem_cons.1 hp with rfl | hp
      · exact h _ (List.mem_cons_self _ _)
      · exact ih (fun r hr => h r (List.mem_cons_of_mem _ hr)) p hp

theorem foldl_bump_pos (cps : List JSString) (freq : List (JSString × Nat))
    (h : ∀ p ∈ freq, 0 < p.2) : ∀ p ∈ cps.foldl bump freq, 0 < p.2 := by
  induction cps generalizing freq with
  | nil => simpa using h
  | cons ch cps ih => exact ih _ (bump_pos freq ch h)

theorem calculateEntropy_counts_pos (s : JSString) :
    ∀ c ∈ (calculateEntropy s).counts, 0 < c := by
  intro c hc
  simp only [calculateEntropy, List.mem_map] at hc
  obtain ⟨p, hp, rfl⟩ := hc
  exact foldl_bump_pos (codePoints s) [] (by simp) p hp

/-- The test `entropy > 4` of line 133, as the model decides it, is the comparison of the
real number `-Σ p * log2 p` with 4. -/
theorem calculateEntropy_gt_iff (s : JSString) (k : Nat) :
    (calculateEntropy s).gt k = true ↔ (k : ℝ) < (calculateEntropy s).value := by
  cases s with
  | nil => simp [calculateEntropy, codePoints, Entropy.gt, Entropy.value]
  | cons a t =>
    exact Entropy.gt_iff _ k (by simp [calculateEntropy]) (calculateEntropy_counts_pos _)

/-! ## Fields derived from the score alone -/

theorem detectBot_shape (lower : JSString → JSString) (cfg : StudioConfig) (v : JSValue) :
    ∃ c col ps, detectBot lower cfg v = createBotResult (detectBot lower cfg v).score c col ps := by
  by_cases hv : v = .string [] ∨ v.isString = false
  · rw [detectBot_guard lower cfg v hv]
    exact ⟨_, _, _, rfl⟩
  · obtain ⟨h, rfl, hne⟩ : ∃ h, v = .string h ∧ h ≠ [] := by
      cases v <;> simp_all [JSValue.isString]
    rw [detectBot_string lower cfg h hne]
    exact ⟨_, _, _, rfl⟩

theorem detectBot_score_congr (lower : JSString → JSString) (cfg cfg2 : StudioConfig)
    (v : JSValue) (hp : patternsOf cfg2 = patternsOf cfg) :
    (detectBot lower cfg2 v).score = (detectBot lower cfg v).score := by
  by_cases hv : v = .string [] ∨ v.isString = false
  · rw [detectBot_guard lower cfg v hv, detectBot_guard lower cfg2 v hv]
  · obtain ⟨h, rfl, hne⟩ : ∃ h, v = .string h ∧ h ≠ [] := by
      cases v <;> simp_all [JSValue.isString]
    rw [detectBot_score lower cfg h hne, detectBot_score lower cfg2 h hne, rawScore, rawScore, hp]

theorem length_filter_map (lower : JSString → JSString) (cfg : StudioConfig)
    (hs : List JSValue) (p : Int → Bool) :
    ((hs.map fun username => (⟨username, detectBot lower cfg username⟩ : BatchEntry)).filter
        fun r => p r.analysis.score).length
      = hs.countP fun u => p (detectBot lower cfg u).score := by
  rw [List.countP_eq_length_filter, List.filter_map, List.length_map]
  rfl

/-- C11. The four counts of the summary of `analyzeBatch` are the numbers of handles whose
score is at least 70, in [50, 70), in [30, 50) and below 30, whatever thresholds are
configured; a configuration with the same catalog and other thresholds gives the same
summary. -/
theorem analyzeBatch_bands (lower : JSString → JSString) (cfg cfg2 : StudioConfig)
    (hs : List JSValue) :
    ∃ s, (analyzeBatch lower cfg (.array hs)).summary = some s ∧
      s.likelyBots = hs.countP (fun u => decide (70 ≤ (detectBot lower cfg u).score)) ∧
      s.suspicious = hs.countP (fun u => decide (50 ≤ (detectBot lower cfg u).score)
        && decide ((detectBot lower cfg u).score < 70)) ∧
      s.possibleBots = hs.countP (fun u => decide (30 ≤ (detectBot lower cfg u).score)
        && decide ((detectBot lower cfg u).score < 50)) ∧
      s.realUsers = hs.countP (fun u => decide ((detectBot lower cfg u).score < 30)) ∧
      (patternsOf cfg2 = patternsOf cfg →
        (analyzeBatch lower cfg2 (.array hs)).summary = some s) := by
  refine ⟨_, rfl, ?_, ?_, ?_, ?_, ?_⟩
  · exact length_filter_map lower cfg hs fun x => decide (70 ≤ x)
  · exact length_filter_map lower cfg hs fun x => decide (50 ≤ x) && decide (x < 70)
  · exact length_filter_map lower cfg hs fun x => decide (30 ≤ x) && decide (x < 50)
  · exact length_filter_map lower cfg hs fun x => decide (x < 30)
  · intro hp
    have hsc : (fun u => (detectBot lower cfg2 u).score) = fun u => (detectBot lower cfg u).score :=
      funext fun u => detectBot_score_congr lower cfg cfg2 u hp
    simp only [analyzeBatch, List.length_map, foldl_score_sum, List.map_map, Function.comp_def,
      length_filter_map lower cfg2 hs (fun x => decide (x ≥ 70)),
      length_filter_map lower cfg2 hs (fun x => decide (x ≥ 50) && decide (x < 70)),
      length_filter_map lower cfg2 hs (fun x => decide (x ≥ 30) && decide (x < 50)),
      length_filter_map lower cfg2 hs (fun x => decide (x < 30)),
      length_filter_map lower cfg hs (fun x => decide (x ≥ 70)),
      length_filter_map lower cfg hs (fun x => decide (x ≥ 50) && decide (x < 70)),
      length_filter_map lower cfg hs (fun x => decide (x ≥ 30) && decide (x < 50)),
      length_filter_map lower cfg hs (fun x => decide (x < 30)),
      detectBot_score_congr lower cfg cfg2 _ hp]

/-- C11 (witness): config.js against the thresholds 90, 80, 60; the classification of
"xy_1234" changes, the summary does not. -/
theorem analyzeBatch_bands_witness :
    patternsOf strictThresholds = patternsOf studioConfig ∧
    (detectBot asciiToLowerCase strictThresholds (.string (str "xy_1234"))).classification
      ≠ (detectBot asciiToLowerCase studioConfig (.string (str "xy_1234"))).classification ∧
    ∃ s,
      (analyzeBatch asciiToLowerCase studioConfig
        (.array [.string (str "user12345"), .string (str "xy_1234"), .null])).summary = some s ∧
      (analyzeBatch asciiToLowerCase strictThresholds
        (.array [.string (str "user12345"), .string (str "xy_1234"), .null])).summary = some s :=
  ⟨rfl, by decide,
    let ⟨s, h1, _, _, _, _, h6⟩ := analyzeBatch_bands asciiToLowerCase studioConfig
      strictThresholds [.string (str "user12345"), .string (str "xy_1234"), .null]
    ⟨s, h1, h6 rfl⟩⟩

/-- C12. In every result of `detectBot`, `isBot` is true iff the score is at least 50,
whatever configuration (and SUSPICIOUS threshold) is in force. -/
theorem detectBot_isBot (lower : JSString → JSString) (cfg : StudioConfig) (v : JSValue) :
    (detectBot lower cfg v).isBot = true ↔ 50 ≤ (detectBot lower cfg v).score := by
  obtain ⟨c, col, ps, h⟩ := detectBot_shape lower cfg v
  generalize (detectBot lower cfg v).score = s at h
  rw [h]
  simp [createBotResult]

/-- C13. In every result of `detectBot`, `confidence` is 'Alta' iff score >= 70, 'Media'
iff 40 <= score < 70 and 'Baja' iff score < 40, whatever configuration is in force. -/
theorem detectBot_confidence (lower : JSString → JSString) (cfg : StudioConfig) (v : JSValue) :
    ((detectBot lower cfg v).confidence = "Alta" ↔ 70 ≤ (detectBot lower cfg v).score) ∧
    ((detectBot lower cfg v).confidence = "Media"
      ↔ 40 ≤ (detectBot lower cfg v).score ∧ (detectBot lower cfg v).score < 70) ∧
    ((detectBot lower cfg v).confidence = "Baja" ↔ (detectBot lower cfg v).score < 40) := by
  obtain ⟨c, col, ps, h⟩ := detectBot_shape lower cfg v
  have hc : (detectBot lower cfg v).confidence
      = if (detectBot lower cfg v).score ≥ 70 then "Alta"
        else if (detectBot lower cfg v).score ≥ 40 then "Media" else "Baja" := by
    generalize (detectBot lower cfg v).score = s at h
    rw [h]
    rfl
  rw [hc]
  generalize (detectBot lower cfg v).score = s
  split_ifs <;> refine ⟨?_, ?_, ?_⟩ <;>
    first
      | (constructor <;> intro hh <;> first | omega | (exact absurd hh (by decide)) | rfl)

/-! ## Engagement calculator -/

theorem parseIntOrZero_count (n : Int) : parseIntOrZero (.count n) = n := by
  simp only [parseIntOrZero, parseInt]
  split_ifs with h
  · exact h.symm
  · rfl

theorem quot_pos (a b : Int) (hb : 0 < b) : JSNum.quot a b = .frac a b.toNat := by
  unfold JSNum.quot JSNum.div
  have h1 : ¬ b < 0 := by omega
  have h2 : b.toNat ≠ 0 := by omega
  simp [h1, h2]

theorem calculateEngagement_nonzero (cfg : EngagementConfig) (followers following : Int)
    (hf : followers ≠ 0) :
    calculateEngagement cfg (.count followers) (.count following)
      = { ratio := toFixed2 (JSNum.quot following followers).round64
          rating := (selectBand (ratingsOf cfg) (JSNum.quot following followers)).1
          insight := (selectBand (ratingsOf cfg) (JSNum.quot following followers)).2.1
          color := (selectBand (ratingsOf cfg) (JSNum.quot following followers)).2.2.1
          recommendation := (selectBand (ratingsOf cfg) (JSNum.quot following followers)).2.2.2
          followers := some followers
          following := some following
          difference := some (followers - following) } := by
  simp [calculateEngagement, parseIntOrZero_count, hf]

theorem calculateEngagement_rating (cfg : EngagementConfig) (followers following : Int)
    (hpos : 0 < followers)
    (h1 : (ratingsOf cfg).EXCELLENT.maxRatio = .frac 1 2)
    (h2 : (ratingsOf cfg).VERY_GOOD.maxRatio = .frac 1 1)
    (h3 : (ratingsOf cfg).GOOD.maxRatio = .frac 2 1)
    (h4 : (ratingsOf cfg).AVERAGE.maxRatio = .frac 5 1) :
    (calculateEngagement cfg (.count followers) (.count following)).rating
      = if 2 * following < followers then "Excelente"
        else if following < followers then "Muy Bueno"
        else if following < 2 * followers then "Bueno"
        else if following < 5 * followers then "Promedio"
        else "Bajo" := by
  rw [calculateEngagement_nonzero cfg followers following (by omega), quot_pos _ _ hpos]
  have hn : ((followers.toNat : Nat) : Int) = followers := Int.toNat_of_nonneg (by omega)
  simp only [selectBand, h1, h2, h3, h4, JSNum.lt, hn, Nat.cast_ofNat, Nat.cast_one]
  split_ifs <;> first | rfl | (exfalso; simp at *; omega)

/-- C14. With the built-in ceilings 0.5, 1, 2, 5 and followers > 0, the rating is the
first band whose ceiling is strictly above following / followers: 'Excelente' iff
2 following < followers, 'Muy Bueno' iff followers <= 2 following and following < followers,
'Bueno' iff followers <= following < 2 followers, 'Promedio' iff
2 followers <= following < 5 followers, 'Bajo' iff following >= 5 followers. -/
theorem calculateEngagement_bands (cfg : EngagementConfig) (followers following : Int)
    (hpos : 0 < followers)
    (h1 : (ratingsOf cfg).EXCELLENT.maxRatio = .frac 1 2)
    (h2 : (ratingsOf cfg).VERY_GOOD.maxRatio = .frac 1 1)
    (h3 : (ratingsOf cfg).GOOD.maxRatio = .frac 2 1)
    (h4 : (ratingsOf cfg).AVERAGE.maxRatio = .frac 5 1) :
    ((calculateEngagement cfg (.count followers) (.count following)).rating = "Excelente"
      ↔ 2 * following < followers) ∧
    ((calculateEngagement cfg (.count followers) (.count following)).rating = "Muy Bueno"
      ↔ followers ≤ 2 * following ∧ following < followers) ∧
    ((calculateEngagement cfg (.count followers) (.count following)).rating = "Bueno"
      ↔ followers ≤ following ∧ following < 2 * followers) ∧
    ((calculateEngagement cfg (.count followers) (.count following)).rating = "Promedio"
      ↔ 2 * followers ≤ following ∧ following < 5 * followers) ∧
    ((calculateEngagement cfg (.count followers) (.count following)).rating = "Bajo"
      ↔ 5 * followers ≤ following) := by
  rw [calculateEngagement_rating cfg followers following hpos h1 h2 h3 h4]
  split_ifs <;> refine ⟨?_, ?_, ?_, ?_, ?_⟩ <;>
    first
      | (constructor <;> intro hh <;> first | omega | (exact absurd hh (by decide)) | rfl)

/-- C14 (witness): 10 followers, 7 following, ratings of config.js. -/
theorem calculateEngagement_bands_witness :
    (0 : Int) < 10 ∧
    (ratingsOf studioEngagement).EXCELLENT.maxRatio = .frac 1 2 ∧
    (ratingsOf studioEngagement).VERY_GOOD.maxRatio = .frac 1 1 ∧
    (ratingsOf studioEngagement).GOOD.maxRatio = .frac 2 1 ∧
    (ratingsOf studioEngagement).AVERAGE.maxRatio = .frac 5 1 ∧
    ((calculateEngagement studioEngagement (.count 10) (.count 7)).rating = "Muy Bueno"
      ↔ (10 : Int) ≤ 2 * 7 ∧ (7 : Int) < 10) :=
  ⟨by decide, rfl, rfl, rfl, rfl,
    (calculateEngagement_bands studioEngagement 10 7 (by decide) rfl rfl rfl rfl).2.1⟩

/-- C15 (counterexample). A ratio equal to a ceiling falls in the next band: 1/2 is rated
'Muy Bueno' (not 'Excelente'), 1 'Bueno', 2 'Promedio' and 5 'Bajo'. -/
theorem calculateEngagement_ceiling_excluded :
    (calculateEngagement studioEngagement (.count 2) (.count 1)).ratio = .string (str "0.50") ∧
    (calculateEngagement studioEngagement (.count 2) (.count 1)).rating = "Muy Bueno" ∧
    (calculateEngagement studioEngagement (.count 2) (.count 1)).rating ≠ "Excelente" ∧
    (calculateEngagement studioEngagement (.count 1) (.count 1)).rating = "Bueno" ∧
    (calculateEngagement studioEngagement (.count 1) (.count 2)).rating = "Promedio" ∧
    (calculateEngagement studioEngagement (.count 1) (.count 5)).rating = "Bajo" := by
  decide

/-- C15 (amended). The band ceilings are exclusive: for followers > 0 a ratio
following / followers below 0.5 is rated 'Excelente', from 0.5 to below 1 'Muy Bueno', from
1 to below 2 'Bueno', from 2 to below 5 'Promedio', and 5 or more 'Bajo'. -/
theorem calculateEngagement_exclusive (cfg : EngagementConfig) (followers following : Int)
    (hpos : 0 < followers)
    (h1 : (ratingsOf cfg).EXCELLENT.maxRatio = .frac 1 2)
    (h2 : (ratingsOf cfg).VERY_GOOD.maxRatio = .frac 1 1)
    (h3 : (ratingsOf cfg).GOOD.maxRatio = .frac 2 1)
    (h4 : (ratingsOf cfg).AVERAGE.maxRatio = .frac 5 1) :
    ((calculateEngagement cfg (.count followers) (.count following)).rating = "Excelente"
      ↔ (following : ℚ) / followers < 1 / 2) ∧
    ((calculateEngagement cfg (.count followers) (.count following)).rating = "Muy Bueno"
      ↔ 1 / 2 ≤ (following : ℚ) / followers ∧ (following : ℚ) / followers < 1) ∧
    ((calculateEngagement cfg (.count followers) (.count following)).rating = "Bueno"
      ↔ 1 ≤ (following : ℚ) / followers ∧ (following : ℚ) / followers < 2) ∧
    ((calculateEngagement cfg (.count followers) (.count following)).rating = "Promedio"
      ↔ 2 ≤ (following : ℚ) / followers ∧ (following : ℚ) / followers < 5) ∧
    ((calculateEngagement cfg (.count followers) (.count following)).rating = "Bajo"
      ↔ 5 ≤ (following : ℚ) / followers) := by
  have hq : (0 : ℚ) < followers := by exact_mod_cast hpos
  have e1 : (following : ℚ) / followers < 1 / 2 ↔ 2 * following < followers := by
    rw [div_lt_iff₀ hq]
    constructor
    · intro h
      have : (2 * following : ℚ) < followers := by linarith
      exact_mod_cast this
    · intro h
      have : (2 * following : ℚ) < followers := by exact_mod_cast h
      linarith
  have e2 : (following : ℚ) / followers < 1 ↔ following < followers := by
    rw [div_lt_iff₀ hq, one_mul]
    exact_mod_cast Iff.rfl
  have e3 : (following : ℚ) / followers < 2 ↔ following < 2 * followers := by
    rw [div_lt_iff₀ hq]
    exact_mod_cast Iff.rfl
  have e4 : (following : ℚ) / followers < 5 ↔ following < 5 * followers := by
    rw [div_lt_iff₀ hq]
    exact_mod_cast Iff.rfl
  have g1 : 1 / 2 ≤ (following : ℚ) / followers ↔ followers ≤ 2 * following := by
    rw [← not_lt, e1, not_lt]
  have g2 : 1 ≤ (following : ℚ) / followers ↔ followers ≤ following := by
    rw [← not_lt, e2, not_lt]
  have g3 : 2 ≤ (following : ℚ) / followers ↔ 2 * followers ≤ following := by
    rw [← not_lt, e3, not_lt]
  have g4 : 5 ≤ (following : ℚ) / followers ↔ 5 * followers ≤ following := by
    rw [← not_lt, e4, not_lt]
  rw [e1, e2, e3, e4, g1, g2, g3, g4,
    calculateEngagement_rating cfg followers following hpos h1 h2 h3 h4]
  split_ifs <;> refine ⟨?_, ?_, ?_, ?_, ?_⟩ <;>
    first
      | (constructor <;> intro hh <;> first | omega | (exact absurd hh (by decide)) | rfl)

/-- C15 (witness): 2 followers, 1 following, inline default ratings. -/
theorem calculateEngagement_exclusive_witness :
    (0 : Int) < 2 ∧
    (ratingsOf emptyEngagement).EXCELLENT.maxRatio = .frac 1 2 ∧
    (ratingsOf emptyEngagement).VERY_GOOD.maxRatio = .frac 1 1 ∧
    (ratingsOf emptyEngagement).GOOD.maxRatio = .frac 2 1 ∧
    (ratingsOf emptyEngagement).AVERAGE.maxRatio = .frac 5 1 ∧
    ((calculateEngagement emptyEngagement (.count 2) (.count 1)).rating = "Muy Bueno"
      ↔ 1 / 2 ≤ ((1 : Int) : ℚ) / ((2 : Int) : ℚ) ∧ ((1 : Int) : ℚ) / ((2 : Int) : ℚ) < 1) :=
  ⟨by decide, rfl, rfl, rfl, rfl,
    (calculateEngagement_exclusive emptyEngagement 2 1 (by decide) rfl rfl rfl rfl).2.1⟩

theorem selectBand_rating (ratings : Ratings) (ratio : JSNum) :
    (selectBand ratings ratio).1 ∈ ["Excelente", "Muy Bueno", "Bueno", "Promedio", "Bajo"] := by
  unfold selectBand
  split_ifs <;> simp

/-- C16. `calculateEngagement(0, 0)` has rating 'Sin Datos' and ratio 0; for following > 0,
`calculateEngagement(0, following)` has ratio Infinity, rating 'Muy Bajo' and the insight
'Sin seguidores detectados', which is not the insight of the built-in Low band; and the
rating is 'Sin Datos' only when both counts are zero. -/
theorem calculateEngagement_zero_followers (cfg : EngagementConfig)
    (followers following other : Int) (hf : 0 < following)
    (hlow : (ratingsOf cfg).LOW.insight = "Ratio de seguimiento alto") :
    (calculateEngagement cfg (.count 0) (.count 0)).rating = "Sin Datos" ∧
    (calculateEngagement cfg (.count 0) (.count 0)).ratio = .number (.frac 0 1) ∧
    (calculateEngagement cfg (.count 0) (.count following)).ratio = .number .posInf ∧
    (calculateEngagement cfg (.count 0) (.count following)).rating = "Muy Bajo" ∧
    (calculateEngagement cfg (.count 0) (.count following)).insight
      = "Sin seguidores detectados" ∧
    (calculateEngagement cfg (.count 0) (.count following)).insight
      ≠ (ratingsOf cfg).LOW.insight ∧
    ((calculateEngagement cfg (.count followers) (.count other)).rating = "Sin Datos"
      ↔ followers = 0 ∧ other = 0) := by
  have hne : following ≠ 0 := by omega
  refine ⟨rfl, rfl, ?_, ?_, ?_, ?_, ?_⟩
  · simp [calculateEngagement, parseIntOrZero_count, hne]
  · simp [calculateEngagement, parseIntOrZero_count, hne]
  · simp [calculateEngagement, parseIntOrZero_count, hne]
  · rw [hlow]
    simp only [calculateEngagement, parseIntOrZero_count, hne, and_false, if_false, if_true]
    decide
  · by_cases h0 : followers = 0
    · subst h0
      by_cases ho : other = 0
      · subst ho
        exact ⟨fun _ => ⟨rfl, rfl⟩, fun _ => rfl⟩
      · simp only [calculateEngagement, parseIntOrZero_count, ho, and_false, if_false, if_true,
          true_and]
        exact ⟨fun h => absurd h (by decide), fun h => absurd h (by simp)⟩
    · rw [calculateEngagement_nonzero cfg followers other h0]
      constructor
      · intro h
        have hm := selectBand_rating (ratingsOf cfg) (JSNum.quot other followers)
        have h2 : (selectBand (ratingsOf cfg) (JSNum.quot other followers)).1 = "Sin Datos" := h
        rw [h2] at hm
        exact absurd hm (by decide)
      · intro h
        exact absurd h.1 h0

/-- C16 (witness): 0 followers, 100 following, ratings of config.js. -/
theorem calculateEngagement_zero_followers_witness :
    (0 : Int) < 100 ∧
    (ratingsOf studioEngagement).LOW.insight = "Ratio de seguimiento alto" ∧
    (calculateEngagement studioEngagement (.count 0) (.count 100)).ratio = .number .posInf ∧
    (calculateEngagement studioEngagement (.count 0) (.count 100)).rating = "Muy Bajo" :=
  ⟨by decide, rfl,
    (calculateEngagement_zero_followers studioEngagement 3 100 4 (by decide) rfl).2.2.1,
    (calculateEngagement_zero_followers studioEngagement 3 100 4 (by decide) rfl).2.2.2.1⟩

/-- C17 (counterexample). With 0 followers the result has no `followers`, `following` or
`difference` property. -/
theorem calculateEngagement_no_difference :
    (calculateEngagement studioEngagement (.count 0) (.count 5)).difference = none ∧
    (calculateEngagement studioEngagement (.count 0) (.count 5)).followers = none ∧
    (calculateEngagement studioEngagement (.count 0) (.count 5)).following = none ∧
    (calculateEngagement studioEngagement (.count 0) (.count 0)).difference = none := by
  decide

/-- C17 (amended). When followers is not 0 the result holds `followers`, `following` and
`difference = followers - following`; when followers is 0 it holds none of the three. -/
theorem calculateEngagement_difference (cfg : EngagementConfig) (followers following : Int) :
    ((calculateEngagement cfg (.count followers) (.count following)).followers,
     (calculateEngagement cfg (.count followers) (.count following)).following,
     (calculateEngagement cfg (.count followers) (.count following)).difference)
      = if followers = 0 then (none, none, none)
        else (some followers, some following, some (followers - following)) := by
  by_cases h0 : followers = 0
  · subst h0
    by_cases hf : following = 0
    · subst hf
      rfl
    · simp [calculateEngagement, parseIntOrZero_count, hf]
  · rw [calculateEngagement_nonzero cfg followers following h0, if_neg h0]

/-! ## The digit ratio and the suffix heuristic -/

theorem gtFrac_half (d n : Nat) :
    (JSNum.div (d : Int) n).gtFrac 1 2 = true ↔ n < 2 * d := by
  unfold JSNum.div
  split_ifs with h1 h2 h3
  · subst h1
    have : d = 0 := by exact_mod_cast h2
    simp [JSNum.gtFrac, this]
  · subst h1
    have : 0 < d := by exact_mod_cast h3
    simp [JSNum.gtFrac, this]
  · exact absurd (Int.natCast_nonneg d) (by omega)
  · simp only [JSNum.gtFrac, decide_eq_true_eq]
    constructor <;> intro h <;> omega

/-- C20. The digit-ratio heuristic reports HIGH_DIGIT_RATIO (weight 20) iff twice the
number of ASCII digits exceeds the length of the normalized handle; exactly half does not
trigger it, and the empty handle triggers nothing. -/
theorem digitRatio_trigger (n : JSString) :
    ((∃ p ∈ (analyzeAdditionalHeuristics n).patterns, p.name = "HIGH_DIGIT_RATIO")
      ↔ n.length < 2 * (n.filter isDigit).length) ∧
    ((⟨"HIGH_DIGIT_RATIO", "Más del 50% son números", 20⟩ : DetectedPattern)
        ∈ (analyzeAdditionalHeuristics n).patterns
      ↔ n.length < 2 * (n.filter isDigit).length) ∧
    analyzeAdditionalHeuristics [] = ⟨0, []⟩ := by
  have hg := gtFrac_half (n.filter isDigit).length n.length
  refine ⟨?_, ?_, by decide⟩
  · rw [← hg]
    simp only [analyzeAdditionalHeuristics, Additional.push]
    split_ifs <;> simp_all
  · rw [← hg]
    simp only [analyzeAdditionalHeuristics, Additional.push]
    split_ifs <;> simp_all

theorem matchAtoms_units (l rest : JSString) :
    matchAtoms false (l.map fun c => (⟨isUnit c, 1, some 1⟩ : Atom)) (l ++ rest) = true := by
  induction l with
  | nil => simp [matchAtoms]
  | cons c l ih =>
    simp only [List.map_cons, List.cons_append, matchAtoms, matchRep_one, isUnit, beq_self_eq_true,
      Bool.true_and]
    exact ih

theorem word_test (w : String) (s : JSString) (h : str w <:+ s) :
    Branch.test ⟨false, word w, false⟩ s = true := by
  simp only [Branch.test, Bool.false_eq_true, if_false, List.any_eq_true]
  refine ⟨str w, (List.mem_tails _ _).2 h, ?_⟩
  have := matchAtoms_units (str w) []
  rwa [List.append_nil] at this

theorem four_digits_test (s : JSString) (hlen : 4 ≤ s.length)
    (hd : (s.drop (s.length - 4)).all isDigit = true) :
    Branch.test ⟨false, [⟨isDigit, 4, some 4⟩], true⟩ s = true := by
  simp only [Branch.test, Bool.false_eq_true, if_false, List.any_eq_true]
  refine ⟨s.drop (s.length - 4), (List.mem_tails _ _).2 (List.drop_suffix _ _), ?_⟩
  have hl : (s.drop (s.length - 4)).length = 4 := by
    rw [List.length_drop]; omega
  generalize s.drop (s.length - 4) = t at hd hl
  match t, hl with
  | [a, b, c, d], _ =>
    simp only [List.all_cons, List.all_nil, Bool.and_true, Bool.and_eq_true] at hd
    obtain ⟨ha, hb, hc, hd⟩ := hd
    simp [matchAtoms, matchRep, ha, hb, hc, hd]

/-- The half of the claimed equivalence that the code satisfies: a handle that ends with
one of the suffixes or with four digits triggers the heuristic. -/
theorem suffix_test_of_ending (s : JSString) (h : endsWithSuspiciousSuffix s = true) :
    retest suffixBranches s = true := by
  simp only [endsWithSuspiciousSuffix, Bool.or_eq_true, Bool.and_eq_true, decide_eq_true_eq,
    List.isSuffixOf_iff_suffix] at h
  simp only [retest, suffixBranches, List.any_cons, List.any_nil, Bool.or_false, Bool.or_eq_true]
  rcases h with ((h | h) | h) | ⟨h4, hd⟩
  · exact Or.inl (word_test _ s h)
  · exact Or.inr (Or.inl (word_test _ s h))
  · exact Or.inr (Or.inr (Or.inl (word_test _ s h)))
  · exact Or.inr (Or.inr (Or.inr (four_digits_test s h4 hd)))

/-- C19 (code at the failing input). The handle "the_realest" ends with none of `_oficial`,
`_real`, `_original` and not with four digits, yet the regex of line 164 matches it (it
contains `_real`), SUSPICIOUS_SUFFIX is reported and the score is 10. -/
theorem suffix_matches_inside :
    endsWithSuspiciousSuffix (str "the_realest") = false ∧
    retest suffixBranches (str "the_realest") = true ∧
    (analyzeAdditionalHeuristics (str "the_realest")).patterns
      = [⟨"SUSPICIOUS_SUFFIX", "Sufijo sospechoso", 10⟩] ∧
    (detectBot asciiToLowerCase studioConfig (.string (str "the_realest"))).score = 10 := by
  decide

/-! ## Order and sizes of the relationship lists -/

/-- C24. `notFollowingBack` and `mutuals` are sublists of `following` and `onlyFollowers`
is a sublist of `followers` (same relative order), and every element of an output is an
element of the list it was filtered from. -/
theorem analyzeData_sublists (followers following : List JSString) :
    List.Sublist (analyzeData followers following).notFollowingBack following ∧
    List.Sublist (analyzeData followers following).mutuals following ∧
    List.Sublist (analyzeData followers following).onlyFollowers followers ∧
    (∀ u ∈ (analyzeData followers following).notFollowingBack, u ∈ following) ∧
    (∀ u ∈ (analyzeData followers following).mutuals, u ∈ following) ∧
    (∀ u ∈ (analyzeData followers following).onlyFollowers, u ∈ followers) := by
  simp only [analyzeData]
  exact ⟨List.filter_sublist _, List.filter_sublist _, List.filter_sublist _,
    fun u hu => List.mem_of_mem_filter hu, fun u hu => List.mem_of_mem_filter hu,
    fun u hu => List.mem_of_mem_filter hu⟩

theorem length_filter_add (p : JSString → Bool) (xs : List JSString) :
    (xs.filter p).length + (xs.filter fun u => !p u).length = xs.length := by
  induction xs with
  | nil => rfl
  | cons x xs ih =>
    by_cases hx : p x = true
    · simp only [List.filter_cons, hx, Bool.not_true, if_true, List.length_cons]
      simp only [Bool.false_eq_true, if_false]
      omega
    · simp only [Bool.not_eq_true] at hx
      simp only [List.filter_cons, hx, Bool.not_false, if_true, List.length_cons]
      simp only [Bool.false_eq_true, if_false]
      omega

theorem length_filter_has_comm (xs ys : List JSString) (hx : xs.Nodup) (hy : ys.Nodup) :
    (ys.filter fun u => (JSSet.mk xs).has u).length
      = (xs.filter fun u => (JSSet.mk ys).has u).length := by
  apply List.Perm.length_eq
  rw [List.perm_ext_iff_of_nodup (hy.filter _) (hx.filter _)]
  intro u
  rw [mem_filter_has, mem_filter_has]
  exact And.comm

theorem setToArray_subset (l : List JSString) : ∀ u, u ∈ setToArray l ↔ u ∈ l := by
  induction l with
  | nil => simp [setToArray]
  | cons x xs ih =>
    intro u
    simp only [setToArray, List.mem_cons, List.mem_filter, ih, bne_iff_ne, ne_eq]
    by_cases hu : u = x
    · simp [hu]
    · simp [hu]

theorem setToArray_nodup (l : List JSString) : (setToArray l).Nodup := by
  induction l with
  | nil => simp [setToArray]
  | cons x xs ih =>
    simp only [setToArray, List.nodup_cons, List.mem_filter, bne_iff_ne, ne_eq, not_and,
      not_not]
    exact ⟨fun _ => trivial, ih.filter _⟩

theorem uniqueTrimmed_nodup (usernames : List JSString) : (uniqueTrimmed usernames).Nodup :=
  setToArray_nodup _

/-- C28. For duplicate-free lists the sizes add up: |mutuals| + |notFollowingBack| =
|following| and |mutuals| + |onlyFollowers| = |followers|. -/
theorem analyzeData_sizes (followers following : List JSString)
    (hf : followers.Nodup) (hg : following.Nodup) :
    (analyzeData followers following).mutuals.length
        + (analyzeData followers following).notFollowingBack.length = following.length ∧
    (analyzeData followers following).mutuals.length
        + (analyzeData followers following).onlyFollowers.length = followers.length := by
  simp only [analyzeData]
  constructor
  · exact length_filter_add (fun u => (JSSet.mk followers).has u) following
  · rw [length_filter_has_comm followers following hf hg]
    exact length_filter_add (fun u => (JSSet.mk following).has u) followers

/-- C28 (witness): two lists as `extractUsernames` returns them (trimmed, empty strings
dropped, first occurrences kept). -/
theorem analyzeData_sizes_witness :
    (uniqueTrimmed [str "ana", str " bea", str "ana ", str "", str "cleo"]).Nodup ∧
    (uniqueTrimmed [str "bea", str "dan", str "bea"]).Nodup ∧
    (analyzeData (uniqueTrimmed [str "ana", str " bea", str "ana ", str "", str "cleo"])
        (uniqueTrimmed [str "bea", str "dan", str "bea"])).mutuals.length
      + (analyzeData (uniqueTrimmed [str "ana", str " bea", str "ana ", str "", str "cleo"])
        (uniqueTrimmed [str "bea", str "dan", str "bea"])).onlyFollowers.length
      = (uniqueTrimmed [str "ana", str " bea", str "ana ", str "", str "cleo"]).length :=
  ⟨uniqueTrimmed_nodup _, uniqueTrimmed_nodup _,
    (analyzeData_sizes _ _ (uniqueTrimmed_nodup _) (uniqueTrimmed_nodup _)).2⟩

/-! ## The band counts of a batch -/

theorem band_counts (xs : List Int) :
    xs.countP (fun x => decide (x ≥ 70))
      + xs.countP (fun x => decide (x ≥ 50) && decide (x < 70))
      + xs.countP (fun x => decide (x ≥ 30) && decide (x < 50))
      + xs.countP (fun x => decide (x < 30)) = xs.length := by
  induction xs with
  | nil => rfl
  | cons x xs ih =>
    simp only [List.countP_cons, List.length_cons, ge_iff_le] at ih ⊢
    by_cases h70 : 70 ≤ x
    · have h1 : ¬ x < 70 := by omega
      have h2 : ¬ x < 50 := by omega
      have h3 : ¬ x < 30 := by omega
      have h4 : 50 ≤ x := by omega
      have h5 : 30 ≤ x := by omega
      simp only [h70, h1, h2, h3, h4, h5, decide_True, decide_False, Bool.and_false,
        Bool.and_true, if_true, Bool.false_eq_true, if_false]
      omega
    · by_cases h50 : 50 ≤ x
      · have h1 : x < 70 := by omega
        have h2 : ¬ x < 50 := by omega
        have h3 : ¬ x < 30 := by omega
        have h5 : 30 ≤ x := by omega
        simp only [h70, h50, h1, h2, h3, h5, decide_True, decide_False, Bool.and_false,
          Bool.and_true, if_true, Bool.false_eq_true, if_false]
        omega
      · by_cases h30 : 30 ≤ x
        · have h1 : x < 70 := by omega
          have h2 : x < 50 := by omega
          have h3 : ¬ x < 30 := by omega
          simp only [h70, h50, h30, h1, h2, h3, decide_True, decide_False, Bool.and_false,
            Bool.and_true, Bool.false_and, if_true, Bool.false_eq_true, if_false]
          omega
        · have h1 : x < 70 := by omega
          have h2 : x < 50 := by omega
          have h3 : x < 30 := by omega
          simp only [h70, h50, h30, h1, h2, h3, decide_True, decide_False, Bool.and_false,
            Bool.and_true, Bool.false_and, if_true, Bool.false_eq_true, if_false]
          omega

theorem countP_scores (lower : JSString → JSString) (cfg : StudioConfig)
    (hs : List JSValue) (p : Int → Bool) :
    hs.countP (fun u => p (detectBot lower cfg u).score)
      = (hs.map fun u => (detectBot lower cfg u).score).countP p := by
  rw [List.countP_map]
  rfl

/-- C26. The four band counts of the summary add up to `total`, which is the number of
input handles and of results. -/
theorem analyzeBatch_counts_total (lower : JSString → JSString) (cfg : StudioConfig)
    (hs : List JSValue) :
    ∃ s, (analyzeBatch lower cfg (.array hs)).summary = some s ∧
      s.likelyBots + s.suspicious + s.possibleBots + s.realUsers = s.total ∧
      s.total = hs.length ∧
      s.total = (analyzeBatch lower cfg (.array hs)).results.length := by
  refine ⟨_, rfl, ?_, ?_, ?_⟩
  · show _ = ((hs.map fun username =>
      (⟨username, detectBot lower cfg username⟩ : BatchEntry)).length)
    rw [length_filter_map lower cfg hs (fun x => decide (x ≥ 70)),
      length_filter_map lower cfg hs (fun x => decide (x ≥ 50) && decide (x < 70)),
      length_filter_map lower cfg hs (fun x => decide (x ≥ 30) && decide (x < 50)),
      length_filter_map lower cfg hs (fun x => decide (x < 30)),
      countP_scores lower cfg hs (fun x => decide (x ≥ 70)),
      countP_scores lower cfg hs (fun x => decide (x ≥ 50) && decide (x < 70)),
      countP_scores lower cfg hs (fun x => decide (x ≥ 30) && decide (x < 50)),
      countP_scores lower cfg hs (fun x => decide (x < 30)), band_counts]
    simp
  · simp [analyzeBatch]
  · rfl

/-- C25 (code at the failing inputs). "contest" and "robot" begin with none of the listed
words, yet with the catalog of config.js TEMP_PATTERN ('Suspicious prefix', 35) is
reported for both; with the catalog of `getDefaultPatterns` it is not. -/
theorem tempPattern_matches_inside :
    beginsWithListedWord (str "contest") = false ∧
    beginsWithListedWord (str "robot") = false ∧
    (detectBot asciiToLowerCase studioConfig (.string (str "contest"))).patterns
      = [⟨"TEMP_PATTERN", "Suspicious prefix", 35⟩] ∧
    (detectBot asciiToLowerCase studioConfig (.string (str "robot"))).patterns
      = [⟨"TEMP_PATTERN", "Suspicious prefix", 35⟩] ∧
    (detectBot asciiToLowerCase studioConfig (.string (str "contest"))).classification
      = "Posible Bot" ∧
    (detectBot asciiToLowerCase emptyConfig (.string (str "contest"))).patterns = [] ∧
    (detectBot asciiToLowerCase emptyConfig (.string (str "robot"))).patterns = [] := by
  decide

/-! ## Summary bands and classification labels -/

theorem detectBot_label_band (lower : JSString → JSString) (cfg : StudioConfig) (v : JSValue)
    (h70 : (thresholdsOf cfg).LIKELY_BOT = 70) (h50 : (thresholdsOf cfg).SUSPICIOUS = 50)
    (h30 : (thresholdsOf cfg).POSSIBLE_BOT = 30) :
    ((detectBot lower cfg v).classification = "Bot Probable"
      ↔ (detectBot lower cfg v).score ≥ 70) ∧
    ((detectBot lower cfg v).classification = "Sospechoso"
      ↔ (detectBot lower cfg v).score ≥ 50 ∧ (detectBot lower cfg v).score < 70) ∧
    ((detectBot lower cfg v).classification = "Posible Bot"
      ↔ (detectBot lower cfg v).score ≥ 30 ∧ (detectBot lower cfg v).score < 50) ∧
    ((detectBot lower cfg v).classification = "Usuario Real"
        ∨ (detectBot lower cfg v).classification = "Unknown"
      ↔ (detectBot lower cfg v).score < 30) ∧
    ¬ ((detectBot lower cfg v).classification = "Usuario Real"
        ∧ (detectBot lower cfg v).classification = "Unknown") := by
  by_cases hv : v = .string [] ∨ v.isString = false
  · rw [detectBot_guard lower cfg v hv]
    decide
  · obtain ⟨h, rfl, hne⟩ : ∃ h, v = .string h ∧ h ≠ [] := by
      cases v <;> simp_all [JSValue.isString]
    rw [detectBot_label lower cfg h hne]
    generalize (detectBot lower cfg (.string h)).score = s
    unfold classify
    rw [h70, h50, h30]
    split_ifs <;> refine ⟨?_, ?_, ?_, ?_, ?_⟩ <;>
      first
        | decide
        | (constructor <;> intro hh <;>
            first
              | omega
              | (exact absurd hh (by decide))
              | rfl
              | (exact Or.inl rfl))

theorem countP_results (lower : JSString → JSString) (cfg : StudioConfig)
    (hs : List JSValue) (p : BotResult → Bool) :
    (hs.map fun username => (⟨username, detectBot lower cfg username⟩ : BatchEntry)).countP
        (fun r => p r.analysis)
      = hs.countP fun u => p (detectBot lower cfg u) := by
  rw [List.countP_map]
  rfl

theorem countP_or_disjoint (xs : List JSValue) (p q : JSValue → Bool)
    (h : ∀ x, ¬ (p x = true ∧ q x = true)) :
    xs.countP (fun x => p x || q x) = xs.countP p + xs.countP q := by
  induction xs with
  | nil => rfl
  | cons x xs ih =>
    simp only [List.countP_cons, ih]
    have hx := h x
    cases hp : p x <;> cases hq : q x <;> simp_all <;> omega

/-- C27. With the thresholds 70, 50, 30 the band counts of the summary are the numbers of
results labelled 'Bot Probable', 'Sospechoso', 'Posible Bot', and for `realUsers` the
number labelled 'Usuario Real' plus the number labelled 'Unknown'. -/
theorem analyzeBatch_labels (lower : JSString → JSString) (cfg : StudioConfig)
    (hs : List JSValue)
    (h70 : (thresholdsOf cfg).LIKELY_BOT = 70) (h50 : (thresholdsOf cfg).SUSPICIOUS = 50)
    (h30 : (thresholdsOf cfg).POSSIBLE_BOT = 30) :
    ∃ s, (analyzeBatch lower cfg (.array hs)).summary = some s ∧
      s.likelyBots = (analyzeBatch lower cfg (.array hs)).results.countP
        (fun r => decide (r.analysis.classification = "Bot Probable")) ∧
      s.suspicious = (analyzeBatch lower cfg (.array hs)).results.countP
        (fun r => decide (r.analysis.classification = "Sospechoso")) ∧
      s.possibleBots = (analyzeBatch lower cfg (.array hs)).results.countP
        (fun r => decide (r.analysis.classification = "Posible Bot")) ∧
      s.realUsers = (analyzeBatch lower cfg (.array hs)).results.countP
          (fun r => decide (r.analysis.classification = "Usuario Real"))
        + (analyzeBatch lower cfg (.array hs)).results.countP
          (fun r => decide (r.analysis.classification = "Unknown")) := by
  have hb := fun v => detectBot_label_band lower cfg v h70 h50 h30
  rw [analyzeBatch_results]
  refine ⟨_, rfl, ?_, ?_, ?_, ?_⟩
  · rw [countP_results lower cfg hs (fun a => decide (a.classification = "Bot Probable"))]
    refine (length_filter_map lower cfg hs (fun x => decide (x ≥ 70))).trans ?_
    apply List.countP_congr
    intro v _
    simp only [decide_eq_true_eq]
    exact (hb v).1.symm
  · rw [countP_results lower cfg hs (fun a => decide (a.classification = "Sospechoso"))]
    refine (length_filter_map lower cfg hs
      (fun x => decide (x ≥ 50) && decide (x < 70))).trans ?_
    apply List.countP_congr
    intro v _
    simp only [decide_eq_true_eq, Bool.and_eq_true]
    exact (hb v).2.1.symm
  · rw [countP_results lower cfg hs (fun a => decide (a.classification = "Posible Bot"))]
    refine (length_filter_map lower cfg hs
      (fun x => decide (x ≥ 30) && decide (x < 50))).trans ?_
    apply List.countP_congr
    intro v _
    simp only [decide_eq_true_eq, Bool.and_eq_true]
    exact (hb v).2.2.1.symm
  · rw [countP_results lower cfg hs (fun a => decide (a.classification = "Usuario Real")),
      countP_results lower cfg hs (fun a => decide (a.classification = "Unknown")),
      ← countP_or_disjoint hs _ _ (fun v => by
        simp only [decide_eq_true_eq]
        exact (hb v).2.2.2.2)]
    refine (length_filter_map lower cfg hs (fun x => decide (x < 30))).trans ?_
    apply List.countP_congr
    intro v _
    simp only [decide_eq_true_eq, Bool.or_eq_true]
    exact (hb v).2.2.2.1.symm

/-- C27 (witness): a batch with a likely bot, a real user and the invalid value `null`. -/
theorem analyzeBatch_labels_witness :
    (thresholdsOf studioConfig).LIKELY_BOT = 70 ∧ (thresholdsOf studioConfig).SUSPICIOUS = 50 ∧
    (thresholdsOf studioConfig).POSSIBLE_BOT = 30 ∧
    ∃ s, (analyzeBatch asciiToLowerCase studioConfig
        (.array [.string (str "user12345"), .string (str "a"), .null])).summary = some s ∧
      s.realUsers = (analyzeBatch asciiToLowerCase studioConfig
          (.array [.string (str "user12345"), .string (str "a"), .null])).results.countP
          (fun r => decide (r.analysis.classification = "Usuario Real"))
        + (analyzeBatch asciiToLowerCase studioConfig
          (.array [.string (str "user12345"), .string (str "a"), .null])).results.countP
          (fun r => decide (r.analysis.classification = "Unknown")) :=
  ⟨rfl, rfl, rfl,
    let ⟨s, h1, _, _, _, h5⟩ := analyzeBatch_labels asciiToLowerCase studioConfig
      [.string (str "user12345"), .string (str "a"), .null] rfl rfl rfl
    ⟨s, h1, h5⟩⟩

/-! ## The list of reported patterns -/

theorem additional_patterns (n : JSString) :
    (analyzeAdditionalHeuristics n).patterns
      = (if (calculateEntropy n).gt 4 then
            [(⟨"HIGH_ENTROPY", "Alta aleatoriedad en nombre", 15⟩ : DetectedPattern)] else [])
        ++ (if hasKeyboardPattern n then
            [(⟨"KEYBOARD_PATTERN", "Patrón de teclado detectado", 10⟩ : DetectedPattern)]
            else [])
        ++ (if (JSNum.div ((n.filter isDigit).length : Nat) n.length).gtFrac 1 2 then
            [(⟨"HIGH_DIGIT_RATIO", "Más del 50% son números", 20⟩ : DetectedPattern)] else [])
        ++ (if retest suffixBranches n then
            [(⟨"SUSPICIOUS_SUFFIX", "Sufijo sospechoso", 10⟩ : DetectedPattern)] else []) := by
  simp only [analyzeAdditionalHeuristics, Additional.push]
  split_ifs <;> rfl

theorem additional_names_sublist (n : JSString) :
    List.Sublist ((analyzeAdditionalHeuristics n).patterns.map fun p => p.name)
      ["HIGH_ENTROPY", "KEYBOARD_PATTERN", "HIGH_DIGIT_RATIO", "SUSPICIOUS_SUFFIX"] := by
  rw [additional_patterns]
  split_ifs <;> decide

theorem detectedOf_eq (cfg : StudioConfig) (n : JSString) :
    detectedOf cfg n
      = (matching (patternsOf cfg) n).map toDetected ++ (analyzeAdditionalHeuristics n).patterns := by
  rw [detectedOf, testPatterns_eq]

theorem includes_iff (s p : JSString) :
    includes s p = true ↔ ∃ pre post, s = pre ++ p ++ post := by
  simp only [includes, List.any_eq_true, List.mem_tails, List.isPrefixOf_iff_prefix]
  constructor
  · rintro ⟨t, ⟨pre, rfl⟩, ⟨post, rfl⟩⟩
    exact ⟨pre, post, by simp⟩
  · rintro ⟨pre, post, rfl⟩
    exact ⟨p ++ post, ⟨pre, by simp⟩, ⟨post, rfl⟩⟩

theorem hasKeyboardPattern_iff (n : JSString) :
    hasKeyboardPattern n = true
      ↔ ∃ w ∈ ["qwerty", "asdf", "zxcv", "1234", "qazwsx"],
          ∃ pre post, n = pre ++ str w ++ post := by
  simp only [hasKeyboardPattern, List.any_eq_true, includes_iff]

theorem mem_additional (n : JSString) (p : DetectedPattern) :
    p ∈ (analyzeAdditionalHeuristics n).patterns ↔
      ((calculateEntropy n).gt 4 = true
        ∧ p = ⟨"HIGH_ENTROPY", "Alta aleatoriedad en nombre", 15⟩) ∨
      (hasKeyboardPattern n = true
        ∧ p = ⟨"KEYBOARD_PATTERN", "Patrón de teclado detectado", 10⟩) ∨
      ((JSNum.div ((n.filter isDigit).length : Nat) n.length).gtFrac 1 2 = true
        ∧ p = ⟨"HIGH_DIGIT_RATIO", "Más del 50% son números", 20⟩) ∨
      (retest suffixBranches n = true
        ∧ p = ⟨"SUSPICIOUS_SUFFIX", "Sufijo sospechoso", 10⟩) := by
  rw [additional_patterns]
  simp only [List.mem_append]
  split_ifs <;> simp_all [or_assoc]

theorem mem_detected (cfg : StudioConfig) (n : JSString) (p : DetectedPattern) :
    p ∈ detectedOf cfg n ↔
      (∃ e ∈ patternsOf cfg, e.2.regex n = true ∧ toDetected e = p)
        ∨ p ∈ (analyzeAdditionalHeuristics n).patterns := by
  rw [detectedOf_eq, List.mem_append, List.mem_map]
  simp only [matching, List.mem_filter, and_assoc]

/-- C22. With a catalog that has no entry named KEYBOARD_PATTERN (the built-in ones), the
patterns of `detectBot` hold an entry named KEYBOARD_PATTERN iff the normalized handle
contains one of 'qwerty', 'asdf', 'zxcv', '1234', 'qazwsx', and such an entry has weight
10; for "qwerty123" KEYBOARD_PATTERN is reported and HIGH_DIGIT_RATIO is not. -/
theorem detectBot_keyboard (lower : JSString → JSString) (cfg : StudioConfig) (h : JSString)
    (hnil : lower [] = [])
    (hkey : ∀ e ∈ patternsOf cfg, e.1 ≠ "KEYBOARD_PATTERN") :
    ((∃ p ∈ (detectBot lower cfg (.string h)).patterns, p.name = "KEYBOARD_PATTERN")
      ↔ ∃ w ∈ ["qwerty", "asdf", "zxcv", "1234", "qazwsx"],
          ∃ pre post, normalize lower h = pre ++ str w ++ post) ∧
    (∀ p ∈ (detectBot lower cfg (.string h)).patterns,
      p.name = "KEYBOARD_PATTERN" → p.score = 10) ∧
    (detectBot asciiToLowerCase studioConfig (.string (str "qwerty123"))).patterns.map
        (fun p => p.name) = ["ALL_LOWERCASE_NUMBERS", "KEYBOARD_PATTERN"] ∧
    (detectBot asciiToLowerCase emptyConfig (.string (str "qwerty123"))).patterns.map
        (fun p => p.name) = ["ALL_LOWERCASE_NUMBERS", "KEYBOARD_PATTERN"] := by
  refine ⟨?_, ?_, by decide, by decide⟩
  · rw [← hasKeyboardPattern_iff]
    by_cases hh : h = []
    · subst hh
      have hn : normalize lower [] = [] := by rw [normalize, hnil, trim_nil]
      rw [detectBot_guard lower cfg _ (Or.inl rfl), hn]
      constructor
      · rintro ⟨p, hp, _⟩
        exact absurd hp (List.not_mem_nil p)
      · intro hk
        exact absurd hk (by decide)
    · rw [detectBot_patterns lower cfg h hh]
      constructor
      · rintro ⟨p, hp, hname⟩
        rcases (mem_detected cfg _ p).1 hp with ⟨e, he, _, rfl⟩ | hp
        · exact absurd hname (hkey e he)
        · rcases (mem_additional _ p).1 hp with ⟨_, rfl⟩ | ⟨hk, _⟩ | ⟨_, rfl⟩ | ⟨_, rfl⟩
          · exact absurd hname (by decide)
          · exact hk
          · exact absurd hname (by decide)
          · exact absurd hname (by decide)
      · intro hk
        exact ⟨⟨"KEYBOARD_PATTERN", "Patrón de teclado detectado", 10⟩,
          (mem_detected cfg _ _).2 (Or.inr ((mem_additional _ _).2 (Or.inr (Or.inl ⟨hk, rfl⟩)))),
          rfl⟩
  · by_cases hh : h = []
    · subst hh
      rw [detectBot_guard lower cfg _ (Or.inl rfl)]
      intro p hp
      exact absurd hp (List.not_mem_nil p)
    · rw [detectBot_patterns lower cfg h hh]
      intro p hp hname
      rcases (mem_detected cfg _ p).1 hp with ⟨e, he, _, rfl⟩ | hp
      · exact absurd hname (hkey e he)
      · rcases (mem_additional _ p).1 hp with ⟨_, rfl⟩ | ⟨_, rfl⟩ | ⟨_, rfl⟩ | ⟨_, rfl⟩
        · exact absurd hname (by decide)
        · rfl
        · exact absurd hname (by decide)
        · exact absurd hname (by decide)

theorem configPatterns_no_keyboard : ∀ e ∈ patternsOf studioConfig, e.1 ≠ "KEYBOARD_PATTERN" := by
  simp [patternsOf, studioConfig, configPatterns]

/-- C22 (witness): the handle "Xasdf9" with the catalog of config.js. -/
theorem detectBot_keyboard_witness :
    asciiToLowerCase [] = [] ∧
    (∀ e ∈ patternsOf studioConfig, e.1 ≠ "KEYBOARD_PATTERN") ∧
    ((∃ p ∈ (detectBot asciiToLowerCase studioConfig (.string (str "Xasdf9"))).patterns,
        p.name = "KEYBOARD_PATTERN")
      ↔ ∃ w ∈ ["qwerty", "asdf", "zxcv", "1234", "qazwsx"],
          ∃ pre post, normalize asciiToLowerCase (str "Xasdf9") = pre ++ str w ++ post) :=
  ⟨by decide, configPatterns_no_keyboard,
    (detectBot_keyboard asciiToLowerCase studioConfig (str "Xasdf9") (by decide)
      configPatterns_no_keyboard).1⟩

/-- C23. For a non-empty string handle the patterns list is the matching catalog patterns
in catalog order followed by the triggered heuristics in the order HIGH_ENTROPY,
KEYBOARD_PATTERN, HIGH_DIGIT_RATIO, SUSPICIOUS_SUFFIX; with catalog keys distinct from one
another and from these four names no name appears twice; a reordered catalog gives the
same score and a permutation of the list. -/
theorem detectBot_patterns_order (lower : JSString → JSString) (cfg cfg2 : StudioConfig)
    (h : JSString) (hne : h ≠ [])
    (hkeys : ((patternsOf cfg).map Prod.fst
      ++ ["HIGH_ENTROPY", "KEYBOARD_PATTERN", "HIGH_DIGIT_RATIO", "SUSPICIOUS_SUFFIX"]).Nodup)
    (hperm : List.Perm (patternsOf cfg2) (patternsOf cfg)) :
    (detectBot lower cfg (.string h)).patterns
      = ((patternsOf cfg).filter fun e => e.2.regex (normalize lower h)).map
          (fun e => (⟨e.1, e.2.description, e.2.score⟩ : DetectedPattern))
        ++ ((if (calculateEntropy (normalize lower h)).gt 4 then
              [(⟨"HIGH_ENTROPY", "Alta aleatoriedad en nombre", 15⟩ : DetectedPattern)] else [])
          ++ (if hasKeyboardPattern (normalize lower h) then
              [(⟨"KEYBOARD_PATTERN", "Patrón de teclado detectado", 10⟩ : DetectedPattern)]
              else [])
          ++ (if (JSNum.div (((normalize lower h).filter isDigit).length : Nat)
                (normalize lower h).length).gtFrac 1 2 then
              [(⟨"HIGH_DIGIT_RATIO", "Más del 50% son números", 20⟩ : DetectedPattern)]
              else [])
          ++ (if retest suffixBranches (normalize lower h) then
              [(⟨"SUSPICIOUS_SUFFIX", "Sufijo sospechoso", 10⟩ : DetectedPattern)] else [])) ∧
    ((detectBot lower cfg (.string h)).patterns.map fun p => p.name).Nodup ∧
    (detectBot lower cfg2 (.string h)).score = (detectBot lower cfg (.string h)).score ∧
    List.Perm (detectBot lower cfg2 (.string h)).patterns
      (detectBot lower cfg (.string h)).patterns := by
  refine ⟨?_, ?_, ?_, ?_⟩
  · rw [detectBot_patterns lower cfg h hne, detectedOf_eq, additional_patterns]
    rfl
  · rw [detectBot_patterns lower cfg h hne, detectedOf_eq, List.map_append, List.map_map]
    refine List.Nodup.sublist (List.Sublist.append ?_ (additional_names_sublist _)) hkeys
    have : ((fun p : DetectedPattern => p.name) ∘ toDetected) = Prod.fst := rfl
    rw [this]
    exact (List.filter_sublist _).map _
  · rw [detectBot_score lower cfg h hne, detectBot_score lower cfg2 h hne, rawScore, rawScore,
      testPatterns_eq, testPatterns_eq]
    have hp : List.Perm (matching (patternsOf cfg2) (normalize lower h))
        (matching (patternsOf cfg) (normalize lower h)) := by
      unfold matching
      exact hperm.filter _
    rw [(hp.map fun e => e.2.score).sum_eq]
  · rw [detectBot_patterns lower cfg h hne, detectBot_patterns lower cfg2 h hne, detectedOf_eq,
      detectedOf_eq]
    have hp : List.Perm (matching (patternsOf cfg2) (normalize lower h))
        (matching (patternsOf cfg) (normalize lower h)) := by
      unfold matching
      exact hperm.filter _
    exact List.Perm.append_right _ (hp.map toDetected)

theorem swappedCatalog_perm : List.Perm (patternsOf swappedCatalog) (patternsOf studioConfig) := by
  simp only [patternsOf, swappedCatalog, studioConfig, Option.getD_some]
  rw [configPatterns]
  exact List.Perm.swap _ _ _

theorem configPatterns_keys :
    ((patternsOf studioConfig).map Prod.fst
      ++ ["HIGH_ENTROPY", "KEYBOARD_PATTERN", "HIGH_DIGIT_RATIO", "SUSPICIOUS_SUFFIX"]).Nodup := by
  decide

/-- C23 (witness): "user12345" with the catalog of config.js and with its first two
entries swapped: another list, the same score, a permutation. -/
theorem detectBot_patterns_order_witness :
    str "user12345" ≠ [] ∧
    ((patternsOf studioConfig).map Prod.fst
      ++ ["HIGH_ENTROPY", "KEYBOARD_PATTERN", "HIGH_DIGIT_RATIO", "SUSPICIOUS_SUFFIX"]).Nodup ∧
    List.Perm (patternsOf swappedCatalog) (patternsOf studioConfig) ∧
    (detectBot asciiToLowerCase swappedCatalog (.string (str "user12345"))).patterns
      ≠ (detectBot asciiToLowerCase studioConfig (.string (str "user12345"))).patterns ∧
    (detectBot asciiToLowerCase swappedCatalog (.string (str "user12345"))).score
      = (detectBot asciiToLowerCase studioConfig (.string (str "user12345"))).score ∧
    List.Perm (detectBot asciiToLowerCase swappedCatalog (.string (str "user12345"))).patterns
      (detectBot asciiToLowerCase studioConfig (.string (str "user12345"))).patterns :=
  ⟨by decide, configPatterns_keys, swappedCatalog_perm, by decide,
    (detectBot_patterns_order asciiToLowerCase studioConfig swappedCatalog (str "user12345")
      (by decide) configPatterns_keys swappedCatalog_perm).2.2.1,
    (detectBot_patterns_order asciiToLowerCase studioConfig swappedCatalog (str "user12345")
      (by decide) configPatterns_keys swappedCatalog_perm).2.2.2⟩

/-! ## The random-string shape -/

theorem matchRep_append (c : Nat → Bool) (k : JSString → Bool) (l r : JSString) (lo : Nat)
    (hi : Option Nat) (hc : ∀ x ∈ l, c x = true) (hlo : lo ≤ l.length)
    (hhi : ∀ m, hi = some m → l.length ≤ m) (hk : k r = true) :
    matchRep c k lo hi (l ++ r) = true := by
  induction l generalizing lo hi with
  | nil =>
    have h0 : lo = 0 := by simpa using hlo
    subst h0
    cases r <;> simp [matchRep, hk]
  | cons x l ih =>
    have hx : c x = true := hc x (List.mem_cons_self _ _)
    have hne : (hi != some 0) = true := by
      cases hi with
      | none => rfl
      | some m =>
        have := hhi m rfl
        simp only [List.length_cons] at this
        simp only [bne_iff_ne, ne_eq, Option.some.injEq]
        omega
    have ht := ih (lo - 1) (hi.map fun h => h - 1)
      (fun y hy => hc y (List.mem_cons_of_mem _ hy))
      (by simp only [List.length_cons] at hlo; omega)
      (by
        intro m hm
        cases hi with
        | none => simp at hm
        | some m2 =>
          have := hhi m2 rfl
          simp only [Option.map_some', Option.some.injEq] at hm
          simp only [List.length_cons] at this
          omega)
    simp [matchRep, hx, hne, ht]

theorem manyNumbers_test (ls ds : JSString) (hd6 : 6 ≤ ds.length)
    (hds : ∀ d ∈ ds, isDigit d = true) :
    retest [⟨false, [⟨isDigit, 5, none⟩], false⟩] (ls ++ ds) = true := by
  simp only [retest, List.any_cons, List.any_nil, Bool.or_false, Branch.test,
    Bool.false_eq_true, if_false, List.any_eq_true]
  refine ⟨ds, (List.mem_tails _ _).2 (List.suffix_append _ _), ?_⟩
  exact matchRep_all isDigit _ ds 5 hds (by omega) rfl

theorem randomString_test (ls ds : JSString) (hl2 : 2 ≤ ls.length) (hl4 : ls.length ≤ 4)
    (hls : ∀ c ∈ ls, isLowerAZ c = true) (hd6 : 6 ≤ ds.length)
    (hds : ∀ d ∈ ds, isDigit d = true) :
    retest [⟨true, [⟨isAlphaI, 2, some 4⟩, ⟨isDigit, 6, none⟩], true⟩] (ls ++ ds) = true := by
  simp only [retest, List.any_cons, List.any_nil, Bool.or_false, Branch.test, if_true,
    matchAtoms]
  apply matchRep_append _ _ ls ds 2 (some 4) _ hl2
  · intro m hm
    simp only [Option.some.injEq] at hm
    omega
  · exact matchRep_all isDigit _ ds 6 hds hd6 rfl
  · intro x hx
    have := hls x hx
    simp only [isLowerAZ, Bool.and_eq_true, decide_eq_true_eq] at this
    simp [isAlphaI, this]

theorem lowercaseNumbers_test (ls ds : JSString) (hl2 : 2 ≤ ls.length)
    (hls : ∀ c ∈ ls, isLowerAZ c = true) (hd6 : 6 ≤ ds.length)
    (hds : ∀ d ∈ ds, isDigit d = true) :
    retest [⟨true, [⟨isLowerAZ, 1, none⟩, ⟨isDigit, 1, none⟩], true⟩] (ls ++ ds) = true := by
  simp only [retest, List.any_cons, List.any_nil, Bool.or_false, Branch.test, if_true,
    matchAtoms]
  apply matchRep_append _ _ ls ds 1 none hls (by omega)
  · intro m hm
    simp at hm
  · exact matchRep_all isDigit _ ds 1 hds (by omega) rfl

theorem digits_of_shape (ls ds : JSString) (hls : ∀ c ∈ ls, isLowerAZ c = true)
    (hds : ∀ d ∈ ds, isDigit d = true) :
    ((ls ++ ds).filter isDigit).length = ds.length := by
  have h1 : ls.filter isDigit = [] := by
    rw [List.filter_eq_nil_iff]
    intro c hc
    have := hls c hc
    simp only [isLowerAZ, Bool.and_eq_true, decide_eq_true_eq] at this
    simp only [isDigit, Bool.and_eq_true, decide_eq_true_eq, not_and, not_le]
    omega
  have h2 : ds.filter isDigit = ds := List.filter_eq_self.2 hds
  rw [List.filter_append, h1, h2, List.nil_append]

theorem digitRatio_of_shape (ls ds : JSString) (hl4 : ls.length ≤ 4)
    (hls : ∀ c ∈ ls, isLowerAZ c = true) (hd6 : 6 ≤ ds.length)
    (hds : ∀ d ∈ ds, isDigit d = true) :
    (JSNum.div (((ls ++ ds).filter isDigit).length : Nat) (ls ++ ds).length).gtFrac 1 2
      = true := by
  rw [gtFrac_half, digits_of_shape ls ds hls hds, List.length_append]
  omega

theorem suffix_of_shape (ls ds : JSString) (hd6 : 6 ≤ ds.length)
    (hds : ∀ d ∈ ds, isDigit d = true) :
    retest suffixBranches (ls ++ ds) = true := by
  apply suffix_test_of_ending
  simp only [endsWithSuspiciousSuffix, Bool.or_eq_true, Bool.and_eq_true, decide_eq_true_eq]
  refine Or.inr ⟨by rw [List.length_append]; omega, ?_⟩
  rw [List.all_eq_true]
  intro x hx
  have hsub : x ∈ ds := by
    have hdrop : (ls ++ ds).drop ((ls ++ ds).length - 4)
        = ds.drop ((ls ++ ds).length - 4 - ls.length) := by
      rw [List.drop_append_eq_append_drop]
      have : ls.drop ((ls ++ ds).length - 4) = [] := by
        rw [List.drop_eq_nil_iff, List.length_append]
        omega
      rw [this, List.nil_append]
    rw [hdrop] at hx
    exact List.mem_of_mem_drop hx
  exact hds x hsub

theorem shape_entries (cfg : StudioConfig)
    (hcat : patternsOf cfg = configPatterns ∨ patternsOf cfg = getDefaultPatterns) :
    (∃ a b c, List.Sublist [a, b, c] (patternsOf cfg) ∧
      a.1 = "MANY_NUMBERS" ∧ a.2.score = 25 ∧
      a.2.regex = retest [⟨false, [⟨isDigit, 5, none⟩], false⟩] ∧
      b.1 = "RANDOM_STRING" ∧ b.2.score = 25 ∧
      b.2.regex = retest [⟨true, [⟨isAlphaI, 2, some 4⟩, ⟨isDigit, 6, none⟩], true⟩] ∧
      c.1 = "ALL_LOWERCASE_NUMBERS" ∧ c.2.score = 10 ∧
      c.2.regex = retest [⟨true, [⟨isLowerAZ, 1, none⟩, ⟨isDigit, 1, none⟩], true⟩]) ∧
    ∀ e ∈ patternsOf cfg, 0 ≤ e.2.score := by
  rcases hcat with hc | hc <;> rw [hc]
  · exact ⟨⟨_, _, _, .cons₂ _ (.cons _ (.cons₂ _ (.cons _ (.cons _ (.cons _ (.cons _
      (.cons₂ _ (List.nil_sublist _)))))))), rfl, rfl, rfl, rfl, rfl, rfl, rfl, rfl, rfl⟩,
      configPatterns_nonneg⟩
  · exact ⟨⟨_, _, _, .cons₂ _ (.cons _ (.cons₂ _ (.cons _ (.cons _ (.cons _ (.cons _
      (.cons₂ _ (List.nil_sublist _)))))))), rfl, rfl, rfl, rfl, rfl, rfl, rfl, rfl, rfl⟩,
      getDefaultPatterns_nonneg⟩

/-- C29. With a built-in catalog and LIKELY_BOT = 70, a handle whose normalized form is 2
to 4 lower-case ASCII letters followed by 6 or more ASCII digits gets score >= 90 and the
classification 'Bot Probable'; MANY_NUMBERS, RANDOM_STRING, ALL_LOWERCASE_NUMBERS,
HIGH_DIGIT_RATIO and SUSPICIOUS_SUFFIX are all reported. -/
theorem detectBot_random_shape (lower : JSString → JSString) (cfg : StudioConfig)
    (h ls ds : JSString) (hnil : lower [] = [])
    (hn : normalize lower h = ls ++ ds)
    (hl2 : 2 ≤ ls.length) (hl4 : ls.length ≤ 4) (hls : ∀ c ∈ ls, isLowerAZ c = true)
    (hd6 : 6 ≤ ds.length) (hds : ∀ d ∈ ds, isDigit d = true)
    (hcat : patternsOf cfg = configPatterns ∨ patternsOf cfg = getDefaultPatterns)
    (h70 : (thresholdsOf cfg).LIKELY_BOT = 70) :
    90 ≤ (detectBot lower cfg (.string h)).score ∧
    (detectBot lower cfg (.string h)).classification = "Bot Probable" ∧
    ∀ name ∈ ["MANY_NUMBERS", "RANDOM_STRING", "ALL_LOWERCASE_NUMBERS", "HIGH_DIGIT_RATIO",
        "SUSPICIOUS_SUFFIX"],
      ∃ p ∈ (detectBot lower cfg (.string h)).patterns, p.name = name := by
  have hne : h ≠ [] := by
    rintro rfl
    rw [normalize, hnil, trim_nil] at hn
    have : (ls ++ ds).length = 0 := by rw [← hn]; rfl
    rw [List.length_append] at this
    omega
  obtain ⟨⟨a, b, c, hsub, ha1, ha2, ha3, hb1, hb2, hb3, hc1, hc2, hc3⟩, hw⟩ :=
    shape_entries cfg hcat
  have hma : a.2.regex (normalize lower h) = true := by
    rw [ha3, hn]; exact manyNumbers_test ls ds hd6 hds
  have hmb : b.2.regex (normalize lower h) = true := by
    rw [hb3, hn]; exact randomString_test ls ds hl2 hl4 hls hd6 hds
  have hmc : c.2.regex (normalize lower h) = true := by
    rw [hc3, hn]; exact lowercaseNumbers_test ls ds hl2 hls hd6 hds
  have hdr := digitRatio_of_shape ls ds hl4 hls hd6 hds
  have hsf := suffix_of_shape ls ds hd6 hds
  rw [← hn] at hdr hsf
  have hsubm : List.Sublist [a, b, c] (matching (patternsOf cfg) (normalize lower h)) := by
    have := hsub.filter fun e => e.2.regex (normalize lower h)
    simpa [matching, List.filter_cons, hma, hmb, hmc] using this
  have hsum : (60 : Int)
      ≤ ((matching (patternsOf cfg) (normalize lower h)).map fun e => e.2.score).sum := by
    have hle := (hsubm.map fun e => e.2.score).sum_le_sum (by
      intro x hx
      obtain ⟨e, he, rfl⟩ := List.mem_map.1 hx
      exact hw e (List.mem_of_mem_filter he))
    simp only [List.map_cons, List.map_nil, List.sum_cons, List.sum_nil, ha2, hb2, hc2] at hle
    omega
  have hheur : (30 : Int) ≤ heuristicWeight (normalize lower h) := by
    unfold heuristicWeight
    rw [if_pos hdr, if_pos hsf]
    split_ifs <;> omega
  have hscore : 90 ≤ (detectBot lower cfg (.string h)).score := by
    rw [detectBot_score lower cfg h hne, rawScore_eq]
    omega
  refine ⟨hscore, ?_, ?_⟩
  · rw [detectBot_label lower cfg h hne, classify, h70, if_pos (by omega)]
  · intro name hname
    rw [detectBot_patterns lower cfg h hne]
    have hmem : ∀ e ∈ [a, b, c], ∃ p ∈ detectedOf cfg (normalize lower h), p.name = e.1 := by
      intro e he
      have hem := hsubm.subset he
      exact ⟨toDetected e, (mem_detected cfg _ _).2
        (Or.inl ⟨e, List.mem_of_mem_filter hem, by
          have := (List.mem_filter.1 hem).2
          exact this, rfl⟩), rfl⟩
    simp only [List.mem_cons, List.mem_singleton, List.not_mem_nil, or_false] at hname
    rcases hname with rfl | rfl | rfl | rfl | rfl
    · rw [← ha1]; exact hmem a (by simp)
    · rw [← hb1]; exact hmem b (by simp)
    · rw [← hc1]; exact hmem c (by simp)
    · exact ⟨_, (mem_detected cfg _ _).2 (Or.inr ((mem_additional _ _).2
        (Or.inr (Or.inr (Or.inl ⟨hdr, rfl⟩))))), rfl⟩
    · exact ⟨_, (mem_detected cfg _ _).2 (Or.inr ((mem_additional _ _).2
        (Or.inr (Or.inr (Or.inr ⟨hsf, rfl⟩))))), rfl⟩

/-- C29 (witness): the handle " Ab123456" with the configuration of config.js. -/
theorem detectBot_random_shape_witness :
    asciiToLowerCase [] = [] ∧
    normalize asciiToLowerCase (str " Ab123456") = str "ab" ++ str "123456" ∧
    2 ≤ (str "ab").length ∧ (str "ab").length ≤ 4 ∧ (∀ c ∈ str "ab", isLowerAZ c = true) ∧
    6 ≤ (str "123456").length ∧ (∀ d ∈ str "123456", isDigit d = true) ∧
    (patternsOf studioConfig = configPatterns ∨ patternsOf studioConfig = getDefaultPatterns) ∧
    (thresholdsOf studioConfig).LIKELY_BOT = 70 ∧
    90 ≤ (detectBot asciiToLowerCase studioConfig (.string (str " Ab123456"))).score ∧
    (detectBot asciiToLowerCase studioConfig (.string (str " Ab123456"))).classification
      = "Bot Probable" :=
  ⟨by decide, by decide, by decide, by decide, by decide, by decide, by decide, Or.inl rfl,
    rfl,
    (detectBot_random_shape asciiToLowerCase studioConfig (str " Ab123456") (str "ab")
      (str "123456") (by decide) (by decide) (by decide) (by decide) (by decide) (by decide)
      (by decide) (Or.inl rfl) rfl).1,
    (detectBot_random_shape asciiToLowerCase studioConfig (str " Ab123456") (str "ab")
      (str "123456") (by decide) (by decide) (by decide) (by decide) (by decide) (by decide)
      (by decide) (Or.inl rfl) rfl).2.1⟩

/-! ## The frequency table of `calculateEntropy` -/

theorem bump_keys (freq : List (JSString × Nat)) (ch k : JSString) :
    k ∈ (bump freq ch).map Prod.fst ↔ k ∈ freq.map Prod.fst ∨ k = ch := by
  induction freq with
  | nil => simp [bump]
  | cons q rest ih =>
    obtain ⟨key, count⟩ := q
    simp only [bump]
    split_ifs with hk
    · subst hk
      simp only [List.map_cons, List.mem_cons]
      tauto
    · simp only [List.map_cons, List.mem_cons, ih]
      tauto

theorem bump_nodup (freq : List (JSString × Nat)) (ch : JSString)
    (h : (freq.map Prod.fst).Nodup) : ((bump freq ch).map Prod.fst).Nodup := by
  induction freq with
  | nil => simp [bump]
  | cons q rest ih =>
    obtain ⟨key, count⟩ := q
    simp only [List.map_cons, List.nodup_cons] at h
    simp only [bump]
    split_ifs with hk
    · simpa only [List.map_cons, List.nodup_cons] using h
    · simp only [List.map_cons, List.nodup_cons]
      refine ⟨?_, ih h.2⟩
      rw [bump_keys]
      rintro (hm | rfl)
      · exact h.1 hm
      · exact hk rfl

theorem bump_values (freq : List (JSString × Nat)) (ch : JSString) (p : JSString × Nat)
    (h : (freq.map Prod.fst).Nodup) (hp : p ∈ bump freq ch) :
    (p.1 ≠ ch ∧ p ∈ freq) ∨
    (p.1 = ch ∧ ((p.2 = 1 ∧ ch ∉ freq.map Prod.fst) ∨ ∃ n, (ch, n) ∈ freq ∧ p.2 = n + 1)) := by
  induction freq with
  | nil =>
    simp only [bump, List.mem_singleton] at hp
    subst hp
    exact Or.inr ⟨rfl, Or.inl ⟨rfl, by simp⟩⟩
  | cons q rest ih =>
    obtain ⟨key, count⟩ := q
    simp only [List.map_cons, List.nodup_cons] at h
    simp only [bump] at hp
    split_ifs at hp with hk
    · subst hk
      rcases List.mem_cons.1 hp with rfl | hp
      · exact Or.inr ⟨rfl, Or.inr ⟨count, List.mem_cons_self _ _, rfl⟩⟩
      · have hpk : p.1 ≠ key := by
          intro e
          exact h.1 (e ▸ List.mem_map_of_mem Prod.fst hp)
        exact Or.inl ⟨hpk, List.mem_cons_of_mem _ hp⟩
    · rcases List.mem_cons.1 hp with rfl | hp
      · exact Or.inl ⟨hk, List.mem_cons_self _ _⟩
      · rcases ih h.2 hp with ⟨h1, h2⟩ | ⟨h1, h2 | ⟨n, hn, hv⟩⟩
        · exact Or.inl ⟨h1, List.mem_cons_of_mem _ h2⟩
        · refine Or.inr ⟨h1, Or.inl ⟨h2.1, ?_⟩⟩
          simp only [List.map_cons, List.mem_cons, not_or]
          exact ⟨fun e => hk e.symm, h2.2⟩
        · exact Or.inr ⟨h1, Or.inr ⟨n, List.mem_cons_of_mem _ hn, hv⟩⟩

theorem foldl_bump_table (l : List JSString) :
    ((l.foldl bump []).map Prod.fst).Nodup ∧
    (∀ p ∈ l.foldl bump [], p.2 = l.count p.1) ∧
    (∀ k, k ∈ (l.foldl bump []).map Prod.fst ↔ k ∈ l) := by
  induction l using List.reverseRecOn with
  | nil => simp
  | append_singleton l ch ih =>
    obtain ⟨hnd, hval, hkeys⟩ := ih
    rw [List.foldl_append, List.foldl_cons, List.foldl_nil]
    refine ⟨bump_nodup _ ch hnd, ?_, ?_⟩
    · intro p hp
      rw [List.count_append]
      rcases bump_values _ ch p hnd hp with ⟨h1, h2⟩ | ⟨h1, ⟨h2, h3⟩ | ⟨n, hn, hv⟩⟩
      · rw [hval p h2]
        have : List.count p.1 [ch] = 0 := by
          rw [List.count_eq_zero]
          simpa using h1
        omega
      · rw [hkeys] at h3
        rw [h1, List.count_eq_zero.2 h3, h2]
        simp
      · have := hval _ hn
        simp only at this
        rw [hv, this, h1]
        simp
    · intro k
      rw [bump_keys, hkeys]
      simp

theorem counts_perm (s : JSString) :
    List.Perm (calculateEntropy s).counts
      ((codePoints s).dedup.map fun k => (codePoints s).count k) := by
  obtain ⟨hnd, hval, hkeys⟩ := foldl_bump_table (codePoints s)
  have h1 : (calculateEntropy s).counts
      = (((codePoints s).foldl bump []).map Prod.fst).map fun k => (codePoints s).count k := by
    simp only [calculateEntropy, List.map_map]
    apply List.map_congr_left
    intro p hp
    exact hval p hp
  rw [h1]
  apply List.Perm.map
  rw [List.perm_ext_iff_of_nodup hnd (List.nodup_dedup _)]
  intro k
  rw [hkeys, List.mem_dedup]

theorem counts_length (s : JSString) :
    (calculateEntropy s).counts.length = (codePoints s).dedup.length := by
  rw [(counts_perm s).length_eq, List.length_map]

theorem count_inst (k : JSString) (l : List JSString) :
    @List.count _ instBEqOfDecidableEq k l = List.count k l := by
  induction l with
  | nil => rfl
  | cons x l ih =>
    have e1 := @List.count_cons JSString instBEqOfDecidableEq k x l
    have e2 := @List.count_cons JSString _ k x l
    rw [e1, e2, ih]
    by_cases h : x = k
    · subst h; simp
    · have h1 : (x == k) = false := by simpa using h
      have h2 : (@BEq.beq _ instBEqOfDecidableEq x k) = false := by simpa using h
      rw [h1, h2]

theorem counts_sum (s : JSString) :
    (calculateEntropy s).counts.sum = (codePoints s).length := by
  rw [(counts_perm s).sum_eq]
  convert List.sum_map_count_dedup_eq_length (codePoints s) using 4
  exact (count_inst _ _).symm

theorem codePoints_length_le : ∀ s : JSString, (codePoints s).length ≤ s.length
  | [] => by simp [codePoints]
  | [a] => by simp [codePoints]
  | a :: b :: rest => by
    simp only [codePoints]
    split_ifs
    · have := codePoints_length_le rest
      simp only [List.length_cons]
      omega
    · have := codePoints_length_le (b :: rest)
      simp only [List.length_cons] at this ⊢
      omega

/-! ## Entropy is at most 4 with at most 16 distinct characters -/

theorem entropy_term_le (p : ℝ) (hp : 0 < p) :
    -(p * Real.logb 2 p) ≤ (1 / 16 - p) / Real.log 2 + 4 * p := by
  have hl2 : 0 < Real.log 2 := Real.log_pos (by norm_num)
  have hx : 0 < 1 / (16 * p) := by positivity
  have h1 := Real.log_le_sub_one_of_pos hx
  have h16 : Real.log 16 = 4 * Real.log 2 := by
    have : (16 : ℝ) = 2 ^ 4 := by norm_num
    rw [this, Real.log_pow]
    norm_num
  have h2 : Real.log (1 / (16 * p)) = -(4 * Real.log 2) - Real.log p := by
    rw [one_div, Real.log_inv, Real.log_mul (by norm_num) hp.ne', h16]
    ring
  rw [h2] at h1
  have h3 : p * (-(4 * Real.log 2) - Real.log p) ≤ p * (1 / (16 * p) - 1) :=
    mul_le_mul_of_nonneg_left h1 hp.le
  have h4 : p * (1 / (16 * p) - 1) = 1 / 16 - p := by
    field_simp
    ring
  rw [h4] at h3
  have h5 : -(p * Real.logb 2 p) = (-(p * Real.log p)) / Real.log 2 := by
    rw [Real.logb]
    field_simp
  rw [h5, div_add' _ _ _ hl2.ne', div_le_div_iff_of_pos_right hl2]
  nlinarith

theorem entropy_sum_le (n : ℝ) (hn : 0 < n) (cs : List Nat) (hpos : ∀ c ∈ cs, 0 < c) :
    -(cs.map fun (c : Nat) => ((c : ℝ) / n) * Real.logb 2 ((c : ℝ) / n)).sum
      ≤ ((cs.length : ℝ) / 16 - (cs.sum : ℝ) / n) / Real.log 2 + 4 * ((cs.sum : ℝ) / n) := by
  induction cs with
  | nil => simp
  | cons c cs ih =>
    have hc : (0 : ℝ) < c := by exact_mod_cast hpos c (List.mem_cons_self _ _)
    have ih2 := ih fun d hd => hpos d (List.mem_cons_of_mem _ hd)
    have ht := entropy_term_le ((c : ℝ) / n) (div_pos hc hn)
    simp only [List.map_cons, List.sum_cons, List.length_cons, Nat.cast_add, Nat.cast_one]
    have e1 : (((cs.length : ℝ) + 1) / 16 - ((c : ℝ) + (cs.sum : ℝ)) / n) / Real.log 2
        = (1 / 16 - (c : ℝ) / n) / Real.log 2
          + ((cs.length : ℝ) / 16 - (cs.sum : ℝ) / n) / Real.log 2 := by
      ring
    have e2 : 4 * (((c : ℝ) + (cs.sum : ℝ)) / n) = 4 * ((c : ℝ) / n) + 4 * ((cs.sum : ℝ) / n) := by
      ring
    rw [e1, e2]
    linarith

theorem Entropy.value_le_four (e : Entropy) (hlen : 0 < e.len)
    (hpos : ∀ c ∈ e.counts, 0 < c) (hk : e.counts.length ≤ 16) (hsum : e.counts.sum ≤ e.len) :
    e.value ≤ 4 := by
  have hn : (0 : ℝ) < e.len := by exact_mod_cast hlen
  have hl2 : 0 < Real.log 2 := Real.log_pos (by norm_num)
  have hl2' : (1 : ℝ) / 4 ≤ Real.log 2 := by
    have := Real.log_two_gt_d9
    linarith
  have h := entropy_sum_le (e.len : ℝ) hn e.counts hpos
  have hP : (e.counts.sum : ℝ) / e.len ≤ 1 := by
    rw [div_le_one hn]
    exact_mod_cast hsum
  have hK : (e.counts.length : ℝ) / 16 ≤ 1 := by
    rw [div_le_one (by norm_num)]
    exact_mod_cast hk
  unfold Entropy.value
  refine h.trans ?_
  have h1 : ((e.counts.length : ℝ) / 16 - (e.counts.sum : ℝ) / e.len) / Real.log 2
      ≤ (1 - (e.counts.sum : ℝ) / e.len) / Real.log 2 :=
    div_le_div_of_nonneg_right (by linarith) hl2.le
  have h2 : (1 - (e.counts.sum : ℝ) / e.len) / Real.log 2
      ≤ 4 * (1 - (e.counts.sum : ℝ) / e.len) := by
    rw [div_le_iff₀ hl2]
    nlinarith
  linarith

/-! ## Entropy and the Shannon entropy -/

/-- Where no surrogate pair occurs (as many code points as code units), the number
`calculateEntropy` computes is the Shannon entropy of the characters of the string. -/
theorem calculateEntropy_shannon (s : JSString) (h : (codePoints s).length = s.length) :
    (calculateEntropy s).value = shannonEntropy (codePoints s) := by
  unfold Entropy.value shannonEntropy
  have hlen : (calculateEntropy s).len = s.length := rfl
  rw [hlen, h]
  have hp := (counts_perm s).map fun (c : Nat) =>
    ((c : ℝ) / (s.length : ℝ)) * Real.logb 2 ((c : ℝ) / (s.length : ℝ))
  rw [hp.sum_eq, List.map_map]
  rfl

theorem codePoints_bmp : ∀ s : JSString, (∀ u ∈ s, isHighSurrogate u = false) →
    (codePoints s).length = s.length
  | [], _ => by simp [codePoints]
  | [a], _ => by simp [codePoints]
  | a :: b :: rest, h => by
    have ha : isHighSurrogate a = false := h a (List.mem_cons_self _ _)
    have := codePoints_bmp (b :: rest) fun u hu => h u (List.mem_cons_of_mem _ hu)
    simp only [codePoints, ha, Bool.false_and, Bool.false_eq_true, if_false, List.length_cons]
      at this ⊢
    omega

/-- C21 (code at the failing input). The string of two copies of U+1F600 is one repeated
character, of Shannon entropy 0; `calculateEntropy` counts 2 occurrences among
`length = 4` code units and returns 1/2. -/
theorem calculateEntropy_surrogate_pairs :
    codePoints [0xD83D, 0xDE00, 0xD83D, 0xDE00] = [[0xD83D, 0xDE00], [0xD83D, 0xDE00]] ∧
    calculateEntropy [0xD83D, 0xDE00, 0xD83D, 0xDE00] = ⟨4, [2]⟩ ∧
    (calculateEntropy [0xD83D, 0xDE00, 0xD83D, 0xDE00]).value = 1 / 2 ∧
    shannonEntropy (codePoints [0xD83D, 0xDE00, 0xD83D, 0xDE00]) = 0 := by
  have h1 : codePoints [0xD83D, 0xDE00, 0xD83D, 0xDE00]
      = [[0xD83D, 0xDE00], [0xD83D, 0xDE00]] := by decide
  have h2 : calculateEntropy [0xD83D, 0xDE00, 0xD83D, 0xDE00] = ⟨4, [2]⟩ := by decide
  refine ⟨h1, h2, ?_, ?_⟩
  · rw [h2]
    have h3 : Real.logb 2 ((2 : ℝ) / 4) = -1 := by
      have : (2 : ℝ) / 4 = 2⁻¹ := by norm_num
      rw [this, Real.logb_inv, Real.logb_self_eq_one (by norm_num)]
    simp only [Entropy.value, List.map_cons, List.map_nil, List.sum_cons, List.sum_nil,
      Nat.cast_ofNat, h3]
    norm_num
  · rw [h1]
    have hd : ([[0xD83D, 0xDE00], [0xD83D, 0xDE00]] : List JSString).dedup
        = [[0xD83D, 0xDE00]] := by decide
    have hc : ([[0xD83D, 0xDE00], [0xD83D, 0xDE00]] : List JSString).count [0xD83D, 0xDE00]
        = 2 := by decide
    simp only [shannonEntropy, hd, List.map_cons, List.map_nil, hc, List.length_cons,
      List.length_nil]
    norm_num

/-! ## Rounding to binary64 -/

theorem roundHalfEven_cases {K : Type*} [LinearOrderedField K] [FloorRing K] (z : K) :
    (roundHalfEven z = ⌊z⌋ ∧ 2 * (z - ⌊z⌋) ≤ 1) ∨
    (roundHalfEven z = ⌊z⌋ + 1 ∧ 1 ≤ 2 * (z - ⌊z⌋)) := by
  unfold roundHalfEven
  split_ifs with h1 h2 h3
  · exact Or.inl ⟨rfl, h1.le⟩
  · exact Or.inr ⟨rfl, h2.le⟩
  · exact Or.inl ⟨rfl, not_lt.1 h2⟩
  · exact Or.inr ⟨rfl, not_lt.1 h1⟩

theorem roundHalfEven_le {K : Type*} [LinearOrderedField K] [FloorRing K] (z : K) : 2 * (roundHalfEven z : K) ≤ 2 * z + 1 := by
  have hf := Int.floor_le z
  rcases roundHalfEven_cases z with ⟨h, _⟩ | ⟨h, h2⟩
  · rw [h]; linarith
  · rw [h]; push_cast; linarith

theorem le_roundHalfEven {K : Type*} [LinearOrderedField K] [FloorRing K] (z : K) : 2 * z - 1 ≤ 2 * (roundHalfEven z : K) := by
  have hf := Int.lt_floor_add_one z
  rcases roundHalfEven_cases z with ⟨h, h2⟩ | ⟨h, _⟩
  · rw [h]; linarith
  · rw [h]; push_cast; linarith

theorem roundHalfEven_nearest {K : Type*} [LinearOrderedField K] [FloorRing K] (z : K) (N : ℤ) :
    |z - (roundHalfEven z : K)| ≤ |z - (N : K)| := by
  have hf1 := Int.floor_le z
  have hf2 := Int.lt_floor_add_one z
  rcases le_or_lt N ⌊z⌋ with hN | hN
  · have hNK : (N : K) ≤ (⌊z⌋ : K) := by exact_mod_cast hN
    rw [abs_of_nonneg (by linarith : (0 : K) ≤ z - N)]
    rcases roundHalfEven_cases z with ⟨h, h2⟩ | ⟨h, h2⟩
    · rw [h, abs_of_nonneg (by linarith)]; linarith
    · rw [h]; push_cast
      rw [abs_of_nonpos (by linarith)]; linarith
  · have hNK : ((⌊z⌋ : ℤ) : K) + 1 ≤ (N : K) := by exact_mod_cast hN
    rw [abs_of_nonpos (by linarith : z - (N : K) ≤ 0)]
    rcases roundHalfEven_cases z with ⟨h, h2⟩ | ⟨h, h2⟩
    · rw [h, abs_of_nonneg (by linarith)]; linarith
    · rw [h]; push_cast
      rw [abs_of_nonpos (by linarith)]; linarith

theorem roundHalfEven_intCast {K : Type*} [LinearOrderedField K] [FloorRing K] (n : ℤ) : roundHalfEven (n : K) = n := by
  simp [roundHalfEven]

theorem roundHalfEven_mono {K : Type*} [LinearOrderedField K] [FloorRing K] {z w : K} (h : z ≤ w) : roundHalfEven z ≤ roundHalfEven w := by
  rcases eq_or_lt_of_le h with h | h
  · rw [h]
  · have h1 := roundHalfEven_le z
    have h2 := le_roundHalfEven w
    have h3 : (roundHalfEven z : K) < (roundHalfEven w : K) + 1 := by linarith
    have h4 : roundHalfEven z < roundHalfEven w + 1 := by exact_mod_cast h3
    omega

theorem two_zpow_pos {K : Type*} [LinearOrderedField K] (q : ℤ) : (0 : K) < 2 ^ q := zpow_pos (by norm_num) q

theorem quantum_neg {K : Type*} [LinearOrderedField K] [FloorRing K] (x : K) : quantum (-x) = quantum x := by
  simp [quantum]

theorem roundDouble_zero {K : Type*} [LinearOrderedField K] [FloorRing K] : roundDouble (0 : K) = 0 := by
  simp [roundDouble, roundHalfEven]

theorem roundDouble_neg {K : Type*} [LinearOrderedField K] [FloorRing K] (x : K) : roundDouble (-x) = -roundDouble x := by
  rcases lt_trichotomy x 0 with h | h | h
  · have h1 : ¬ 0 ≤ x := not_le.2 h
    have h2 : (0 : K) ≤ -x := by linarith
    simp only [roundDouble, quantum_neg, h1, h2, if_true, if_false, neg_neg]
  · subst h; simp [roundDouble_zero]
  · have h1 : (0 : K) ≤ x := h.le
    have h2 : ¬ (0 : K) ≤ -x := by
      intro h3; linarith
    simp only [roundDouble, quantum_neg, h1, h2, if_true, if_false, neg_neg]

theorem roundDouble_of_nonneg {K : Type*} [LinearOrderedField K] [FloorRing K] {x : K} (h : 0 ≤ x) :
    roundDouble x = (roundHalfEven (x / 2 ^ quantum x) : K) * 2 ^ quantum x := by
  simp [roundDouble, h]

/-- Rounding does not cross a multiple of the quantum. -/
theorem roundDouble_le_of_le {K : Type*} [LinearOrderedField K] [FloorRing K] {x : K} (h : 0 ≤ x) (N : ℤ) (hN : x ≤ (N : K) * 2 ^ quantum x) :
    roundDouble x ≤ (N : K) * 2 ^ quantum x := by
  rw [roundDouble_of_nonneg h]
  have hq := two_zpow_pos (K := K) (quantum x)
  have h1 : x / 2 ^ quantum x ≤ (N : K) := by
    rw [div_le_iff₀ hq]; exact hN
  have h2 := roundHalfEven_mono h1
  rw [roundHalfEven_intCast] at h2
  have h3 : (roundHalfEven (x / 2 ^ quantum x) : K) ≤ (N : K) := by exact_mod_cast h2
  exact mul_le_mul_of_nonneg_right h3 hq.le

theorem le_roundDouble_of_le {K : Type*} [LinearOrderedField K] [FloorRing K] {x : K} (h : 0 ≤ x) (N : ℤ) (hN : (N : K) * 2 ^ quantum x ≤ x) :
    (N : K) * 2 ^ quantum x ≤ roundDouble x := by
  rw [roundDouble_of_nonneg h]
  have hq := two_zpow_pos (K := K) (quantum x)
  have h1 : (N : K) ≤ x / 2 ^ quantum x := by
    rw [le_div_iff₀ hq]; exact hN
  have h2 := roundHalfEven_mono h1
  rw [roundHalfEven_intCast] at h2
  have h3 : (N : K) ≤ (roundHalfEven (x / 2 ^ quantum x) : K) := by exact_mod_cast h2
  exact mul_le_mul_of_nonneg_right h3 hq.le

theorem roundDouble_nonneg {K : Type*} [LinearOrderedField K] [FloorRing K] {x : K} (h : 0 ≤ x) : 0 ≤ roundDouble x := by
  have := le_roundDouble_of_le h 0 (by simpa using h)
  simpa using this

/-- A power of two at or above the quantum is a multiple of it. -/
theorem zpow_eq_intCast_mul {K : Type*} [LinearOrderedField K] {q k : ℤ} (h : q ≤ k) :
    (2 : K) ^ k = (((2 : ℤ) ^ (k - q).toNat : ℤ) : K) * 2 ^ q := by
  have h2 : (2 : K) ≠ 0 := by norm_num
  have h3 : ((k - q).toNat : ℤ) = k - q := Int.toNat_of_nonneg (by omega)
  push_cast
  rw [← zpow_natCast, h3, ← zpow_add₀ h2]
  congr 1
  ring

theorem two_zpow_log_le {K : Type*} [LinearOrderedField K] [FloorRing K] {x : K} (h : 0 < x) :
    (2 : K) ^ Int.log 2 x ≤ x := by
  simpa using Int.zpow_log_le_self (b := 2) (by norm_num) h

theorem lt_two_zpow_log {K : Type*} [LinearOrderedField K] [FloorRing K] (x : K) :
    x < (2 : K) ^ (Int.log 2 x + 1) := by
  simpa using Int.lt_zpow_succ_log_self (b := 2) (by norm_num) x

theorem log_lt_of_lt_zpow {K : Type*} [LinearOrderedField K] [FloorRing K] {x : K} (h : 0 < x)
    {k : ℤ} (hk : x < (2 : K) ^ k) : Int.log 2 x < k := by
  have := (Int.lt_zpow_iff_log_lt (b := 2) (by norm_num) h (x := k)).1 (by simpa using hk)
  exact this

theorem le_log_of_zpow_le {K : Type*} [LinearOrderedField K] [FloorRing K] {x : K} (h : 0 < x)
    {k : ℤ} (hk : (2 : K) ^ k ≤ x) : k ≤ Int.log 2 x := by
  have := (Int.zpow_le_iff_le_log (b := 2) (by norm_num) h (x := k)).1 (by simpa using hk)
  exact this

theorem quantum_ge {K : Type*} [LinearOrderedField K] [FloorRing K] (x : K) :
    -1074 ≤ quantum x := le_max_right _ _

theorem quantum_ge_log {K : Type*} [LinearOrderedField K] [FloorRing K] (x : K) :
    Int.log 2 |x| - 52 ≤ quantum x := le_max_left _ _

theorem quantum_mono {K : Type*} [LinearOrderedField K] [FloorRing K] {x y : K} (hx : 0 < x)
    (h : x ≤ y) : quantum x ≤ quantum y := by
  unfold quantum
  rw [abs_of_pos hx, abs_of_pos (lt_of_lt_of_le hx h)]
  have := Int.log_mono_right (b := 2) hx h
  exact max_le_max (by omega) le_rfl

theorem roundDouble_le_zpow {K : Type*} [LinearOrderedField K] [FloorRing K] {x : K}
    (h : 0 ≤ x) {k : ℤ} (hk : quantum x ≤ k) (hx : x ≤ 2 ^ k) : roundDouble x ≤ 2 ^ k := by
  rw [zpow_eq_intCast_mul hk] at hx ⊢
  exact roundDouble_le_of_le h _ hx

theorem zpow_le_roundDouble {K : Type*} [LinearOrderedField K] [FloorRing K] {x : K}
    (h : 0 ≤ x) {k : ℤ} (hk : quantum x ≤ k) (hx : 2 ^ k ≤ x) : 2 ^ k ≤ roundDouble x := by
  rw [zpow_eq_intCast_mul hk] at hx ⊢
  exact le_roundDouble_of_le h _ hx

theorem roundDouble_mono_pos {K : Type*} [LinearOrderedField K] [FloorRing K] {x y : K}
    (hx : 0 < x) (h : x ≤ y) : roundDouble x ≤ roundDouble y := by
  have hy : 0 < y := lt_of_lt_of_le hx h
  have hq := quantum_mono hx h
  rcases eq_or_lt_of_le hq with he | hlt
  · rw [roundDouble_of_nonneg hx.le, roundDouble_of_nonneg hy.le, he]
    have hp := two_zpow_pos (K := K) (quantum y)
    have h1 : x / 2 ^ quantum y ≤ y / 2 ^ quantum y := div_le_div_of_nonneg_right h hp.le
    have h2 := roundHalfEven_mono h1
    have h3 : (roundHalfEven (x / 2 ^ quantum y) : K) ≤ (roundHalfEven (y / 2 ^ quantum y) : K) := by
      exact_mod_cast h2
    exact mul_le_mul_of_nonneg_right h3 hp.le
  · have hqx1 := quantum_ge x
    have hqx2 := quantum_ge_log x
    rw [abs_of_pos hx] at hqx2
    have hqy : quantum y = Int.log 2 y - 52 := by
      unfold quantum
      rw [abs_of_pos hy]
      apply max_eq_left
      unfold quantum at hlt
      rw [abs_of_pos hy] at hlt
      rcases le_total (Int.log 2 y - 52) (-1074) with hc | hc
      · rw [max_eq_right hc] at hlt; omega
      · exact hc
    have hk : quantum x ≤ max (Int.log 2 x + 1) (quantum x) := le_max_right _ _
    have hxk : x ≤ (2 : K) ^ max (Int.log 2 x + 1) (quantum x) :=
      le_trans (lt_two_zpow_log x).le (zpow_le_zpow_right₀ (by norm_num) (le_max_left _ _))
    have h1 := roundDouble_le_zpow hx.le hk hxk
    have h2 : (2 : K) ^ max (Int.log 2 x + 1) (quantum x) ≤ 2 ^ Int.log 2 y :=
      zpow_le_zpow_right₀ (by norm_num) (max_le (by omega) (by omega))
    have h3 := zpow_le_roundDouble hy.le (by omega : quantum y ≤ Int.log 2 y) (two_zpow_log_le hy)
    exact le_trans h1 (le_trans h2 h3)

theorem roundDouble_nonpos {K : Type*} [LinearOrderedField K] [FloorRing K] {x : K}
    (h : x ≤ 0) : roundDouble x ≤ 0 := by
  have h1 := roundDouble_nonneg (neg_nonneg.2 h)
  rw [roundDouble_neg] at h1
  linarith

/-- Rounding to binary64 is monotone. -/
theorem roundDouble_mono {K : Type*} [LinearOrderedField K] [FloorRing K] {x y : K}
    (h : x ≤ y) : roundDouble x ≤ roundDouble y := by
  rcases lt_trichotomy x 0 with hx | hx | hx
  · rcases lt_or_le y 0 with hy | hy
    · have := roundDouble_mono_pos (neg_pos.2 hy) (neg_le_neg h)
      rw [roundDouble_neg, roundDouble_neg] at this
      linarith
    · exact le_trans (roundDouble_nonpos hx.le) (roundDouble_nonneg hy)
  · subst hx
    rw [roundDouble_zero]
    exact roundDouble_nonneg h
  · exact roundDouble_mono_pos hx h

theorem roundDouble_of_pos_representable {K : Type*} [LinearOrderedField K] [FloorRing K]
    (m e : ℤ) (hm0 : 0 < m) (hm : m < 2 ^ 53) (he : -1074 ≤ e) :
    roundDouble ((m : K) * 2 ^ e) = (m : K) * 2 ^ e := by
  have hmK : (0 : K) < (m : K) := by exact_mod_cast hm0
  have hx : (0 : K) < (m : K) * 2 ^ e := mul_pos hmK (two_zpow_pos e)
  have hlt : (m : K) * 2 ^ e < 2 ^ (53 + e) := by
    rw [zpow_add₀ (by norm_num : (2 : K) ≠ 0)]
    have : (m : K) < 2 ^ (53 : ℤ) := by
      have h53 : (m : K) < ((2 ^ 53 : ℤ) : K) := by exact_mod_cast hm
      rw [show (2 : K) ^ (53 : ℤ) = ((2 ^ 53 : ℤ) : K) by norm_num]
      exact h53
    exact mul_lt_mul_of_pos_right this (two_zpow_pos e)
  have hlog := log_lt_of_lt_zpow hx hlt
  have hq : quantum ((m : K) * 2 ^ e) ≤ e := by
    unfold quantum
    rw [abs_of_pos hx]
    exact max_le (by omega) he
  have hgen : ∀ q : ℤ, q ≤ e →
      (m : K) * 2 ^ e = ((m * (2 : ℤ) ^ (e - q).toNat : ℤ) : K) * 2 ^ q := by
    intro q hqe
    rw [zpow_eq_intCast_mul hqe]
    push_cast
    ring
  have heq := hgen _ hq
  apply le_antisymm
  · have := roundDouble_le_of_le hx.le _ heq.le
    rwa [← heq] at this
  · have := le_roundDouble_of_le hx.le _ heq.ge
    rwa [← heq] at this

/-- A number of the form `m * 2 ^ e` with `|m| < 2 ^ 53` and `e ≥ -1074` is not changed
by rounding. -/
theorem roundDouble_of_representable {K : Type*} [LinearOrderedField K] [FloorRing K]
    (m e : ℤ) (hm : |m| < 2 ^ 53) (he : -1074 ≤ e) :
    roundDouble ((m : K) * 2 ^ e) = (m : K) * 2 ^ e := by
  rcases lt_trichotomy m 0 with h | h | h
  · have h1 : -m < 2 ^ 53 := by
      rw [abs_of_neg h] at hm; exact hm
    have := roundDouble_of_pos_representable (K := K) (-m) e (by omega) h1 he
    push_cast at this
    rw [neg_mul, roundDouble_neg] at this
    exact neg_injective this
  · subst h; simp [roundDouble_zero]
  · rw [abs_of_pos h] at hm
    exact roundDouble_of_pos_representable m e h hm he

theorem roundDouble_of_isDouble {K : Type*} [LinearOrderedField K] [FloorRing K] {x : K}
    (h : IsDouble x) : roundDouble x = x := by
  obtain ⟨m, e, hm, he, _, rfl⟩ := h
  exact roundDouble_of_representable m e hm he

/-- The rounding error is at most half a unit in the last place. -/
theorem roundDouble_error {K : Type*} [LinearOrderedField K] [FloorRing K] (x : K) :
    |roundDouble x - x| ≤ 2 ^ quantum x / 2 := by
  have key : ∀ y : K, 0 ≤ y → |roundDouble y - y| ≤ 2 ^ quantum y / 2 := by
    intro y hy
    have hp := two_zpow_pos (K := K) (quantum y)
    rw [roundDouble_of_nonneg hy]
    have h1 := roundHalfEven_le (y / 2 ^ quantum y)
    have h2 := le_roundHalfEven (y / 2 ^ quantum y)
    have hy2 : y = y / 2 ^ quantum y * 2 ^ quantum y := by
      field_simp
    rw [abs_le]
    constructor
    · nlinarith
    · nlinarith
  rcases le_or_lt 0 x with h | h
  · exact key x h
  · have := key (-x) (by linarith)
    rw [roundDouble_neg, quantum_neg] at this
    rw [← abs_neg]
    simpa [neg_sub, sub_eq_neg_add, add_comm] using this

theorem quantum_of_normal {K : Type*} [LinearOrderedField K] [FloorRing K] {x : K}
    (h : (2 : K) ^ (-1022 : ℤ) ≤ |x|) : quantum x = Int.log 2 |x| - 52 := by
  have hpos : 0 < |x| := lt_of_lt_of_le (two_zpow_pos _) h
  have := le_log_of_zpow_le hpos h
  unfold quantum
  exact max_eq_left (by omega)

/-- In the normal range the relative rounding error is at most `2 ^ -53`. -/
theorem roundDouble_rel_error {K : Type*} [LinearOrderedField K] [FloorRing K] {x : K}
    (h : (2 : K) ^ (-1022 : ℤ) ≤ |x|) : |roundDouble x - x| ≤ 2 ^ (-53 : ℤ) * |x| := by
  have hpos : 0 < |x| := lt_of_lt_of_le (two_zpow_pos _) h
  have h1 := roundDouble_error x
  rw [quantum_of_normal h] at h1
  have h2 := two_zpow_log_le hpos
  have h3 : (2 : K) ^ (Int.log 2 |x| - 52) / 2 = 2 ^ (-53 : ℤ) * 2 ^ Int.log 2 |x| := by
    rw [← zpow_add₀ (by norm_num : (2 : K) ≠ 0), div_eq_iff (by norm_num : (2 : K) ≠ 0)]
    nth_rewrite 3 [← zpow_one (2 : K)]
    rw [← zpow_add₀ (by norm_num : (2 : K) ≠ 0)]
    congr 1
    ring
  rw [h3] at h1
  exact le_trans h1 (mul_le_mul_of_nonneg_left h2 (two_zpow_pos _).le)

theorem intCast_two_pow_mul {K : Type*} [LinearOrderedField K] (n : ℕ) (q : ℤ) :
    (((2 : ℤ) ^ n : ℤ) : K) * 2 ^ q = 2 ^ (q + (n : ℤ)) := by
  rw [zpow_add₀ (by norm_num : (2 : K) ≠ 0), zpow_natCast]
  push_cast
  ring

theorem roundDouble_nearest_multiple {K : Type*} [LinearOrderedField K] [FloorRing K] {x : K}
    (h : 0 ≤ x) (N : ℤ) : |roundDouble x - x| ≤ |(N : K) * 2 ^ quantum x - x| := by
  have hp := two_zpow_pos (K := K) (quantum x)
  rw [roundDouble_of_nonneg h]
  have h1 := roundHalfEven_nearest (x / 2 ^ quantum x) N
  have e1 : (roundHalfEven (x / 2 ^ quantum x) : K) * 2 ^ quantum x - x
      = -((x / 2 ^ quantum x - (roundHalfEven (x / 2 ^ quantum x) : K)) * 2 ^ quantum x) := by
    field_simp
    ring
  have e2 : (N : K) * 2 ^ quantum x - x
      = -((x / 2 ^ quantum x - (N : K)) * 2 ^ quantum x) := by
    field_simp
    ring
  rw [e1, e2, abs_neg, abs_neg, abs_mul, abs_mul]
  exact mul_le_mul_of_nonneg_right h1 (abs_nonneg _)

theorem roundDouble_nearest_pos {K : Type*} [LinearOrderedField K] [FloorRing K] {x : K}
    (h : 0 < x) (m e : ℤ) (hm : |m| < 2 ^ 53) (he : -1074 ≤ e) :
    |roundDouble x - x| ≤ |(m : K) * 2 ^ e - x| := by
  rcases le_or_lt (quantum x) e with hq | hq
  · have := roundDouble_nearest_multiple h.le (m * (2 : ℤ) ^ (e - quantum x).toNat)
    rw [zpow_eq_intCast_mul hq]
    push_cast at this ⊢
    rw [← mul_assoc]
    exact this
  · have hqx : quantum x = Int.log 2 x - 52 := by
      have h1 := quantum_ge_log x
      rw [abs_of_pos h] at h1
      unfold quantum at hq ⊢
      rw [abs_of_pos h] at hq ⊢
      apply max_eq_left
      rcases le_total (Int.log 2 x - 52) (-1074) with hc | hc
      · rw [max_eq_right hc] at hq; omega
      · exact hc
    have hB : (2 : K) ^ (quantum x + 52) ≤ x := by
      rw [hqx]
      have := two_zpow_log_le h
      simpa using this
    have hmK : |(m : K)| < 2 ^ (53 : ℤ) := by
      have h53 : ((|m| : ℤ) : K) < ((2 ^ 53 : ℤ) : K) := by exact_mod_cast hm
      rw [show (2 : K) ^ (53 : ℤ) = ((2 ^ 53 : ℤ) : K) by norm_num]
      simpa using h53
    have hd : (m : K) * 2 ^ e < 2 ^ (quantum x + 52) := by
      have h1 : (m : K) * 2 ^ e ≤ |(m : K)| * 2 ^ e :=
        mul_le_mul_of_nonneg_right (le_abs_self _) (two_zpow_pos e).le
      have h2 : |(m : K)| * 2 ^ e < 2 ^ (53 : ℤ) * 2 ^ e :=
        mul_lt_mul_of_pos_right hmK (two_zpow_pos e)
      have h3 : (2 : K) ^ (53 : ℤ) * 2 ^ e ≤ 2 ^ (quantum x + 52) := by
        rw [← zpow_add₀ (by norm_num : (2 : K) ≠ 0)]
        exact zpow_le_zpow_right₀ (by norm_num) (by omega)
      linarith
    have h4 := roundDouble_nearest_multiple h.le ((2 : ℤ) ^ 52)
    have h5 : (((2 : ℤ) ^ 52 : ℤ) : K) * 2 ^ quantum x = 2 ^ (quantum x + 52) :=
      intCast_two_pow_mul 52 (quantum x)
    rw [h5] at h4
    rw [abs_of_nonpos (by linarith : (2 : K) ^ (quantum x + 52) - x ≤ 0)] at h4
    rw [abs_of_nonpos (by linarith : (m : K) * 2 ^ e - x ≤ 0)]
    linarith

/-- The rounded value is a binary64 number nearest to `x`: no number `m * 2 ^ e` with
`|m| < 2 ^ 53` and `e ≥ -1074` is nearer. -/
theorem roundDouble_nearest {K : Type*} [LinearOrderedField K] [FloorRing K] (x : K)
    (m e : ℤ) (hm : |m| < 2 ^ 53) (he : -1074 ≤ e) :
    |roundDouble x - x| ≤ |(m : K) * 2 ^ e - x| := by
  rcases lt_trichotomy x 0 with h | h | h
  · have := roundDouble_nearest_pos (neg_pos.2 h) (-m) e (by simpa using hm) he
    rw [roundDouble_neg] at this
    push_cast at this
    rw [← abs_neg (roundDouble x - x), ← abs_neg ((m : K) * 2 ^ e - x)]
    convert this using 2 <;> ring
  · subst h
    simp [roundDouble_zero]
  · exact roundDouble_nearest_pos h m e hm he

theorem roundDouble_isDouble_pos {K : Type*} [LinearOrderedField K] [FloorRing K] {x : K}
    (h : 0 < x) (hlt : roundDouble x < 2 ^ (1024 : ℤ)) : IsDouble (roundDouble x) := by
  have hp := two_zpow_pos (K := K) (quantum x)
  have hql := quantum_ge_log x
  rw [abs_of_pos h] at hql
  -- the significand is at most 2 ^ 53
  have hup : roundDouble x ≤ (((2 : ℤ) ^ 53 : ℤ) : K) * 2 ^ quantum x := by
    apply roundDouble_le_of_le h.le
    have h1 : x ≤ 2 ^ (quantum x + 53) :=
      le_trans (lt_two_zpow_log x).le (zpow_le_zpow_right₀ (by norm_num) (by omega))
    rw [intCast_two_pow_mul 53 (quantum x)]
    exact h1
  have hnn : (0 : ℤ) ≤ roundHalfEven (x / 2 ^ quantum x) := by
    have h0 : (0 : K) ≤ x / 2 ^ quantum x := div_nonneg h.le hp.le
    have := roundHalfEven_mono (by simpa using h0 : ((0 : ℤ) : K) ≤ x / 2 ^ quantum x)
    rwa [roundHalfEven_intCast] at this
  rw [roundDouble_of_nonneg h.le] at hup hlt ⊢
  have hM : roundHalfEven (x / 2 ^ quantum x) ≤ 2 ^ 53 := by
    have := le_of_mul_le_mul_right hup hp
    exact_mod_cast this
  rcases eq_or_lt_of_le hM with hM | hM
  · rw [hM] at hlt ⊢
    have h2 : ((((2 : ℤ) ^ 53 : ℤ) : K)) * 2 ^ quantum x = 2 ^ (quantum x + 53) :=
      intCast_two_pow_mul 53 (quantum x)
    rw [h2] at hlt
    have h3 : quantum x + 53 < 1024 := by
      by_contra hc
      have := zpow_le_zpow_right₀ (by norm_num : (1 : K) ≤ 2) (not_lt.1 hc)
      linarith
    refine ⟨2 ^ 52, quantum x + 1, by norm_num, by have := quantum_ge x; omega, by omega, ?_⟩
    rw [intCast_two_pow_mul 53 (quantum x), intCast_two_pow_mul 52 (quantum x + 1)]
    congr 1
    push_cast
    ring
  · refine ⟨_, quantum x, by rw [abs_of_nonneg hnn]; exact hM, quantum_ge x, ?_, rfl⟩
    by_contra hc
    have hq : quantum x = Int.log 2 x - 52 := by
      unfold quantum at hc ⊢
      rw [abs_of_pos h] at hc ⊢
      apply max_eq_left
      rcases le_total (Int.log 2 x - 52) (-1074) with hc2 | hc2
      · rw [max_eq_right hc2] at hc; omega
      · exact hc2
    have h4 := zpow_le_roundDouble h.le (by omega : quantum x ≤ Int.log 2 x) (two_zpow_log_le h)
    rw [roundDouble_of_nonneg h.le] at h4
    have h5 := zpow_le_zpow_right₀ (by norm_num : (1 : K) ≤ 2)
      (by omega : (1024 : ℤ) ≤ Int.log 2 x)
    linarith

theorem isDouble_neg {K : Type*} [LinearOrderedField K] [FloorRing K] {x : K}
    (h : IsDouble x) : IsDouble (-x) := by
  obtain ⟨m, e, hm, he, he2, rfl⟩ := h
  exact ⟨-m, e, by simpa using hm, he, he2, by push_cast; ring⟩

theorem isDouble_zero {K : Type*} [LinearOrderedField K] [FloorRing K] : IsDouble (0 : K) :=
  ⟨0, 0, by norm_num, by norm_num, by norm_num, by simp⟩

/-- Below the overflow threshold the rounded value is a binary64 number. -/
theorem roundDouble_isDouble {K : Type*} [LinearOrderedField K] [FloorRing K] (x : K)
    (hlt : |roundDouble x| < 2 ^ (1024 : ℤ)) : IsDouble (roundDouble x) := by
  rcases lt_trichotomy x 0 with h | h | h
  · have h1 : roundDouble (-x) < 2 ^ (1024 : ℤ) := by
      rw [roundDouble_neg]
      exact lt_of_le_of_lt (neg_le_abs _) hlt
    have := isDouble_neg (roundDouble_isDouble_pos (neg_pos.2 h) h1)
    rwa [roundDouble_neg, neg_neg] at this
  · subst h
    rw [roundDouble_zero]
    exact isDouble_zero
  · exact roundDouble_isDouble_pos h (lt_of_le_of_lt (le_abs_self _) hlt)

theorem ilog2Aux_eq (fuel : ℕ) : ∀ n : ℕ, n ≤ fuel → ilog2Aux fuel n = Nat.log 2 n := by
  induction fuel with
  | zero =>
    intro n hn
    have : n = 0 := by omega
    subst this
    simp [ilog2Aux]
  | succ fuel ih =>
    intro n hn
    unfold ilog2Aux
    split_ifs with h2
    · exact (Nat.log_of_lt h2).symm
    · have h3 : 2 ≤ n := by omega
      rw [ih (n / 2) (by omega), Nat.log_of_one_lt_of_le (by norm_num) h3]

theorem ilog2_eq (n : ℕ) : ilog2 n = Nat.log 2 n := ilog2Aux_eq n n le_rfl

theorem ilog2_self_le {n : ℕ} (h : n ≠ 0) : 2 ^ ilog2 n ≤ n := by
  rw [ilog2_eq]; exact Nat.pow_log_le_self 2 h

theorem lt_ilog2_self (n : ℕ) : n < 2 ^ (ilog2 n + 1) := by
  rw [ilog2_eq]; exact Nat.lt_pow_succ_log_self (by norm_num) n

theorem zpow_mul_pow_toNat {K : Type*} [LinearOrderedField K] (k : ℤ) :
    (2 : K) ^ k * 2 ^ (-k).toNat = 2 ^ k.toNat := by
  rcases le_total 0 k with h | h
  · have h1 : (-k).toNat = 0 := by omega
    have h2 : ((k.toNat : ℕ) : ℤ) = k := Int.toNat_of_nonneg h
    rw [h1, pow_zero, mul_one, ← zpow_natCast, h2]
  · have h1 : k.toNat = 0 := by omega
    have h2 : (((-k).toNat : ℕ) : ℤ) = -k := Int.toNat_of_nonneg (by omega)
    rw [h1, pow_zero, ← zpow_natCast, h2, ← zpow_add₀ (by norm_num : (2 : K) ≠ 0)]
    simp

theorem log_eq_of_bounds {K : Type*} [LinearOrderedField K] [FloorRing K] {x : K} (hx : 0 < x)
    {e : ℤ} (h1 : (2 : K) ^ e ≤ x) (h2 : x < 2 ^ (e + 1)) : Int.log 2 x = e := by
  have a := le_log_of_zpow_le hx h1
  have b := log_lt_of_lt_zpow hx h2
  omega

theorem floorLog2_eq {K : Type*} [LinearOrderedField K] [FloorRing K] (n d : ℕ)
    (hn : 0 < n) (hd : 0 < d) : Int.log 2 ((n : K) / d) = floorLog2 n d := by
  have hnK : (0 : K) < n := by exact_mod_cast hn
  have hdK : (0 : K) < d := by exact_mod_cast hd
  have hx : (0 : K) < (n : K) / d := div_pos hnK hdK
  have hn1 : (2 : K) ^ (ilog2 n : ℤ) ≤ n := by
    rw [zpow_natCast]
    exact_mod_cast ilog2_self_le hn.ne'
  have hn2 : (n : K) < 2 ^ ((ilog2 n : ℤ) + 1) := by
    have : n < 2 ^ (ilog2 n + 1) := lt_ilog2_self _
    have h2 : (n : K) < ((2 ^ (ilog2 n + 1) : ℕ) : K) := by exact_mod_cast this
    rw [show ((ilog2 n : ℤ) + 1) = ((ilog2 n + 1 : ℕ) : ℤ) by push_cast; rfl, zpow_natCast]
    simpa using h2
  have hd1 : (2 : K) ^ (ilog2 d : ℤ) ≤ d := by
    rw [zpow_natCast]
    exact_mod_cast ilog2_self_le hd.ne'
  have hd2 : (d : K) < 2 ^ ((ilog2 d : ℤ) + 1) := by
    have : d < 2 ^ (ilog2 d + 1) := lt_ilog2_self _
    have h2 : (d : K) < ((2 ^ (ilog2 d + 1) : ℕ) : K) := by exact_mod_cast this
    rw [show ((ilog2 d : ℤ) + 1) = ((ilog2 d + 1 : ℕ) : ℤ) by push_cast; rfl, zpow_natCast]
    simpa using h2
  have h2ne : (2 : K) ≠ 0 := by norm_num
  generalize hk : ((ilog2 n : ℤ) - (ilog2 d : ℤ)) = k
  have hpk := zpow_mul_pow_toNat (K := K) k
  have hpos1 : (0 : K) < 2 ^ (-k).toNat := pow_pos (by norm_num) _
  have hcond : d * 2 ^ k.toNat ≤ n * 2 ^ (-k).toNat ↔ (2 : K) ^ k ≤ (n : K) / d := by
    rw [le_div_iff₀ hdK]
    constructor
    · intro h
      have hK : (d : K) * 2 ^ k.toNat ≤ (n : K) * 2 ^ (-k).toNat := by exact_mod_cast h
      rw [← hpk] at hK
      have : (2 : K) ^ k * d * 2 ^ (-k).toNat ≤ (n : K) * 2 ^ (-k).toNat := by
        calc (2 : K) ^ k * d * 2 ^ (-k).toNat = d * (2 ^ k * 2 ^ (-k).toNat) := by ring
          _ ≤ _ := hK
      exact le_of_mul_le_mul_right this hpos1
    · intro h
      have : (2 : K) ^ k * d * 2 ^ (-k).toNat ≤ (n : K) * 2 ^ (-k).toNat :=
        mul_le_mul_of_nonneg_right h hpos1.le
      have hK : (d : K) * 2 ^ k.toNat ≤ (n : K) * 2 ^ (-k).toNat := by
        rw [← hpk]
        calc (d : K) * (2 ^ k * 2 ^ (-k).toNat) = (2 : K) ^ k * d * 2 ^ (-k).toNat := by ring
          _ ≤ _ := this
      exact_mod_cast hK
  -- bounds on n / d from the bounds on n and d
  have hup : (n : K) / d < 2 ^ (k + 1) := by
    rw [div_lt_iff₀ hdK]
    have e1 : (2 : K) ^ (k + 1) = 2 ^ ((ilog2 n : ℤ) + 1) / 2 ^ (ilog2 d : ℤ) := by
      rw [← zpow_sub₀ h2ne, ← hk]
      congr 1
      ring
    rw [e1, div_mul_eq_mul_div, lt_div_iff₀ (two_zpow_pos _)]
    calc (n : K) * 2 ^ (ilog2 d : ℤ) ≤ n * d := mul_le_mul_of_nonneg_left hd1 hnK.le
      _ < 2 ^ ((ilog2 n : ℤ) + 1) * d := mul_lt_mul_of_pos_right hn2 hdK
  have hlow : (2 : K) ^ (k - 1) ≤ (n : K) / d := by
    rw [le_div_iff₀ hdK]
    have e1 : (2 : K) ^ (k - 1) = 2 ^ (ilog2 n : ℤ) / 2 ^ ((ilog2 d : ℤ) + 1) := by
      rw [← zpow_sub₀ h2ne, ← hk]
      congr 1
      ring
    rw [e1, div_mul_eq_mul_div, div_le_iff₀ (two_zpow_pos _)]
    calc (2 : K) ^ (ilog2 n : ℤ) * d ≤ n * d := mul_le_mul_of_nonneg_right hn1 hdK.le
      _ ≤ n * 2 ^ ((ilog2 d : ℤ) + 1) := mul_le_mul_of_nonneg_left hd2.le hnK.le
  unfold floorLog2
  simp only [hk]
  split_ifs with hc
  · exact log_eq_of_bounds hx (hcond.1 hc) hup
  · have : (n : K) / d < 2 ^ k := by
      by_contra hcon
      exact hc (hcond.2 (not_lt.1 hcon))
    exact log_eq_of_bounds hx hlow (by simpa using this)

theorem floor_natCast_div {K : Type*} [LinearOrderedField K] [FloorRing K] (n d : ℕ)
    (hd : 0 < d) : ⌊(n : K) / d⌋ = ((n / d : ℕ) : ℤ) := by
  have hdK : (0 : K) < d := by exact_mod_cast hd
  rw [Int.floor_eq_iff]
  constructor
  · rw [le_div_iff₀ hdK]
    exact_mod_cast Nat.div_mul_le_self n d
  · rw [div_lt_iff₀ hdK, Int.cast_natCast]
    have := Nat.lt_div_mul_add (a := n) hd
    have h2 : (n : K) < ((n / d * d + d : ℕ) : K) := by exact_mod_cast this
    rw [Nat.cast_add, Nat.cast_mul] at h2
    linarith

theorem roundHalfEvenNat_eq {K : Type*} [LinearOrderedField K] [FloorRing K] (n d : ℕ)
    (hd : 0 < d) : roundHalfEven ((n : K) / d) = (roundHalfEvenNat n d : ℤ) := by
  have hdK : (0 : K) < d := by exact_mod_cast hd
  have hfl := floor_natCast_div (K := K) n d hd
  have hsplit : (n : K) = d * ((n / d : ℕ) : K) + ((n % d : ℕ) : K) := by
    exact_mod_cast (Nat.div_add_mod n d).symm
  have hz : 2 * ((n : K) / d - ((n / d : ℕ) : K)) = ((2 * (n % d) : ℕ) : K) / d := by
    field_simp
    linarith
  unfold roundHalfEven roundHalfEvenNat
  rw [hfl]
  have c1 : (2 * ((n : K) / d - (((n / d : ℕ) : ℤ) : K)) < 1) ↔ 2 * (n % d) < d := by
    rw [Int.cast_natCast, hz, div_lt_one hdK]
    exact_mod_cast Iff.rfl
  have c2 : (1 < 2 * ((n : K) / d - (((n / d : ℕ) : ℤ) : K))) ↔ d < 2 * (n % d) := by
    rw [Int.cast_natCast, hz, one_lt_div hdK]
    exact_mod_cast Iff.rfl
  have c3 : (((n / d : ℕ) : ℤ) % 2 = 0) ↔ (n / d) % 2 = 0 := by omega
  simp only [c1, c2, c3]
  split_ifs <;> simp

theorem quantum_natCast_div {K : Type*} [LinearOrderedField K] [FloorRing K] (n d : ℕ)
    (hn : 0 < n) (hd : 0 < d) :
    quantum ((n : K) / d) = max (floorLog2 n d - 52) (-1074) := by
  have hx : (0 : K) < (n : K) / d := div_pos (by exact_mod_cast hn) (by exact_mod_cast hd)
  unfold quantum
  rw [abs_of_pos hx, floorLog2_eq n d hn hd]

theorem roundDouble_natCast_div {K : Type*} [LinearOrderedField K] [FloorRing K] (n d : ℕ)
    (hn : 0 < n) (hd : 0 < d) (q : ℤ) (hq : q = max (floorLog2 n d - 52) (-1074)) :
    roundDouble ((n : K) / d)
      = ((roundHalfEvenNat (n * 2 ^ (-q).toNat) (d * 2 ^ q.toNat) * 2 ^ q.toNat : ℕ) : K)
          / ((2 ^ (-q).toNat : ℕ) : K) := by
  have hnK : (0 : K) < n := by exact_mod_cast hn
  have hdK : (0 : K) < d := by exact_mod_cast hd
  have hx : (0 : K) < (n : K) / d := div_pos hnK hdK
  have hp1 : (0 : K) < 2 ^ (-q).toNat := pow_pos (by norm_num) _
  have hp2 : (0 : K) < 2 ^ q.toNat := pow_pos (by norm_num) _
  have hpk := zpow_mul_pow_toNat (K := K) q
  have hq2 : (2 : K) ^ q = 2 ^ q.toNat / 2 ^ (-q).toNat := by
    rw [eq_div_iff hp1.ne', hpk]
  rw [roundDouble_of_nonneg hx.le, quantum_natCast_div n d hn hd, ← hq]
  have harg : (n : K) / d / 2 ^ q
      = ((n * 2 ^ (-q).toNat : ℕ) : K) / ((d * 2 ^ q.toNat : ℕ) : K) := by
    rw [hq2]
    push_cast
    field_simp
  rw [harg, roundHalfEvenNat_eq _ _ (Nat.mul_pos hd (pow_pos (by norm_num) _)), hq2]
  push_cast
  field_simp

theorem roundPos_spec {K : Type*} [LinearOrderedField K] [FloorRing K] (n d : ℕ)
    (hn : 0 < n) (hd : 0 < d) :
    (roundPos n d = .posInf ∧ (2 : K) ^ (1024 : ℤ) ≤ roundDouble ((n : K) / d)) ∨
    (∃ a b : ℕ, roundPos n d = .frac a b ∧ 0 < b ∧
      (a : K) / b = roundDouble ((n : K) / d) ∧
      roundDouble ((n : K) / d) < 2 ^ (1024 : ℤ)) := by
  have hr := roundDouble_natCast_div (K := K) n d hn hd _ rfl
  generalize hq : max (floorLog2 n d - 52) (-1074) = q at hr
  generalize hm : roundHalfEvenNat (n * 2 ^ (-q).toNat) (d * 2 ^ q.toNat) * 2 ^ q.toNat = r at hr
  have hp1 : (0 : K) < ((2 ^ (-q).toNat : ℕ) : K) := by
    have : 0 < 2 ^ (-q).toNat := pow_pos (by norm_num) _
    exact_mod_cast this
  have h1024 : ∀ k : ℕ, (2 : K) ^ (1024 : ℤ) * ((2 ^ k : ℕ) : K) = ((2 ^ (1024 + k) : ℕ) : K) := by
    intro k
    rw [show (1024 : ℤ) = ((1024 : ℕ) : ℤ) by rfl, zpow_natCast, pow_add, Nat.cast_mul,
      Nat.cast_pow, Nat.cast_pow, Nat.cast_ofNat]
  unfold roundPos
  simp only [hq, hm]
  split_ifs with hc
  · left
    refine ⟨rfl, ?_⟩
    rw [hr, le_div_iff₀ hp1, h1024]
    have hr0 : r ≠ 0 := by
      intro h0
      rw [h0] at hc
      have : ilog2 0 = 0 := by decide
      omega
    have h1 : 2 ^ (1024 + (-q).toNat) ≤ 2 ^ ilog2 r := Nat.pow_le_pow_right (by norm_num) hc
    exact_mod_cast le_trans h1 (ilog2_self_le hr0)
  · right
    refine ⟨r, _, rfl, pow_pos (by norm_num) _, hr.symm, ?_⟩
    rw [hr, div_lt_iff₀ hp1, h1024]
    have h1 : 2 ^ (ilog2 r + 1) ≤ 2 ^ (1024 + (-q).toNat) :=
      Nat.pow_le_pow_right (by norm_num) (by omega)
    exact_mod_cast lt_of_lt_of_le (lt_ilog2_self r) h1

theorem round64_spec {K : Type*} [LinearOrderedField K] [FloorRing K] (a : ℤ) (d : ℕ)
    (hd : 0 < d) :
    (JSNum.round64 (.frac a d) = .posInf ∧ (2 : K) ^ (1024 : ℤ) ≤ roundDouble ((a : K) / d)) ∨
    (JSNum.round64 (.frac a d) = .negInf ∧ roundDouble ((a : K) / d) ≤ -2 ^ (1024 : ℤ)) ∨
    (∃ (b : ℤ) (c : ℕ), JSNum.round64 (.frac a d) = .frac b c ∧ 0 < c ∧
      (b : K) / c = roundDouble ((a : K) / d) ∧
      |roundDouble ((a : K) / d)| < 2 ^ (1024 : ℤ)) := by
  have hd0 : d ≠ 0 := hd.ne'
  rcases lt_trichotomy a 0 with ha | ha | ha
  · have hna : 0 < (-a).toNat := by omega
    have hcast : (((-a).toNat : ℕ) : K) = -(a : K) := by
      have : (((-a).toNat : ℕ) : ℤ) = -a := Int.toNat_of_nonneg (by omega)
      rw [← Int.cast_natCast, this, Int.cast_neg]
    have hx : (a : K) / d = -((((-a).toNat : ℕ) : K) / d) := by
      rw [hcast]; ring
    have hne : ¬ (0 < a) := by omega
    simp only [JSNum.round64, hd0, ha.ne, hne, if_false]
    rw [hx, roundDouble_neg]
    rcases roundPos_spec (K := K) (-a).toNat d hna hd with ⟨h1, h2⟩ | ⟨p, c, h1, hc, h2, h3⟩
    · right; left
      rw [h1]
      exact ⟨rfl, by linarith⟩
    · right; right
      rw [h1]
      have hnn : (0 : K) ≤ roundDouble ((((-a).toNat : ℕ) : K) / d) :=
        roundDouble_nonneg (div_nonneg (Nat.cast_nonneg _) (Nat.cast_nonneg _))
      refine ⟨-(p : ℤ), c, rfl, hc, ?_, ?_⟩
      · rw [← h2]; push_cast; ring
      · rw [abs_neg, abs_of_nonneg hnn]; exact h3
  · subst ha
    right; right
    refine ⟨0, 1, by simp [JSNum.round64, hd0], by norm_num, ?_, ?_⟩
    · simp [roundDouble_zero]
    · simp [roundDouble_zero, two_zpow_pos]
  · have hna : 0 < a.toNat := by omega
    have hcast : ((a.toNat : ℕ) : K) = (a : K) := by
      have : ((a.toNat : ℕ) : ℤ) = a := Int.toNat_of_nonneg (by omega)
      rw [← Int.cast_natCast, this]
    simp only [JSNum.round64, hd0, ha.ne', ha, if_false, if_true]
    rw [← hcast]
    rcases roundPos_spec (K := K) a.toNat d hna hd with ⟨h1, h2⟩ | ⟨p, c, h1, hc, h2, h3⟩
    · left
      exact ⟨h1, h2⟩
    · right; right
      have hnn : (0 : K) ≤ roundDouble (((a.toNat : ℕ) : K) / d) :=
        roundDouble_nonneg (div_nonneg (Nat.cast_nonneg _) (Nat.cast_nonneg _))
      refine ⟨(p : ℤ), c, h1, hc, ?_, ?_⟩
      · rw [← h2]; push_cast; rfl
      · rw [abs_of_nonneg hnn]; exact h3

theorem ofDigits_append (s : JSString) (u : Nat) :
    ofDigits (s ++ [u]) = 10 * ofDigits s + (u - 48) := by
  simp [ofDigits, List.foldl_append]

theorem ofDigits_decimalAux (fuel : Nat) : ∀ n, n < fuel → ofDigits (decimalAux fuel n) = n := by
  induction fuel with
  | zero => intro n h; omega
  | succ fuel ih =>
    intro n h
    unfold decimalAux
    split_ifs with h10
    · simp [ofDigits]
    · rw [ofDigits_append, ih (n / 10) (by omega)]
      omega

theorem ofDigits_decimal (n : Nat) : ofDigits (decimal n) = n :=
  ofDigits_decimalAux (n + 1) n (by omega)

theorem decimalAux_digits (fuel : Nat) : ∀ n, ∀ u ∈ decimalAux fuel n, 48 ≤ u ∧ u ≤ 57 := by
  induction fuel with
  | zero => intro n u h; simp [decimalAux] at h
  | succ fuel ih =>
    intro n u h
    unfold decimalAux at h
    split_ifs at h with h10
    · simp at h; omega
    · rw [List.mem_append] at h
      rcases h with h | h
      · exact ih _ u h
      · simp at h; omega

theorem decimal_ne_nil (n : Nat) : decimal n ≠ [] := by
  unfold decimal decimalAux
  split_ifs <;> simp

theorem ofDigits_replicate_append (k : Nat) (s : JSString) :
    ofDigits (List.replicate k 48 ++ s) = ofDigits s := by
  induction k with
  | zero => simp
  | succ k ih =>
    rw [List.replicate_succ, List.cons_append]
    unfold ofDigits at ih ⊢
    rw [List.foldl_cons]
    simpa using ih

/-- The padded digit string behind `fixed2`: at least three digits denoting `n`. -/
theorem fixed2_shape (n : Nat) :
    ∃ a b : JSString, fixed2 n = a ++ [46] ++ b ∧ b.length = 2 ∧ a ≠ [] ∧
      ofDigits (a ++ b) = n ∧ (∀ u ∈ a, 48 ≤ u ∧ u ≤ 57) ∧ (∀ u ∈ b, 48 ≤ u ∧ u ≤ 57) := by
  have hd := decimalAux_digits (n + 1) n
  have hne := decimal_ne_nil n
  have hof := ofDigits_decimal n
  obtain ⟨m, hm⟩ : ∃ m, (if (decimal n).length ≤ 2 then
    List.replicate (3 - (decimal n).length) 48 ++ decimal n else decimal n) = m := ⟨_, rfl⟩
  have hfix : fixed2 n = m.take (m.length - 2) ++ [46] ++ m.drop (m.length - 2) := by
    rw [← hm]; rfl
  have hlen : 3 ≤ m.length := by
    rw [← hm]
    split_ifs with h
    · simp; omega
    · omega
  have hval : ofDigits m = n := by
    rw [← hm]
    split_ifs
    · rw [ofDigits_replicate_append, hof]
    · exact hof
  have hdig : ∀ u ∈ m, 48 ≤ u ∧ u ≤ 57 := by
    rw [← hm]
    intro u hu
    split_ifs at hu
    · rw [List.mem_append] at hu
      rcases hu with hu | hu
      · have := List.eq_of_mem_replicate hu
        omega
      · exact hd u hu
    · exact hd u hu
  refine ⟨m.take (m.length - 2), m.drop (m.length - 2), hfix, ?_, ?_, ?_, ?_, ?_⟩
  · simp; omega
  · intro h
    have := congrArg List.length h
    simp at this
    omega
  · rw [List.take_append_drop, hval]
  · intro u hu; exact hdig u (List.mem_of_mem_take hu)
  · intro u hu; exact hdig u (List.mem_of_mem_drop hu)

/-! ## The average score of a batch -/

theorem roundDouble_abs_le_zpow {K : Type*} [LinearOrderedField K] [FloorRing K] {x : K}
    (k : ℤ) (hk : -1074 ≤ k) (h : |x| ≤ 2 ^ k) : |roundDouble x| ≤ 2 ^ k := by
  have hrep : roundDouble ((2 : K) ^ k) = 2 ^ k := by
    have := roundDouble_of_representable (K := K) 1 k (by norm_num) hk
    simpa using this
  have h1 := abs_le.1 h
  rw [abs_le]
  constructor
  · have := roundDouble_mono h1.1
    rwa [roundDouble_neg, hrep] at this
  · have := roundDouble_mono h1.2
    rwa [hrep] at this

theorem orZero_ne_nan (x : JSNum) : x.orZero ≠ .nan := by
  unfold JSNum.orZero
  split_ifs with h
  · intro hx
    rw [hx] at h
    exact absurd h (by decide)
  · exact fun h => JSNum.noConfusion h

theorem orZero_frac_toRat (b : ℤ) (c : ℕ) :
    (JSNum.orZero (.frac b c)).toRat = some ((b : ℚ) / c) := by
  unfold JSNum.orZero
  split_ifs with h
  · rfl
  · have hb : b = 0 := by simpa [JSNum.truthy] using h
    subst hb
    simp [JSNum.toRat]

theorem analyzeBatch_averageScore (lower : JSString → JSString) (cfg : StudioConfig)
    (hs : List JSValue) :
    (analyzeBatch lower cfg (.array hs)).summary.map (fun s => s.averageScore)
      = some (JSNum.div ((hs.map fun u => (detectBot lower cfg u).score).sum) hs.length
          ).round64.orZero := by
  simp [analyzeBatch, foldl_score_sum, Function.comp_def]

/-- C10 (counterexample). For the handles "user12345", "xy_1234" and the value null the
scores are 100, 60 and 0, and `averageScore` is 7505999378950827 / 2 ^ 47
(53.333333333333336), not the arithmetic mean 160 / 3. -/
theorem analyzeBatch_average_rounded :
    ((analyzeBatch asciiToLowerCase studioConfig
        (.array [.string (str "user12345"), .string (str "xy_1234"), .null])).results.map
      fun r => r.analysis.score) = [100, 60, 0] ∧
    (analyzeBatch asciiToLowerCase studioConfig
        (.array [.string (str "user12345"), .string (str "xy_1234"), .null])).summary.map
      (fun s => s.averageScore) = some (.frac 7505999378950827 (2 ^ 47)) ∧
    (JSNum.frac 7505999378950827 (2 ^ 47)).toRat ≠ some (((100 + 60 + 0 : Int) : ℚ) / 3) := by
  refine ⟨by decide, by decide, ?_⟩
  simp only [JSNum.toRat]
  norm_num

/-- C10 (amended). The `averageScore` of the summary is the quotient of the sum of the
per-handle scores by the number of handles as `/` returns it: the binary64 number nearest
to the arithmetic mean.  It is never NaN and it is 0 for the empty array.  For a mean of
magnitude at most 2 ^ 1023 it is a binary64 number, no binary64 number is nearer to the
mean, it is the mean itself when the mean is a binary64 number, and (from 2 ^ -1022 on) it
differs from the mean by at most 2 ^ -53 times the magnitude of the mean. -/
theorem analyzeBatch_average (lower : JSString → JSString) (cfg : StudioConfig)
    (hs : List JSValue) :
    ∃ s, (analyzeBatch lower cfg (.array hs)).summary = some s ∧
      s.averageScore ≠ JSNum.nan ∧
      (hs = [] → s.averageScore = .frac 0 1) ∧
      ∀ mean : ℚ,
        mean = (((hs.map fun u => (detectBot lower cfg u).score).sum : Int) : ℚ)
          / (hs.length : ℚ) →
        hs ≠ [] → |mean| ≤ 2 ^ (1023 : ℤ) →
        ∃ a : ℚ, s.averageScore.toRat = some a ∧ a = roundDouble mean ∧ IsDouble a ∧
          (∀ d : ℚ, IsDouble d → |a - mean| ≤ |d - mean|) ∧
          (IsDouble mean → a = mean) ∧
          ((2 : ℚ) ^ (-1022 : ℤ) ≤ |mean| → |a - mean| ≤ 2 ^ (-53 : ℤ) * |mean|) := by
  have hav := analyzeBatch_averageScore lower cfg hs
  obtain ⟨s, hs1⟩ : ∃ s, (analyzeBatch lower cfg (.array hs)).summary = some s := ⟨_, rfl⟩
  rw [hs1, Option.map_some', Option.some.injEq] at hav
  refine ⟨s, hs1, ?_, ?_, ?_⟩
  · rw [hav]; exact orZero_ne_nan _
  · intro hnil
    subst hnil
    rw [hav]
    rfl
  · intro mean hmean hne hbound
    have hlen : 0 < hs.length := List.length_pos.2 hne
    have hdiv : JSNum.div ((hs.map fun u => (detectBot lower cfg u).score).sum) hs.length
        = .frac ((hs.map fun u => (detectBot lower cfg u).score).sum) hs.length := by
      simp [JSNum.div, hlen.ne']
    rw [hdiv] at hav
    have hrd := roundDouble_abs_le_zpow (1023 : ℤ) (by norm_num) hbound
    have hlt : |roundDouble mean| < 2 ^ (1024 : ℤ) :=
      lt_of_le_of_lt hrd (zpow_lt_zpow_right₀ (by norm_num) (by norm_num))
    have hprops : IsDouble (roundDouble mean) ∧
        (∀ d : ℚ, IsDouble d → |roundDouble mean - mean| ≤ |d - mean|) ∧
        (IsDouble mean → roundDouble mean = mean) ∧
        ((2 : ℚ) ^ (-1022 : ℤ) ≤ |mean| →
          |roundDouble mean - mean| ≤ 2 ^ (-53 : ℤ) * |mean|) := by
      refine ⟨roundDouble_isDouble mean hlt, ?_, fun h => roundDouble_of_isDouble h,
        fun h => roundDouble_rel_error h⟩
      rintro d ⟨m, e, hm, he, _, rfl⟩
      exact roundDouble_nearest mean m e hm he
    rcases round64_spec (K := ℚ) ((hs.map fun u => (detectBot lower cfg u).score).sum)
      hs.length hlen with ⟨_, h2⟩ | ⟨_, h2⟩ | ⟨b, c, h1, _, h2, _⟩
    · rw [← hmean] at h2
      have := (abs_le.1 hrd).2
      have h3 : (2 : ℚ) ^ (1023 : ℤ) < 2 ^ (1024 : ℤ) :=
        zpow_lt_zpow_right₀ (by norm_num) (by norm_num)
      linarith
    · rw [← hmean] at h2
      have := (abs_le.1 hrd).1
      have h3 : (2 : ℚ) ^ (1023 : ℤ) < 2 ^ (1024 : ℤ) :=
        zpow_lt_zpow_right₀ (by norm_num) (by norm_num)
      linarith
    · rw [← hmean] at h2
      refine ⟨roundDouble mean, ?_, rfl, hprops⟩
      rw [hav, h1, orZero_frac_toRat, h2]

/-- C10 (witness): the three handles of the counterexample; the mean is 160 / 3. -/
theorem analyzeBatch_average_witness :
    ∃ s a, (analyzeBatch asciiToLowerCase studioConfig
        (.array [.string (str "user12345"), .string (str "xy_1234"), .null])).summary = some s ∧
      s.averageScore.toRat = some a ∧ IsDouble a ∧
      |a - 160 / 3| ≤ 2 ^ (-53 : ℤ) * |(160 / 3 : ℚ)| := by
  obtain ⟨s, h1, _, _, h2⟩ := analyzeBatch_average asciiToLowerCase studioConfig
    [.string (str "user12345"), .string (str "xy_1234"), .null]
  have hsum : ([JSValue.string (str "user12345"), .string (str "xy_1234"), .null].map
      fun u => (detectBot asciiToLowerCase studioConfig u).score).sum = 160 := by decide
  obtain ⟨a, ha, _, hd, _, _, herr⟩ := h2 (160 / 3) (by rw [hsum]; norm_num) (by simp)
    (by rw [abs_of_pos (by norm_num)]; norm_num)
  refine ⟨s, a, h1, ha, hd, herr ?_⟩
  rw [abs_of_pos (by norm_num)]
  norm_num

/-! ## The ratio of the engagement calculator -/

theorem fixedValuePos_nonneg {t : ℚ} (h : 0 ≤ t) : 0 ≤ fixedValuePos t := by
  unfold fixedValuePos
  split_ifs
  · exact h
  · apply div_nonneg _ (by norm_num)
    have : (0 : ℤ) ≤ ⌊100 * t + 1 / 2⌋ := Int.floor_nonneg.2 (by linarith)
    exact_mod_cast this

theorem fixedValuePos_mono {x y : ℚ} (h : x ≤ y) :
    fixedValuePos x ≤ fixedValuePos y := by
  unfold fixedValuePos
  split_ifs with h1 h2 h2
  · exact h
  · linarith
  · have hfl : ⌊100 * x + 1 / 2⌋ ≤ (10 : ℤ) ^ 23 := by
      have h3 : 100 * x + 1 / 2 < ((10 ^ 23 + 1 : ℤ) : ℚ) := by
        push_cast; linarith
      have := Int.floor_lt.2 h3
      omega
    have hq : ((⌊100 * x + 1 / 2⌋ : ℤ) : ℚ) ≤ 10 ^ 23 := by exact_mod_cast hfl
    calc ((⌊100 * x + 1 / 2⌋ : ℤ) : ℚ) / 100 ≤ 10 ^ 23 / 100 :=
          div_le_div_of_nonneg_right hq (by norm_num)
      _ = 10 ^ 21 := by norm_num
      _ ≤ y := h2
  · have : ⌊100 * x + 1 / 2⌋ ≤ ⌊100 * y + 1 / 2⌋ := Int.floor_mono (by linarith)
    have hq : ((⌊100 * x + 1 / 2⌋ : ℤ) : ℚ) ≤ ((⌊100 * y + 1 / 2⌋ : ℤ) : ℚ) := by
      exact_mod_cast this
    exact div_le_div_of_nonneg_right hq (by norm_num)

theorem fixedValue_mono {x y : ℚ} (h : x ≤ y) : fixedValue x ≤ fixedValue y := by
  unfold fixedValue
  split_ifs with h1 h2 h2
  · have := fixedValuePos_mono (neg_le_neg h)
    linarith
  · have a := fixedValuePos_nonneg (by linarith : (0 : ℚ) ≤ -x)
    have b := fixedValuePos_nonneg (not_lt.1 h2)
    linarith
  · linarith
  · exact fixedValuePos_mono h

theorem takeWhile_point (a b : JSString) (ha : ∀ u ∈ a, 48 ≤ u ∧ u ≤ 57) :
    (a ++ 46 :: b).takeWhile (fun u => u != 46) = a ∧
    (a ++ 46 :: b).dropWhile (fun u => u != 46) = 46 :: b := by
  induction a with
  | nil => simp
  | cons x a ih =>
    have hx := ha x (List.mem_cons_self _ _)
    have hx46 : (x != 46) = true := by simp; omega
    have := ih fun u hu => ha u (List.mem_cons_of_mem _ hu)
    simp [List.takeWhile_cons, List.dropWhile_cons, hx46, this]

theorem decimalValue_fixed2 (negative : Bool) (n : Nat) :
    decimalValue ((if negative then [45] else []) ++ fixed2 n)
      = .frac (if negative then -(n : Int) else (n : Int)) 100 := by
  obtain ⟨a, b, hfix, hb, hane, hval, hda, _⟩ := fixed2_shape n
  obtain ⟨a0, a', rfl⟩ := List.exists_cons_of_ne_nil hane
  have ha0 := hda a0 (List.mem_cons_self _ _)
  have htw := takeWhile_point (a0 :: a') b hda
  have hNaN : str "NaN" = [78, 97, 78] := by decide
  have hInf : str "Infinity" = [73, 110, 102, 105, 110, 105, 116, 121] := by decide
  have hNeg : str "-Infinity" = [45, 73, 110, 102, 105, 110, 105, 116, 121] := by decide
  rw [hfix]
  cases negative with
  | false =>
    have e : (if false = true then [45] else []) ++ ((a0 :: a') ++ [46] ++ b)
        = (a0 :: a') ++ 46 :: b := by simp
    rw [e]
    unfold decimalValue
    have c1 : ¬ ((a0 :: a') ++ 46 :: b = str "NaN") := by
      rw [hNaN]; intro h; simp at h; omega
    have c2 : ¬ ((a0 :: a') ++ 46 :: b = str "Infinity") := by
      rw [hInf]; intro h; simp at h; omega
    have c3 : ¬ ((a0 :: a') ++ 46 :: b = str "-Infinity") := by
      rw [hNeg]; intro h; simp at h; omega
    have hhead : (((a0 :: a') ++ 46 :: b).head? == some 45) = false := by
      simp; omega
    simp only [c1, c2, c3, if_false, hhead, Bool.false_eq_true, htw.1, htw.2, List.drop_one,
      List.tail_cons, hval, hb]
    norm_num
  | true =>
    have e : (if true = true then [45] else []) ++ ((a0 :: a') ++ [46] ++ b)
        = 45 :: ((a0 :: a') ++ 46 :: b) := by simp
    rw [e]
    unfold decimalValue
    have c1 : ¬ (45 :: ((a0 :: a') ++ 46 :: b) = str "NaN") := by
      rw [hNaN]; intro h; simp at h
    have c2 : ¬ (45 :: ((a0 :: a') ++ 46 :: b) = str "Infinity") := by
      rw [hInf]; intro h; simp at h
    have c3 : ¬ (45 :: ((a0 :: a') ++ 46 :: b) = str "-Infinity") := by
      rw [hNeg]; intro h; simp at h; omega
    have hhead : ((45 :: ((a0 :: a') ++ 46 :: b)).head? == some 45) = true := by
      simp
    simp only [c1, c2, c3, if_false, hhead, if_true, List.tail_cons, htw.1, htw.2,
      List.drop_one, hval, hb]
    norm_num

theorem le_frac_iff (a : ℤ) (b : ℕ) (c : ℤ) (d : ℕ) (hb : 0 < b) (hd : 0 < d) :
    JSNum.le (.frac a b) (.frac c d) = true ↔ (a : ℚ) / b ≤ (c : ℚ) / d := by
  have hbq : (0 : ℚ) < b := by exact_mod_cast hb
  have hdq : (0 : ℚ) < d := by exact_mod_cast hd
  rw [div_le_div_iff₀ hbq hdq]
  simp only [JSNum.le, decide_eq_true_eq]
  exact_mod_cast Iff.rfl

theorem floor_hundredths (n d : ℕ) (hd : 0 < d) :
    ⌊100 * ((n : ℚ) / d) + 1 / 2⌋ = (((200 * n + d) / (2 * d) : ℕ) : ℤ) := by
  have hdq : (0 : ℚ) < d := by exact_mod_cast hd
  rw [← floor_natCast_div (K := ℚ) (200 * n + d) (2 * d) (by omega)]
  congr 1
  push_cast
  field_simp
  ring

theorem toFixed2_value (a : ℤ) (d : ℕ) (hd : 0 < d) :
    ∃ (p : ℤ) (q : ℕ), (toFixed2 (.frac a d)).value = .frac p q ∧ 0 < q ∧
      (p : ℚ) / q = fixedValue ((a : ℚ) / d) := by
  have hdq : (0 : ℚ) < d := by exact_mod_cast hd
  have habs : ((a.natAbs : ℕ) : ℚ) = |(a : ℚ)| := by
    rw [Nat.cast_natAbs, Int.cast_abs]
  have hneg : (a : ℚ) / d < 0 ↔ a < 0 := by
    rw [div_lt_iff₀ hdq, zero_mul]
    exact_mod_cast Iff.rfl
  by_cases hbig : 10 ^ 21 * d ≤ a.natAbs
  · refine ⟨a, d, by simp only [toFixed2, if_pos hbig, RatioField.value], hd, ?_⟩
    have hq : (10 : ℚ) ^ 21 * d ≤ |(a : ℚ)| := by
      rw [← habs]; exact_mod_cast hbig
    unfold fixedValue fixedValuePos
    by_cases ha : a < 0
    · have h1 : -((a : ℚ) / d) = |(a : ℚ)| / d := by
        rw [abs_of_neg (by exact_mod_cast ha)]; ring
      have h2 : (10 : ℚ) ^ 21 ≤ -((a : ℚ) / d) := by
        rw [h1, le_div_iff₀ hdq]; exact hq
      rw [if_pos (hneg.2 ha), if_pos h2, neg_neg]
    · have h1 : (a : ℚ) / d = |(a : ℚ)| / d := by
        rw [abs_of_nonneg (by exact_mod_cast not_lt.1 ha)]
      have h2 : (10 : ℚ) ^ 21 ≤ (a : ℚ) / d := by
        rw [h1, le_div_iff₀ hdq]; exact hq
      have h3 : ¬ (a : ℚ) / d < 0 := fun h => ha (hneg.1 h)
      rw [if_neg h3, if_pos h2]
  · have hq : |(a : ℚ)| < (10 : ℚ) ^ 21 * d := by
      rw [← habs]; exact_mod_cast not_le.1 hbig
    have hdec := decimalValue_fixed2 (decide (a < 0)) ((200 * a.natAbs + d) / (2 * d))
    simp only [decide_eq_true_eq] at hdec
    have hval : (toFixed2 (.frac a d)).value
        = .frac (if a < 0 then -(((200 * a.natAbs + d) / (2 * d) : ℕ) : ℤ)
            else (((200 * a.natAbs + d) / (2 * d) : ℕ) : ℤ)) 100 := by
      rw [← hdec]
      simp only [toFixed2, if_neg hbig, RatioField.value]
    refine ⟨_, 100, hval, by norm_num, ?_⟩
    have hfl := floor_hundredths a.natAbs d hd
    rw [habs] at hfl
    unfold fixedValue fixedValuePos
    by_cases ha : a < 0
    · have h1 : -((a : ℚ) / d) = |(a : ℚ)| / d := by
        rw [abs_of_neg (by exact_mod_cast ha)]; ring
      have h2 : ¬ (10 : ℚ) ^ 21 ≤ -((a : ℚ) / d) := by
        rw [h1, le_div_iff₀ hdq]; exact not_le.2 hq
      rw [if_pos ha, if_pos (hneg.2 ha), if_neg h2, h1, hfl]
      push_cast
      ring
    · have h1 : (a : ℚ) / d = |(a : ℚ)| / d := by
        rw [abs_of_nonneg (by exact_mod_cast not_lt.1 ha)]
      have h2 : ¬ (10 : ℚ) ^ 21 ≤ (a : ℚ) / d := by
        rw [h1, le_div_iff₀ hdq]; exact not_le.2 hq
      have h3 : ¬ (a : ℚ) / d < 0 := fun h => ha (hneg.1 h)
      rw [if_neg ha, if_neg h3, if_neg h2, h1, hfl]
      push_cast
      ring

theorem toFixed2_round64_mono (a b : ℤ) (d : ℕ) (hd : 0 < d) (h : a ≤ b) :
    JSNum.le (toFixed2 (JSNum.round64 (.frac a d))).value
      (toFixed2 (JSNum.round64 (.frac b d))).value = true := by
  have hdq : (0 : ℚ) < d := by exact_mod_cast hd
  have hx : (a : ℚ) / d ≤ (b : ℚ) / d :=
    div_le_div_of_nonneg_right (by exact_mod_cast h) hdq.le
  have hr := roundDouble_mono hx
  have hp : (0 : ℚ) < 2 ^ (1024 : ℤ) := two_zpow_pos _
  have vInf : (toFixed2 .posInf).value = .posInf := by decide
  have vNeg : (toFixed2 .negInf).value = .negInf := by decide
  rcases round64_spec (K := ℚ) a d hd with ⟨e1, h1⟩ | ⟨e1, h1⟩ | ⟨p1, q1, e1, hq1, v1, h1⟩ <;>
  rcases round64_spec (K := ℚ) b d hd with ⟨e2, h2⟩ | ⟨e2, h2⟩ | ⟨p2, q2, e2, hq2, v2, h2⟩
  · rw [e1, e2, vInf]; rfl
  · linarith
  · have := (abs_lt.1 h2).2; linarith
  · rw [e1, e2, vInf, vNeg]; rfl
  · rw [e1, e2, vNeg]; rfl
  · rw [e1, e2, vNeg]
    obtain ⟨p, q, hv, _, _⟩ := toFixed2_value p2 q2 hq2
    rw [hv]; rfl
  · rw [e1, e2, vInf]
    obtain ⟨p, q, hv, _, _⟩ := toFixed2_value p1 q1 hq1
    rw [hv]; rfl
  · have := (abs_lt.1 h1).1; linarith
  · rw [e1, e2]
    obtain ⟨p, q, hv, hq, hpq⟩ := toFixed2_value p1 q1 hq1
    obtain ⟨p', q', hv', hq', hpq'⟩ := toFixed2_value p2 q2 hq2
    rw [hv, hv', le_frac_iff _ _ _ _ hq hq', hpq, hpq', v1, v2]
    exact fixedValue_mono hr

/-- C18 (counterexample). With 0 followers, following -5 gives the ratio Infinity and
following 0 gives the ratio 0: the ratio decreases although -5 <= 0. -/
theorem calculateEngagement_ratio_decreases :
    (-5 : Int) ≤ 0 ∧
    (calculateEngagement studioEngagement (.count 0) (.count (-5))).ratio = .number .posInf ∧
    (calculateEngagement studioEngagement (.count 0) (.count 0)).ratio = .number (.frac 0 1) ∧
    JSNum.le (calculateEngagement studioEngagement (.count 0) (.count (-5))).ratio.value
      (calculateEngagement studioEngagement (.count 0) (.count 0)).ratio.value = false := by
  decide

/-- C18 (amended). For fixed followers >= 0 and following1 <= following2, the number the
ratio for following1 holds or denotes (0, Infinity, or the string `ratio.toFixed(2)`) is
at most the one for following2, Infinity being the greatest value, except in one case:
with 0 followers, a negative following1 has the ratio Infinity and following2 = 0 has the
ratio 0. -/
theorem calculateEngagement_ratio_mono (cfg : EngagementConfig)
    (followers following1 following2 : Int)
    (h0 : 0 ≤ followers) (h12 : following1 ≤ following2) :
    JSNum.le (calculateEngagement cfg (.count followers) (.count following1)).ratio.value
      (calculateEngagement cfg (.count followers) (.count following2)).ratio.value = true
    ↔ ¬ (followers = 0 ∧ following1 < 0 ∧ following2 = 0) := by
  by_cases hz : followers = 0
  · subst hz
    by_cases hf1 : following1 = 0
    · subst hf1
      by_cases hf2 : following2 = 0
      · subst hf2
        exact ⟨fun _ h => absurd h.2.1 (by decide), fun _ => rfl⟩
      · have : JSNum.le
            (calculateEngagement cfg (.count 0) (.count 0)).ratio.value
            (calculateEngagement cfg (.count 0) (.count following2)).ratio.value = true := by
          simp [calculateEngagement, parseIntOrZero_count, hf2, RatioField.value, JSNum.le]
        exact ⟨fun _ h => hf2 h.2.2, fun _ => this⟩
    · by_cases hf2 : following2 = 0
      · subst hf2
        have hlt : following1 < 0 := by omega
        have : JSNum.le
            (calculateEngagement cfg (.count 0) (.count following1)).ratio.value
            (calculateEngagement cfg (.count 0) (.count 0)).ratio.value = false := by
          simp [calculateEngagement, parseIntOrZero_count, hf1, RatioField.value, JSNum.le]
        rw [this]
        exact ⟨fun h => absurd h (by decide), fun h => absurd ⟨rfl, hlt, rfl⟩ h⟩
      · have : JSNum.le
            (calculateEngagement cfg (.count 0) (.count following1)).ratio.value
            (calculateEngagement cfg (.count 0) (.count following2)).ratio.value = true := by
          simp [calculateEngagement, parseIntOrZero_count, hf1, hf2, RatioField.value, JSNum.le]
        exact ⟨fun _ h => hf2 h.2.2, fun _ => this⟩
  · have hpos : 0 < followers := by omega
    rw [calculateEngagement_nonzero cfg followers following1 hz,
      calculateEngagement_nonzero cfg followers following2 hz, quot_pos _ _ hpos,
      quot_pos _ _ hpos]
    have := toFixed2_round64_mono following1 following2 followers.toNat (by omega) h12
    exact ⟨fun _ h => hz h.1, fun _ => this⟩

/-- C18 (witness): 3 followers, following 1 and 2; the ratios are the strings "0.33" and
"0.67". -/
theorem calculateEngagement_ratio_mono_witness :
    (0 : Int) ≤ 3 ∧ (1 : Int) ≤ 2 ∧
    (calculateEngagement studioEngagement (.count 3) (.count 1)).ratio = .string (str "0.33") ∧
    (calculateEngagement studioEngagement (.count 3) (.count 2)).ratio = .string (str "0.67") ∧
    JSNum.le (calculateEngagement studioEngagement (.count 3) (.count 1)).ratio.value
      (calculateEngagement studioEngagement (.count 3) (.count 2)).ratio.value = true :=
  ⟨by decide, by decide, by decide, by decide,
    (calculateEngagement_ratio_mono studioEngagement 3 1 2 (by decide) (by decide)).2
      (by decide)⟩

/-! ## `calculateEntropy` in binary64

The loop of lines 189-193 divides, multiplies and subtracts binary64 numbers
(`calculateEntropy64`).  The results below bound what it returns for an engine whose
`Math.log2` is accurate (`Log2Accurate`), and compute it for the correctly rounded
logarithm (`log2Rounded`). -/

/-! ### The exact entropy of at most 16 counts stays away from 4 -/

theorem log_le_sqrt (w : ℝ) (hw : 0 < w) : Real.log w ≤ 2 * (Real.sqrt w - 1) := by
  have h1 := Real.log_le_sub_one_of_pos (Real.sqrt_pos.2 hw)
  rw [Real.log_sqrt hw.le] at h1
  linarith

theorem entropy_term_gap (q : ℝ) (hq : 0 < q) :
    -(q * Real.log q) ≤ (4 * Real.log 2 - 1) * q + 1 / 16 - (Real.sqrt q - 1 / 4) ^ 2 := by
  have hs := Real.sqrt_pos.2 hq
  have hw : 0 < 1 / (16 * q) := by positivity
  have h1 := log_le_sqrt _ hw
  have h16 : Real.log 16 = 4 * Real.log 2 := by
    have : (16 : ℝ) = 2 ^ 4 := by norm_num
    rw [this, Real.log_pow]
    norm_num
  have h2 : Real.log (1 / (16 * q)) = -(4 * Real.log 2) - Real.log q := by
    rw [one_div, Real.log_inv, Real.log_mul (by norm_num) hq.ne', h16]
    ring
  have hsq : Real.sqrt q * Real.sqrt q = q := Real.mul_self_sqrt hq.le
  have h3 : Real.sqrt (1 / (16 * q)) = 1 / (4 * Real.sqrt q) := by
    have h4 : (0 : ℝ) ≤ 1 / (4 * Real.sqrt q) := by positivity
    rw [← Real.sqrt_sq h4]
    congr 1
    field_simp
    nlinarith
  rw [h2, h3] at h1
  have h4 : q * (-(4 * Real.log 2) - Real.log q) ≤ q * (2 * (1 / (4 * Real.sqrt q) - 1)) :=
    mul_le_mul_of_nonneg_left h1 hq.le
  have h5 : q * (2 * (1 / (4 * Real.sqrt q) - 1)) = Real.sqrt q / 2 - 2 * q := by
    have : q / Real.sqrt q = Real.sqrt q := by
      rw [div_eq_iff hs.ne']
      exact hsq.symm
    have e : q * (2 * (1 / (4 * Real.sqrt q) - 1)) = (q / Real.sqrt q) / 2 - 2 * q := by
      rw [one_div, mul_inv, div_eq_mul_inv]
      ring
    rw [e, this]
  rw [h5] at h4
  nlinarith

theorem entropy_sum_gap (n : ℝ) (hn : 0 < n) (cs : List Nat) (hpos : ∀ c ∈ cs, 0 < c) :
    (cs.map fun (c : Nat) => -(((c : ℝ) / n) * Real.log ((c : ℝ) / n))).sum
      ≤ (4 * Real.log 2 - 1) * ((cs.sum : ℝ) / n) + (cs.length : ℝ) / 16
        - (cs.map fun (c : Nat) => (Real.sqrt ((c : ℝ) / n) - 1 / 4) ^ 2).sum := by
  induction cs with
  | nil => simp
  | cons c cs ih =>
    have hc : (0 : ℝ) < c := by exact_mod_cast hpos c (List.mem_cons_self _ _)
    have ih2 := ih fun d hd => hpos d (List.mem_cons_of_mem _ hd)
    have ht := entropy_term_gap ((c : ℝ) / n) (div_pos hc hn)
    simp only [List.map_cons, List.sum_cons, List.length_cons, Nat.cast_add, Nat.cast_one]
    have e1 : (4 * Real.log 2 - 1) * (((c : ℝ) + (cs.sum : ℝ)) / n)
        = (4 * Real.log 2 - 1) * ((c : ℝ) / n) + (4 * Real.log 2 - 1) * ((cs.sum : ℝ) / n) := by
      ring
    rw [e1]
    linarith

theorem sqrt_gap (c L : ℕ) (hc : 0 < c) (hcL : c ≤ L) (h : 16 * c ≠ L) :
    1 / (400 * (L : ℝ) ^ 2) ≤ (Real.sqrt ((c : ℝ) / L) - 1 / 4) ^ 2 := by
  have hL : 0 < L := lt_of_lt_of_le hc hcL
  have hLr : (0 : ℝ) < L := by exact_mod_cast hL
  have hcr : (0 : ℝ) < c := by exact_mod_cast hc
  have hq : (0 : ℝ) < (c : ℝ) / L := div_pos hcr hLr
  have hq1 : (c : ℝ) / L ≤ 1 := by
    rw [div_le_one hLr]
    exact_mod_cast hcL
  set r := Real.sqrt ((c : ℝ) / L) with hr
  have hr0 : 0 ≤ r := Real.sqrt_nonneg _
  have hr1 : r ≤ 1 := by
    rw [hr]
    exact Real.sqrt_le_one.2 hq1
  have hrr : r * r = (c : ℝ) / L := Real.mul_self_sqrt hq.le
  -- |16 c - L| ≥ 1
  have hint : (1 : ℝ) ≤ |16 * (c : ℝ) - L| := by
    have : (1 : ℤ) ≤ |16 * (c : ℤ) - L| := by
      have : 16 * (c : ℤ) - L ≠ 0 := by omega
      exact Int.one_le_abs this
    exact_mod_cast this
  have hdiff : |r * r - 1 / 16| = |16 * (c : ℝ) - L| / (16 * L) := by
    rw [hrr]
    have : (c : ℝ) / L - 1 / 16 = (16 * (c : ℝ) - L) / (16 * L) := by
      field_simp
      ring
    rw [this, abs_div, abs_of_pos (by positivity : (0 : ℝ) < 16 * L)]
  have hfac : r * r - 1 / 16 = (r - 1 / 4) * (r + 1 / 4) := by ring
  have h1 : 1 / (16 * (L : ℝ)) ≤ |r - 1 / 4| * (5 / 4) := by
    have h2 : 1 / (16 * (L : ℝ)) ≤ |r * r - 1 / 16| := by
      rw [hdiff]
      exact div_le_div_of_nonneg_right hint (by positivity)
    rw [hfac, abs_mul, abs_of_pos (by linarith : 0 < r + 1 / 4)] at h2
    exact le_trans h2 (mul_le_mul_of_nonneg_left (by linarith) (abs_nonneg _))
  have h3 : 1 / (20 * (L : ℝ)) ≤ |r - 1 / 4| := by
    rw [div_le_iff₀ (by positivity)]
    rw [div_le_iff₀ (by positivity)] at h1
    nlinarith
  have h4 : (1 / (20 * (L : ℝ))) ^ 2 ≤ |r - 1 / 4| ^ 2 :=
    pow_le_pow_left₀ (by positivity) h3 2
  rw [sq_abs] at h4
  calc 1 / (400 * (L : ℝ) ^ 2) = (1 / (20 * (L : ℝ))) ^ 2 := by
        field_simp
        ring
    _ ≤ _ := h4

theorem sum_neg_logb (n : ℝ) (cs : List ℕ) :
    (cs.map fun (c : Nat) => -(((c : ℝ) / n) * Real.logb 2 ((c : ℝ) / n))).sum
      = (cs.map fun (c : Nat) => -(((c : ℝ) / n) * Real.log ((c : ℝ) / n))).sum
        / Real.log 2 := by
  induction cs with
  | nil => simp
  | cons c cs ih =>
    simp only [List.map_cons, List.sum_cons]
    rw [ih, Real.logb]
    ring

/-- Unless there are sixteen equal counts that add up to the length, the exact entropy
stays below 4 by a margin. -/
theorem entropy_gap (L : ℕ) (cs : List ℕ) (hpos : ∀ c ∈ cs, 0 < c)
    (hlen : cs.length ≤ 16) (hsum : cs.sum ≤ L) (hL : 0 < L)
    (hne : ¬ (cs.length = 16 ∧ ∀ c ∈ cs, 16 * c = L)) :
    (cs.map fun (c : Nat) => -(((c : ℝ) / L) * Real.logb 2 ((c : ℝ) / L))).sum
      ≤ 4 - 1 / (400 * (L : ℝ) ^ 2) / Real.log 2 := by
  have hl2 : 0 < Real.log 2 := Real.log_pos (by norm_num)
  have hl2' : (1 : ℝ) / 4 ≤ Real.log 2 := by
    have := Real.log_two_gt_d9
    linarith
  have hLr : (0 : ℝ) < L := by exact_mod_cast hL
  have hL1 : (1 : ℝ) ≤ L := by exact_mod_cast hL
  have hsum' := entropy_sum_gap (L : ℝ) hLr cs hpos
  have hconv := sum_neg_logb (L : ℝ) cs
  rw [hconv, div_le_iff₀ hl2, sub_mul, div_mul_cancel₀ _ hl2.ne']
  have hS0 : ∀ x ∈ (cs.map fun (c : Nat) => (Real.sqrt ((c : ℝ) / L) - 1 / 4) ^ 2), (0 : ℝ) ≤ x := by
    intro x hx
    rw [List.mem_map] at hx
    obtain ⟨c, _, rfl⟩ := hx
    positivity
  have hS := List.sum_nonneg hS0
  have hσ : (cs.sum : ℝ) / L ≤ 1 := by
    rw [div_le_one hLr]
    exact_mod_cast hsum
  have hK : (cs.length : ℝ) / 16 ≤ 1 := by
    rw [div_le_one (by norm_num)]
    exact_mod_cast hlen
  have hsmall : 1 / (400 * (L : ℝ) ^ 2) ≤ 1 / 16 := by
    apply div_le_div_of_nonneg_left (by norm_num) (by norm_num)
    nlinarith
  by_cases h16 : cs.length = 16
  · have hex : ∃ c ∈ cs, 16 * c ≠ L := by
      by_contra hcon
      push_neg at hcon
      exact hne ⟨h16, hcon⟩
    obtain ⟨c, hc, hcL⟩ := hex
    have hcle : c ≤ L := le_trans (List.single_le_sum (by simp) c hc) hsum
    have hg := sqrt_gap c L (hpos c hc) hcle hcL
    have hmem : (Real.sqrt ((c : ℝ) / L) - 1 / 4) ^ 2 ∈
        (cs.map fun (c : Nat) => (Real.sqrt ((c : ℝ) / L) - 1 / 4) ^ 2) :=
      List.mem_map.2 ⟨c, hc, rfl⟩
    have hle := List.single_le_sum hS0 _ hmem
    nlinarith
  · have hK' : (cs.length : ℝ) / 16 ≤ 15 / 16 := by
      rw [div_le_div_iff_of_pos_right (by norm_num)]
      have : cs.length ≤ 15 := by omega
      exact_mod_cast this
    nlinarith


/-! ### The rounding errors of the loop -/

/-- The rounding error is at most `2 ^ -53` of the magnitude, or half the smallest
subnormal. -/
theorem roundDouble_abs_error {K : Type*} [LinearOrderedField K] [FloorRing K] (x : K) :
    |roundDouble x - x| ≤ 2 ^ (-53 : ℤ) * |x| + 2 ^ (-1075 : ℤ) := by
  rcases eq_or_ne x 0 with h | h
  · subst h
    rw [roundDouble_zero]
    simp only [sub_zero, abs_zero, mul_zero, zero_add]
    exact (two_zpow_pos _).le
  · have hpos : 0 < |x| := abs_pos.2 h
    have h1 := roundDouble_error x
    have h2 := two_zpow_log_le hpos
    have ha : (2 : K) ^ (Int.log 2 |x| - 52) / 2 = 2 ^ (-53 : ℤ) * 2 ^ Int.log 2 |x| := by
      rw [← zpow_add₀ (by norm_num : (2 : K) ≠ 0), div_eq_iff (by norm_num : (2 : K) ≠ 0)]
      nth_rewrite 3 [← zpow_one (2 : K)]
      rw [← zpow_add₀ (by norm_num : (2 : K) ≠ 0)]
      congr 1
      ring
    have hb : (2 : K) ^ (-1074 : ℤ) / 2 = 2 ^ (-1075 : ℤ) := by
      rw [div_eq_iff (by norm_num : (2 : K) ≠ 0)]
      nth_rewrite 3 [← zpow_one (2 : K)]
      rw [← zpow_add₀ (by norm_num : (2 : K) ≠ 0)]
      congr 1
    have h53 := two_zpow_pos (K := K) (-53)
    have h1075 := two_zpow_pos (K := K) (-1075)
    unfold quantum at h1
    rcases le_total (Int.log 2 |x| - 52) (-1074) with hc | hc
    · rw [max_eq_right hc, hb] at h1
      have : 0 ≤ (2 : K) ^ (-53 : ℤ) * |x| := mul_nonneg h53.le hpos.le
      linarith
    · rw [max_eq_left hc, ha] at h1
      have := mul_le_mul_of_nonneg_left h2 h53.le
      linarith

theorem roundDouble_one {K : Type*} [LinearOrderedField K] [FloorRing K] :
    roundDouble (1 : K) = 1 := by
  have := roundDouble_of_representable (K := K) 1 0 (by norm_num) (by norm_num)
  simpa using this

/-- The effect of the rounding of the probability on `-p * log p`. -/
theorem neg_mul_log_round (q p u : ℝ) (hq : 0 < q) (hq1 : q ≤ 1) (hu1 : u < 1)
    (hp : |p - q| ≤ u * q) :
    -(p * Real.log p) ≤ (1 + u) * -(q * Real.log q) + u * q := by
  have hpq := abs_le.1 hp
  have hp0 : 0 < p := by nlinarith
  obtain ⟨d, hd⟩ : ∃ d, d = p / q - 1 := ⟨_, rfl⟩
  have hpd : p = q * (1 + d) := by
    rw [hd]; field_simp
  have hd1 : 0 < 1 + d := by
    have : 1 + d = p / q := by rw [hd]; ring
    rw [this]; positivity
  have hdu : d ≤ u := by
    rw [hd, sub_le_iff_le_add, div_le_iff₀ hq]
    nlinarith
  have hlog : Real.log p = Real.log q + Real.log (1 + d) := by
    rw [hpd, Real.log_mul hq.ne' hd1.ne']
  have h1 := Real.one_sub_inv_le_log_of_pos hd1
  have h2 : d ≤ (1 + d) * Real.log (1 + d) := by
    have := mul_le_mul_of_nonneg_left h1 hd1.le
    rw [mul_sub, mul_one, mul_inv_cancel₀ hd1.ne'] at this
    linarith
  have hlq : Real.log q ≤ 0 := Real.log_nonpos hq.le hq1
  have h3 : 0 ≤ -(q * Real.log q) := by nlinarith
  have e : -(p * Real.log p) = (1 + d) * -(q * Real.log q) - q * ((1 + d) * Real.log (1 + d)) := by
    rw [hlog, hpd]; ring
  rw [e]
  have h4 : (1 + d) * -(q * Real.log q) ≤ (1 + u) * -(q * Real.log q) :=
    mul_le_mul_of_nonneg_right (by linarith) h3
  have h5 : q * d ≤ q * ((1 + d) * Real.log (1 + d)) := mul_le_mul_of_nonneg_left h2 hq.le
  have h6 : -(q * d) ≤ u * q := by
    have : -d ≤ u := by
      rw [hd, neg_sub, sub_le_iff_le_add, ← sub_le_iff_le_add', le_div_iff₀ hq]
      nlinarith
    nlinarith
  linarith

theorem term_bound_core (u E il q Φ p lam l t : ℝ) (hu : u = 1 / 9007199254740992)
    (hE : 0 ≤ E) (hil0 : 0 ≤ il) (hil : il ≤ 3 / 2) (hq : 0 ≤ q) (hΦ0 : 0 ≤ Φ)
    (hp0 : 0 ≤ p) (hp1 : p ≤ 1)
    (hlam : p * |lam| ≤ (1 + u) * Φ + u * q * il)
    (hacc : |l - lam| ≤ 2 * u * |lam| + E / 4)
    (hrd : |t - p * l| ≤ u * |p * l| + E / 4) :
    |t| ≤ (1 + 5 * u) * Φ + 2 * u * q + E := by
  have hu0 : 0 < u := by rw [hu]; norm_num
  have hu1 : u < 1 := by rw [hu]; norm_num
  have habs : |l| ≤ (1 + 2 * u) * |lam| + E / 4 := by
    have h1 : |l| ≤ |l - lam| + |lam| := by
      have := abs_add (l - lam) lam
      rwa [sub_add_cancel] at this
    linarith
  have hx : |p * l| ≤ (1 + 2 * u) * ((1 + u) * Φ + u * q * il) + E / 4 := by
    rw [abs_mul, abs_of_nonneg hp0]
    have h1 : p * |l| ≤ p * ((1 + 2 * u) * |lam| + E / 4) :=
      mul_le_mul_of_nonneg_left habs hp0
    have h2 : p * (E / 4) ≤ E / 4 := by nlinarith
    have h3 : (1 + 2 * u) * (p * |lam|) ≤ (1 + 2 * u) * ((1 + u) * Φ + u * q * il) :=
      mul_le_mul_of_nonneg_left hlam (by linarith)
    nlinarith
  have ht : |t| ≤ (1 + u) * |p * l| + E / 4 := by
    have h1 : |t| ≤ |t - p * l| + |p * l| := by
      have := abs_add (t - p * l) (p * l)
      rwa [sub_add_cancel] at this
    linarith
  have hA : (1 + u) * ((1 + 2 * u) * (1 + u)) ≤ 1 + 5 * u := by
    rw [hu]; norm_num
  have hB : (1 + u) * (1 + 2 * u) ≤ 4 / 3 := by
    rw [hu]; norm_num
  have hB' : (1 + u) * (1 + 2 * u) * (u * q * il) ≤ 2 * u * q := by
    have h1 : u * q * il ≤ u * q * (3 / 2) :=
      mul_le_mul_of_nonneg_left hil (by positivity)
    have h2 : 0 ≤ u * q * il := by positivity
    have h3 : (1 + u) * (1 + 2 * u) * (u * q * il) ≤ 4 / 3 * (u * q * il) :=
      mul_le_mul_of_nonneg_right hB h2
    linarith
  have hA' : (1 + u) * ((1 + 2 * u) * (1 + u)) * Φ ≤ (1 + 5 * u) * Φ :=
    mul_le_mul_of_nonneg_right hA hΦ0
  have hstep : (1 + u) * |p * l|
      ≤ (1 + u) * ((1 + 2 * u) * ((1 + u) * Φ + u * q * il) + E / 4) :=
    mul_le_mul_of_nonneg_left hx (by linarith)
  have hE4 : (1 + u) * (E / 4) ≤ E / 2 := by nlinarith
  have hexp : (1 + u) * ((1 + 2 * u) * ((1 + u) * Φ + u * q * il) + E / 4)
      = (1 + u) * ((1 + 2 * u) * (1 + u)) * Φ
        + (1 + u) * (1 + 2 * u) * (u * q * il) + (1 + u) * (E / 4) := by
    ring
  linarith

theorem two_zpow_neg53 : (2 : ℝ) ^ (-53 : ℤ) = 1 / 9007199254740992 := by
  rw [zpow_neg, one_div]
  norm_num

theorem two_zpow_neg52 : (2 : ℝ) ^ (-52 : ℤ) = 2 * 2 ^ (-53 : ℤ) := by
  rw [show (-52 : ℤ) = 1 + -53 by norm_num, zpow_add₀ (by norm_num : (2 : ℝ) ≠ 0), zpow_one]

theorem two_zpow_neg1074_le : (2 : ℝ) ^ (-1074 : ℤ) ≤ 2 ^ (-1000 : ℤ) / 4 := by
  have h1 : (2 : ℝ) ^ (-1074 : ℤ) ≤ 2 ^ (-1002 : ℤ) :=
    zpow_le_zpow_right₀ (by norm_num) (by norm_num)
  have h2 : (2 : ℝ) ^ (-1002 : ℤ) = 2 ^ (-1000 : ℤ) / 4 := by
    rw [show (-1002 : ℤ) = -1000 + -2 by norm_num, zpow_add₀ (by norm_num : (2 : ℝ) ≠ 0),
      div_eq_mul_inv]
    congr 1
    rw [zpow_neg]
    norm_num
  rw [h2] at h1
  exact h1

theorem two_zpow_neg1075_le : (2 : ℝ) ^ (-1075 : ℤ) ≤ 2 ^ (-1000 : ℤ) / 4 :=
  le_trans (zpow_le_zpow_right₀ (by norm_num) (by norm_num)) two_zpow_neg1074_le

/-- The magnitude of the rounded product `probability * Math.log2(probability)` against
the exact term `-(q * log2 q)` for `q = count / length`. -/
theorem entropy_term_bound (log2 : ℝ → ℝ) (hlog : Log2Accurate log2) (c L : ℕ) (hc : 0 < c)
    (hcL : c ≤ L) (hL : L ≤ 2 ^ 64) :
    |roundDouble (roundDouble ((c : ℝ) / L) * log2 (roundDouble ((c : ℝ) / L)))|
      ≤ (1 + 5 * 2 ^ (-53 : ℤ)) * -(((c : ℝ) / L) * Real.logb 2 ((c : ℝ) / L))
        + 2 * 2 ^ (-53 : ℤ) * ((c : ℝ) / L) + 2 ^ (-1000 : ℤ) := by
  have hL0 : 0 < L := lt_of_lt_of_le hc hcL
  have hLr : (0 : ℝ) < L := by exact_mod_cast hL0
  have hcr : (0 : ℝ) < c := by exact_mod_cast hc
  obtain ⟨q, hqdef⟩ : ∃ q : ℝ, q = (c : ℝ) / L := ⟨_, rfl⟩
  rw [← hqdef]
  have hq : 0 < q := by rw [hqdef]; exact div_pos hcr hLr
  have hq1 : q ≤ 1 := by
    rw [hqdef, div_le_one hLr]
    exact_mod_cast hcL
  have hqlow : (2 : ℝ) ^ (-1022 : ℤ) ≤ |q| := by
    rw [abs_of_pos hq]
    have h1 : (1 : ℝ) / 2 ^ 64 ≤ q := by
      rw [hqdef]
      have hL64 : (L : ℝ) ≤ 2 ^ 64 := by exact_mod_cast hL
      have hc1 : (1 : ℝ) ≤ c := by exact_mod_cast hc
      rw [div_le_div_iff₀ (by positivity) hLr]
      nlinarith
    have h2 : (2 : ℝ) ^ (-1022 : ℤ) ≤ 2 ^ (-64 : ℤ) :=
      zpow_le_zpow_right₀ (by norm_num) (by norm_num)
    have h3 : (2 : ℝ) ^ (-64 : ℤ) = 1 / 2 ^ 64 := by
      rw [zpow_neg, one_div]
      norm_cast
    rw [h3] at h2
    exact le_trans h2 h1
  obtain ⟨p, hp⟩ : ∃ p : ℝ, p = roundDouble q := ⟨_, rfl⟩
  rw [← hp]
  have hpq : |p - q| ≤ 2 ^ (-53 : ℤ) * q := by
    have := roundDouble_rel_error hqlow
    rw [abs_of_pos hq, ← hp] at this
    exact this
  have hp1 : p ≤ 1 := by
    rw [hp, ← roundDouble_one (K := ℝ)]
    exact roundDouble_mono hq1
  have hu1 : (2 : ℝ) ^ (-53 : ℤ) < 1 := by
    rw [two_zpow_neg53]; norm_num
  have hp0 : 0 < p := by
    have := (abs_le.1 hpq).1
    nlinarith
  have hl2 : 0 < Real.log 2 := Real.log_pos (by norm_num)
  have hil : 1 / Real.log 2 ≤ 3 / 2 := by
    have := Real.log_two_gt_d9
    rw [div_le_div_iff₀ hl2 (by norm_num)]
    linarith
  have hlq : Real.log q ≤ 0 := Real.log_nonpos hq.le hq1
  have hlp : Real.log p ≤ 0 := Real.log_nonpos hp0.le hp1
  have hΦ' : -(q * Real.logb 2 q) = -(q * Real.log q) / Real.log 2 := by
    rw [Real.logb]; ring
  have hΦ0 : 0 ≤ -(q * Real.logb 2 q) := by
    rw [hΦ']
    apply div_nonneg _ hl2.le
    nlinarith
  have hround := neg_mul_log_round q p _ hq hq1 hu1 hpq
  have hlam : p * |Real.logb 2 p|
      ≤ (1 + 2 ^ (-53 : ℤ)) * -(q * Real.logb 2 q) + 2 ^ (-53 : ℤ) * q * (1 / Real.log 2) := by
    have h1 : Real.logb 2 p ≤ 0 := by
      rw [Real.logb]
      exact div_nonpos_of_nonpos_of_nonneg hlp hl2.le
    rw [abs_of_nonpos h1, hΦ']
    have e1 : p * -Real.logb 2 p = -(p * Real.log p) / Real.log 2 := by
      rw [Real.logb]; ring
    have e2 : (1 + 2 ^ (-53 : ℤ)) * (-(q * Real.log q) / Real.log 2)
          + 2 ^ (-53 : ℤ) * q * (1 / Real.log 2)
        = ((1 + 2 ^ (-53 : ℤ)) * -(q * Real.log q) + 2 ^ (-53 : ℤ) * q) / Real.log 2 := by
      ring
    rw [e1, e2]
    exact div_le_div_of_nonneg_right hround hl2.le
  have hacc : |log2 p - Real.logb 2 p|
      ≤ 2 * 2 ^ (-53 : ℤ) * |Real.logb 2 p| + 2 ^ (-1000 : ℤ) / 4 := by
    have := hlog.2 p hp0
    rw [two_zpow_neg52] at this
    exact le_trans this (add_le_add_left two_zpow_neg1074_le _)
  have hrd : |roundDouble (p * log2 p) - p * log2 p|
      ≤ 2 ^ (-53 : ℤ) * |p * log2 p| + 2 ^ (-1000 : ℤ) / 4 :=
    le_trans (roundDouble_abs_error (p * log2 p)) (add_le_add_left two_zpow_neg1075_le _)
  exact term_bound_core _ _ _ q _ p _ _ _ two_zpow_neg53 (two_zpow_pos _).le
    (by positivity) hil hq.le hΦ0 hp0.le hp1 hlam hacc hrd

theorem objectValues_perm (frequencies : List (JSString × Nat)) :
    (objectValues frequencies).Perm (frequencies.map Prod.snd) := by
  unfold objectValues
  apply List.Perm.map
  exact ((List.perm_insertionSort _ _).append_right _).trans
    (List.filter_append_perm (fun e => isIndexKey e.1) frequencies)

theorem objectValues_counts (s : JSString) :
    (objectValues ((codePoints s).foldl bump [])).Perm (calculateEntropy s).counts :=
  objectValues_perm _

theorem foldl_abs_bound {α : Type*} (f : ℝ → α → ℝ) (τ : α → ℝ) (u E : ℝ) (hu : 0 ≤ u)
    (hE : 0 ≤ E) (cs : List α) (hτ : ∀ c ∈ cs, 0 ≤ τ c)
    (hstep : ∀ e, ∀ c ∈ cs, |f e c| ≤ (1 + u) * (|e| + τ c) + E) :
    ∀ e, |cs.foldl f e| ≤ (1 + u) ^ cs.length * (|e| + (cs.map τ).sum + cs.length * E) := by
  induction cs with
  | nil => intro e; simp
  | cons c cs ih =>
    intro e
    have ih2 := ih (fun d hd => hτ d (List.mem_cons_of_mem _ hd))
      (fun e d hd => hstep e d (List.mem_cons_of_mem _ hd)) (f e c)
    have h1 := hstep e c (List.mem_cons_self _ _)
    have hτc := hτ c (List.mem_cons_self _ _)
    have hS : 0 ≤ (cs.map τ).sum := by
      apply List.sum_nonneg
      intro x hx
      rw [List.mem_map] at hx
      obtain ⟨d, hd, rfl⟩ := hx
      exact hτ d (List.mem_cons_of_mem _ hd)
    have hpow : 0 ≤ (1 + u) ^ cs.length := by positivity
    have hn : (0 : ℝ) ≤ cs.length := Nat.cast_nonneg _
    have hnE : 0 ≤ (cs.length : ℝ) * E := mul_nonneg hn hE
    simp only [List.foldl_cons, List.length_cons, List.map_cons, List.sum_cons, pow_succ,
      Nat.cast_add, Nat.cast_one]
    refine le_trans ih2 ?_
    rw [mul_assoc]
    apply mul_le_mul_of_nonneg_left _ hpow
    have he : 0 ≤ |e| := abs_nonneg e
    nlinarith

theorem step_core (u E e t τ r : ℝ) (hu : 0 ≤ u) (ht : |t| ≤ τ)
    (hr : |r - (e - t)| ≤ u * |e - t| + E) : |r| ≤ (1 + u) * (|e| + τ) + E := by
  have h1 : |r| ≤ |r - (e - t)| + |e - t| := by
    have := abs_add (r - (e - t)) (e - t)
    rwa [sub_add_cancel] at this
  have h2 : |e - t| ≤ |e| + |t| := abs_sub e t
  have h3 : (1 + u) * |e - t| ≤ (1 + u) * (|e| + τ) :=
    mul_le_mul_of_nonneg_left (by linarith) (by linarith)
  linarith

/-- One turn of the loop: the magnitude of the new `entropy`. -/
theorem entropyStep_abs_bound (log2 : ℝ → ℝ) (hlog : Log2Accurate log2) (c L : ℕ)
    (hc : 0 < c) (hcL : c ≤ L) (hL : L ≤ 2 ^ 64) (e : ℝ) :
    |entropyStep log2 L e c| ≤ (1 + 2 ^ (-53 : ℤ)) * (|e| +
        ((1 + 5 * 2 ^ (-53 : ℤ)) * -(((c : ℝ) / L) * Real.logb 2 ((c : ℝ) / L))
          + 2 * 2 ^ (-53 : ℤ) * ((c : ℝ) / L) + 2 ^ (-1000 : ℤ)))
      + 2 ^ (-1000 : ℤ) / 4 := by
  have ht := entropy_term_bound log2 hlog c L hc hcL hL
  unfold entropyStep
  simp only []
  exact step_core _ _ e _ _ _ (two_zpow_pos _).le ht
    (le_trans (roundDouble_abs_error _) (add_le_add_left two_zpow_neg1075_le _))

theorem sum_map_affine (a b E : ℝ) (f g : ℕ → ℝ) (cs : List ℕ) :
    (cs.map fun c => a * f c + b * g c + E).sum
      = a * (cs.map f).sum + b * (cs.map g).sum + cs.length * E := by
  induction cs with
  | nil => simp
  | cons c cs ih =>
    simp only [List.map_cons, List.sum_cons, List.length_cons, Nat.cast_add, Nat.cast_one, ih]
    ring

theorem sum_map_div (L : ℝ) (cs : List ℕ) :
    (cs.map fun (c : ℕ) => (c : ℝ) / L).sum = (cs.sum : ℝ) / L := by
  induction cs with
  | nil => simp
  | cons c cs ih =>
    simp only [List.map_cons, List.sum_cons, Nat.cast_add, ih]
    ring

theorem final_core (u E H σ γ r : ℝ) (n : ℕ) (hu : u = 1 / 9007199254740992)
    (hE0 : 0 ≤ E) (hE : E ≤ 1 / 10 ^ 30) (hn : n ≤ 16) (hH : H ≤ 4 - γ)
    (hγ : 12 / 10 ^ 15 ≤ γ) (hσ : σ ≤ 1)
    (hX : 0 ≤ (1 + 5 * u) * H + 2 * u * σ + n * E + n * (E / 4))
    (hr : r ≤ (1 + u) ^ n * ((1 + 5 * u) * H + 2 * u * σ + n * E + n * (E / 4))) :
    r ≤ 4 := by
  have hu0 : 0 < u := by rw [hu]; norm_num
  have hpow : (1 + u) ^ n ≤ 1 + 17 * u := by
    have h1 : (1 + u) ^ n ≤ (1 + u) ^ 16 := pow_le_pow_right₀ (by linarith) hn
    have h2 : (1 + u) ^ 16 ≤ 1 + 17 * u := by
      rw [hu]; norm_num
    exact le_trans h1 h2
  have hnr : (n : ℝ) ≤ 16 := by exact_mod_cast hn
  have hX2 : (1 + 5 * u) * H + 2 * u * σ + n * E + n * (E / 4)
      ≤ (1 + 5 * u) * (4 - γ) + 2 * u + 20 * E := by
    have h1 : (1 + 5 * u) * H ≤ (1 + 5 * u) * (4 - γ) :=
      mul_le_mul_of_nonneg_left hH (by linarith)
    have h2 : 2 * u * σ ≤ 2 * u := by nlinarith
    have h3 : (n : ℝ) * E ≤ 16 * E := mul_le_mul_of_nonneg_right hnr hE0
    linarith
  have h4 : r ≤ (1 + 17 * u) * ((1 + 5 * u) * (4 - γ) + 2 * u + 20 * E) :=
    le_trans hr (le_trans (mul_le_mul_of_nonneg_right hpow hX)
      (mul_le_mul_of_nonneg_left hX2 (by linarith)))
  have h5 : (1 + 17 * u) * ((1 + 5 * u) * (4 - γ) + 2 * u + 20 * E)
      = 4 * ((1 + 17 * u) * (1 + 5 * u)) - (1 + 17 * u) * (1 + 5 * u) * γ
        + (1 + 17 * u) * (2 * u) + (1 + 17 * u) * 20 * E := by
    ring
  have h6 : γ ≤ (1 + 17 * u) * (1 + 5 * u) * γ := by
    have : 1 ≤ (1 + 17 * u) * (1 + 5 * u) := by nlinarith
    have hγ0 : 0 ≤ γ := le_trans (by norm_num) hγ
    nlinarith
  have h7 : (1 + 17 * u) * 20 * E ≤ (1 + 17 * u) * 20 * (1 / 10 ^ 30) :=
    mul_le_mul_of_nonneg_left hE (by linarith)
  have h8 : 4 * ((1 + 17 * u) * (1 + 5 * u)) - 12 / 10 ^ 15
        + (1 + 17 * u) * (2 * u) + (1 + 17 * u) * 20 * (1 / 10 ^ 30) ≤ 4 := by
    rw [hu]; norm_num
  linarith

theorem entropyStep_uniform (log2 : ℝ → ℝ) (hlog : Log2Accurate log2) (c L : ℕ)
    (hc : 0 < c) (h16 : 16 * c = L) (j : ℕ) (hj : j < 2 ^ 52) :
    entropyStep log2 L ((j : ℝ) / 4) c = ((j + 1 : ℕ) : ℝ) / 4 := by
  have hcr : (0 : ℝ) < c := by exact_mod_cast hc
  have h4 : (2 : ℝ) ^ (-4 : ℤ) = 1 / 16 := by
    rw [zpow_neg, one_div]; norm_num
  have h2 : (2 : ℝ) ^ (-2 : ℤ) = 1 / 4 := by
    rw [zpow_neg, one_div]; norm_num
  have hq : (c : ℝ) / (L : ℝ) = 2 ^ (-4 : ℤ) := by
    rw [← h16, h4]
    push_cast
    field_simp
    ring
  have hp : roundDouble ((2 : ℝ) ^ (-4 : ℤ)) = 2 ^ (-4 : ℤ) := by
    have := roundDouble_of_representable (K := ℝ) 1 (-4) (by norm_num) (by norm_num)
    simpa using this
  have hl : log2 (2 ^ (-4 : ℤ)) = -4 := by
    have := hlog.1 (-4) (by norm_num) (by norm_num)
    rw [this]; norm_num
  have ht : roundDouble ((2 : ℝ) ^ (-4 : ℤ) * -4) = -(1 / 4) := by
    have := roundDouble_of_representable (K := ℝ) (-1) (-2) (by norm_num) (by norm_num)
    rw [h2] at this
    rw [h4]
    norm_num at this ⊢
    exact this
  have he : roundDouble ((j : ℝ) / 4 - -(1 / 4)) = ((j + 1 : ℕ) : ℝ) / 4 := by
    have hm : |((j + 1 : ℕ) : ℤ)| < 2 ^ 53 := by
      rw [abs_of_nonneg (by positivity)]
      have : j + 1 < 2 ^ 53 := by omega
      exact_mod_cast this
    have := roundDouble_of_representable (K := ℝ) ((j + 1 : ℕ) : ℤ) (-2) hm (by norm_num)
    rw [h2] at this
    have e1 : (j : ℝ) / 4 - -(1 / 4) = ((((j + 1 : ℕ) : ℤ) : ℝ)) * (1 / 4) := by
      push_cast; ring
    have e2 : ((j + 1 : ℕ) : ℝ) / 4 = ((((j + 1 : ℕ) : ℤ) : ℝ)) * (1 / 4) := by
      push_cast; ring
    rw [e1, e2]
    exact this
  unfold entropyStep
  simp only []
  rw [hq, hp, hl, ht, he]

theorem foldl_uniform (log2 : ℝ → ℝ) (hlog : Log2Accurate log2) (c L : ℕ)
    (hc : 0 < c) (h16 : 16 * c = L) (m : ℕ) :
    ∀ j : ℕ, j + m < 2 ^ 52 →
      (List.replicate m c).foldl (entropyStep log2 L) ((j : ℝ) / 4) = ((j + m : ℕ) : ℝ) / 4 := by
  induction m with
  | zero => intro j _; simp
  | succ m ih =>
    intro j hj
    rw [List.replicate_succ, List.foldl_cons, entropyStep_uniform log2 hlog c L hc h16 j
      (by omega), ih (j + 1) (by omega)]
    congr 2
    omega

theorem neg_mul_logb_nonneg (q : ℝ) (hq : 0 < q) (hq1 : q ≤ 1) :
    0 ≤ -(q * Real.logb 2 q) := by
  have h1 : Real.logb 2 q ≤ 0 := by
    rw [Real.logb]
    exact div_nonpos_of_nonpos_of_nonneg (Real.log_nonpos hq.le hq1)
      (Real.log_pos (by norm_num)).le
  nlinarith

/-- The loop of `calculateEntropy` in binary64 over counts with at most 16 entries that add
up to at most the length, for a length of at most 500000, ends at a value of at most 4. -/
theorem foldl_entropyStep_le_four (log2 : ℝ → ℝ) (hlog : Log2Accurate log2) (L : ℕ)
    (cs : List ℕ) (hpos : ∀ c ∈ cs, 0 < c) (hlen : cs.length ≤ 16) (hsum : cs.sum ≤ L)
    (hL : L ≤ 500000) : cs.foldl (entropyStep log2 L) 0 ≤ 4 := by
  rcases List.eq_nil_or_concat cs with hnil | ⟨cs0, c0, hcs0⟩
  · subst hnil; simp
  have hL0 : 0 < L := by
    have hc0 : c0 ∈ cs := by rw [hcs0]; simp
    have := List.single_le_sum (by simp) c0 hc0
    have := hpos c0 hc0
    omega
  clear hcs0 cs0 c0
  have hLr : (0 : ℝ) < L := by exact_mod_cast hL0
  have hcle : ∀ c ∈ cs, c ≤ L := fun c hc =>
    le_trans (List.single_le_sum (by simp) c hc) hsum
  by_cases huni : cs.length = 16 ∧ ∀ c ∈ cs, 16 * c = L
  · obtain ⟨h16, hall⟩ := huni
    have hc16 : 16 * (L / 16) = L := by
      obtain ⟨c, hc⟩ := List.exists_mem_of_length_pos (by omega : 0 < cs.length)
      have := hall c hc
      omega
    have hrep : cs = List.replicate 16 (L / 16) := by
      rw [List.eq_replicate_iff]
      refine ⟨h16, fun c hc => ?_⟩
      have := hall c hc
      omega
    have := foldl_uniform log2 hlog (L / 16) L (by omega) hc16 16 0 (by norm_num)
    rw [hrep]
    simp only [Nat.cast_zero, zero_div] at this
    rw [this]
    norm_num
  · have hgap := entropy_gap L cs hpos hlen hsum hL0 huni
    have hφ : ∀ c ∈ cs, 0 ≤ -(((c : ℝ) / L) * Real.logb 2 ((c : ℝ) / L)) := by
      intro c hc
      have hcr : (0 : ℝ) < c := by exact_mod_cast hpos c hc
      apply neg_mul_logb_nonneg _ (div_pos hcr hLr)
      rw [div_le_one hLr]
      exact_mod_cast hcle c hc
    have hq0 : ∀ c ∈ cs, (0 : ℝ) ≤ (c : ℝ) / L := fun c _ => by positivity
    have hu0 := two_zpow_pos (K := ℝ) (-53)
    have hE0 := two_zpow_pos (K := ℝ) (-1000)
    have hbound := foldl_abs_bound (entropyStep log2 L)
      (fun c : ℕ => (1 + 5 * 2 ^ (-53 : ℤ)) * -(((c : ℝ) / L) * Real.logb 2 ((c : ℝ) / L))
          + 2 * 2 ^ (-53 : ℤ) * ((c : ℝ) / L) + 2 ^ (-1000 : ℤ))
      (2 ^ (-53 : ℤ)) (2 ^ (-1000 : ℤ) / 4) hu0.le (by positivity) cs
      (fun c hc => by
        have h1 := hφ c hc
        have h2 := hq0 c hc
        have h3 : (0 : ℝ) ≤ (1 + 5 * 2 ^ (-53 : ℤ)) *
            -(((c : ℝ) / L) * Real.logb 2 ((c : ℝ) / L)) :=
          mul_nonneg (by positivity) h1
        have h4 : (0 : ℝ) ≤ 2 * 2 ^ (-53 : ℤ) * ((c : ℝ) / L) := by positivity
        exact add_nonneg (add_nonneg h3 h4) hE0.le)
      (fun e c hc => entropyStep_abs_bound log2 hlog c L (hpos c hc) (hcle c hc)
        (le_trans hL (by norm_num)) e) 0
    rw [sum_map_affine (1 + 5 * 2 ^ (-53 : ℤ)) (2 * 2 ^ (-53 : ℤ)) (2 ^ (-1000 : ℤ))
      (fun c : ℕ => -(((c : ℝ) / L) * Real.logb 2 ((c : ℝ) / L))) (fun c : ℕ => (c : ℝ) / L) cs,
      sum_map_div, abs_zero, zero_add] at hbound
    have hH0 : 0 ≤ (cs.map fun c : ℕ => -(((c : ℝ) / L) * Real.logb 2 ((c : ℝ) / L))).sum := by
      apply List.sum_nonneg
      intro x hx
      rw [List.mem_map] at hx
      obtain ⟨c, hc, rfl⟩ := hx
      exact hφ c hc
    have hσ0 : (0 : ℝ) ≤ (cs.sum : ℝ) / L := by positivity
    have hσ1 : (cs.sum : ℝ) / L ≤ 1 := by
      rw [div_le_one hLr]
      exact_mod_cast hsum
    have hE : (2 : ℝ) ^ (-1000 : ℤ) ≤ 1 / 10 ^ 30 := by
      have h1 : (2 : ℝ) ^ (-1000 : ℤ) ≤ 2 ^ (-100 : ℤ) :=
        zpow_le_zpow_right₀ (by norm_num) (by norm_num)
      have h2 : (2 : ℝ) ^ (-100 : ℤ) ≤ 1 / 10 ^ 30 := by
        rw [zpow_neg, ← one_div]
        norm_num
      exact le_trans h1 h2
    have hγ : (12 : ℝ) / 10 ^ 15 ≤ 1 / (400 * (L : ℝ) ^ 2) / Real.log 2 := by
      have hl2 : 0 < Real.log 2 := Real.log_pos (by norm_num)
      have hl2' : Real.log 2 ≤ 7 / 10 := by
        have := Real.log_two_lt_d9
        linarith
      have hLb : (L : ℝ) ≤ 500000 := by exact_mod_cast hL
      have h1 : 400 * (L : ℝ) ^ 2 ≤ 10 ^ 14 := by nlinarith
      have h2 : (1 : ℝ) / 10 ^ 14 ≤ 1 / (400 * (L : ℝ) ^ 2) :=
        one_div_le_one_div_of_le (by positivity) h1
      rw [le_div_iff₀ hl2]
      nlinarith
    have hn : (0 : ℝ) ≤ (cs.length : ℝ) := Nat.cast_nonneg _
    have hX : 0 ≤ (1 + 5 * 2 ^ (-53 : ℤ)) *
          (cs.map fun c : ℕ => -(((c : ℝ) / L) * Real.logb 2 ((c : ℝ) / L))).sum
        + 2 * 2 ^ (-53 : ℤ) * ((cs.sum : ℝ) / L) + cs.length * 2 ^ (-1000 : ℤ)
        + cs.length * (2 ^ (-1000 : ℤ) / 4) := by
      have h1 : (0 : ℝ) ≤ (1 + 5 * 2 ^ (-53 : ℤ)) *
          (cs.map fun c : ℕ => -(((c : ℝ) / L) * Real.logb 2 ((c : ℝ) / L))).sum :=
        mul_nonneg (by positivity) hH0
      have h2 : (0 : ℝ) ≤ 2 * 2 ^ (-53 : ℤ) * ((cs.sum : ℝ) / L) := by positivity
      have h3 : (0 : ℝ) ≤ cs.length * 2 ^ (-1000 : ℤ) := by positivity
      have h4 : (0 : ℝ) ≤ cs.length * (2 ^ (-1000 : ℤ) / 4) := by positivity
      exact add_nonneg (add_nonneg (add_nonneg h1 h2) h3) h4
    exact final_core _ _ _ _ _ _ cs.length two_zpow_neg53 hE0.le hE hlen hgap hγ hσ1 hX
      (le_trans (le_abs_self _) hbound)


/-! ### HIGH_ENTROPY needs 17 distinct characters -/

/-- The correctly rounded logarithm is an accurate `Math.log2`. -/
theorem log2Rounded_accurate : Log2Accurate log2Rounded := by
  constructor
  · intro k hk1 hk2
    unfold log2Rounded
    have h1 : Real.logb 2 ((2 : ℝ) ^ k) = k := by
      rw [Real.logb, Real.log_zpow]
      exact mul_div_cancel_right₀ _ (Real.log_pos (by norm_num)).ne'
    rw [h1]
    have hk : |k| < 2 ^ 53 := by
      rw [abs_lt]
      constructor <;> omega
    have := roundDouble_of_representable (K := ℝ) k 0 hk (by norm_num)
    simpa using this
  · intro x _
    unfold log2Rounded
    have h1 := roundDouble_abs_error (Real.logb 2 x)
    have h2 : (2 : ℝ) ^ (-53 : ℤ) ≤ 2 ^ (-52 : ℤ) :=
      zpow_le_zpow_right₀ (by norm_num) (by norm_num)
    have h3 : (2 : ℝ) ^ (-1075 : ℤ) ≤ 2 ^ (-1074 : ℤ) :=
      zpow_le_zpow_right₀ (by norm_num) (by norm_num)
    have h4 : (2 : ℝ) ^ (-53 : ℤ) * |Real.logb 2 x| ≤ 2 ^ (-52 : ℤ) * |Real.logb 2 x| :=
      mul_le_mul_of_nonneg_right h2 (abs_nonneg _)
    exact le_trans h1 (add_le_add h4 h3)

/-- The binary64 entropy of a string with at most 16 distinct characters and at most 500000
code units is at most 4. -/
theorem calculateEntropy64_le_four (log2 : ℝ → ℝ) (hlog : Log2Accurate log2) (s : JSString)
    (hd : (codePoints s).dedup.length ≤ 16) (hlen : s.length ≤ 500000) :
    calculateEntropy64 log2 s ≤ 4 := by
  have hperm := objectValues_counts s
  unfold calculateEntropy64
  apply foldl_entropyStep_le_four log2 hlog s.length _ _ _ _ hlen
  · intro c hc
    exact calculateEntropy_counts_pos s c (hperm.mem_iff.1 hc)
  · rw [hperm.length_eq, counts_length]
    exact hd
  · rw [hperm.sum_eq, counts_sum]
    exact codePoints_length_le s

/-- Sixteen distinct letters: the binary64 entropy is exactly 4. -/
theorem calculateEntropy64_sixteen_letters (log2 : ℝ → ℝ) (hlog : Log2Accurate log2) :
    calculateEntropy64 log2 (str "abcdefghijklmnop") = 4 := by
  have h1 : objectValues ((codePoints (str "abcdefghijklmnop")).foldl bump [])
      = List.replicate 16 1 := by decide
  have h2 : (str "abcdefghijklmnop").length = 16 := by decide
  unfold calculateEntropy64
  rw [h1, h2]
  have := foldl_uniform log2 hlog 1 16 (by norm_num) (by norm_num) 16 0 (by norm_num)
  simp only [Nat.cast_zero, zero_div] at this
  rw [this]
  norm_num

/-- C30 (amended). For an engine whose `Math.log2` is exact at the powers of two and
within one unit in the last place elsewhere, and for a string of at most 500000 code units
with at most 16 distinct characters (in particular one shorter than 17 code units), the
number `calculateEntropy` returns, computed in binary64, is at most 4, so the test
`entropy > 4.0` fails; the exact entropy is at most 4 as well and HIGH_ENTROPY is not
reported. -/
theorem highEntropy_needs_17 (log2 : ℝ → ℝ) (hlog : Log2Accurate log2) (s : JSString)
    (hk : (codePoints s).dedup.length ≤ 16 ∨ s.length < 17) (hlen : s.length ≤ 500000) :
    calculateEntropy64 log2 s ≤ 4 ∧
    ¬ (4 < calculateEntropy64 log2 s) ∧
    (calculateEntropy s).value ≤ 4 ∧
    (calculateEntropy s).gt 4 = false ∧
    ∀ p ∈ (analyzeAdditionalHeuristics s).patterns, p.name ≠ "HIGH_ENTROPY" := by
  have hd : (codePoints s).dedup.length ≤ 16 := by
    rcases hk with hk | hk
    · exact hk
    · have h1 := (List.dedup_sublist (codePoints s)).length_le
      have h2 := codePoints_length_le s
      omega
  have h64 := calculateEntropy64_le_four log2 hlog s hd hlen
  have hval : (calculateEntropy s).value ≤ 4 := by
    cases s with
    | nil => simp [calculateEntropy, codePoints, Entropy.value]
    | cons a t =>
      apply Entropy.value_le_four _ (by simp [calculateEntropy])
        (calculateEntropy_counts_pos _)
      · rw [counts_length]; exact hd
      · rw [counts_sum]; exact codePoints_length_le _
  have hgt : (calculateEntropy s).gt 4 = false := by
    rw [← Bool.not_eq_true, calculateEntropy_gt_iff]
    push_cast
    linarith
  refine ⟨h64, not_lt.2 h64, hval, hgt, ?_⟩
  intro p hp hname
  rcases (mem_additional s p).1 hp with ⟨h, _⟩ | ⟨_, rfl⟩ | ⟨_, rfl⟩ | ⟨_, rfl⟩
  · rw [hgt] at h
    exact absurd h (by decide)
  · exact absurd hname (by decide)
  · exact absurd hname (by decide)
  · exact absurd hname (by decide)

/-- C30 (witness): sixteen distinct letters and the correctly rounded `Math.log2`; the
entropy is exactly 4. -/
theorem highEntropy_needs_17_witness :
    Log2Accurate log2Rounded ∧
    ((codePoints (str "abcdefghijklmnop")).dedup.length ≤ 16
      ∨ (str "abcdefghijklmnop").length < 17) ∧
    (str "abcdefghijklmnop").length ≤ 500000 ∧
    calculateEntropy64 log2Rounded (str "abcdefghijklmnop") = 4 ∧
    ¬ (4 < calculateEntropy64 log2Rounded (str "abcdefghijklmnop")) ∧
    (calculateEntropy (str "abcdefghijklmnop")).gt 4 = false :=
  ⟨log2Rounded_accurate, Or.inr (by decide), by decide,
    calculateEntropy64_sixteen_letters log2Rounded log2Rounded_accurate,
    (highEntropy_needs_17 log2Rounded log2Rounded_accurate (str "abcdefghijklmnop")
      (Or.inr (by decide)) (by decide)).2.1,
    (highEntropy_needs_17 log2Rounded log2Rounded_accurate (str "abcdefghijklmnop")
      (Or.inr (by decide)) (by decide)).2.2.2.1⟩


/-! ### A long string of 16 distinct characters whose computed entropy exceeds 4 -/

/-- Evaluation of `roundDouble` at a fraction by `JSNum.round64`. -/
theorem roundDouble_eval (x y : ℝ) (a : ℤ) (d : ℕ) (b : ℤ) (c : ℕ) (hd : 0 < d)
    (hx : x = (a : ℝ) / (d : ℝ)) (h : JSNum.round64 (.frac a d) = .frac b c)
    (hy : y = (b : ℝ) / (c : ℝ)) : roundDouble x = y := by
  rcases round64_spec (K := ℝ) a d hd with ⟨h1, _⟩ | ⟨h1, _⟩ | ⟨b', c', h1, _, h2, _⟩
  · rw [h] at h1; exact absurd h1 (by simp)
  · rw [h] at h1; exact absurd h1 (by simp)
  · rw [h] at h1
    injection h1 with hb hc
    subst hb; subst hc
    rw [hx, hy, h2]

/-- Rounding a number between two numbers that round to the same binary64 number. -/
theorem roundDouble_between (lo hi x y : ℝ) (h1 : lo ≤ x) (h2 : x ≤ hi)
    (hlo : roundDouble lo = y) (hhi : roundDouble hi = y) : roundDouble x = y :=
  le_antisymm (hhi ▸ roundDouble_mono h2) (hlo ▸ roundDouble_mono h1)

theorem codePoints_of_bmp : ∀ s : JSString, (∀ u ∈ s, isHighSurrogate u = false) →
    codePoints s = s.map fun u => [u]
  | [], _ => by simp [codePoints]
  | [a], _ => by simp [codePoints]
  | a :: b :: rest, h => by
    have ha : isHighSurrogate a = false := h a (List.mem_cons_self _ _)
    have := codePoints_of_bmp (b :: rest) fun u hu => h u (List.mem_cons_of_mem _ hu)
    simp only [codePoints, ha, Bool.false_and, Bool.false_eq_true, if_false, List.map_cons]
      at this ⊢
    rw [this]

theorem bump_new (freq : List (JSString × Nat)) (ch : JSString)
    (h : ch ∉ freq.map Prod.fst) : bump freq ch = freq ++ [(ch, 1)] := by
  induction freq with
  | nil => rfl
  | cons q rest ih =>
    obtain ⟨key, count⟩ := q
    simp only [List.map_cons, List.mem_cons, not_or] at h
    simp only [bump, if_neg (Ne.symm h.1), ih h.2, List.cons_append]

theorem bump_last (freq : List (JSString × Nat)) (ch : JSString) (j : Nat)
    (h : ch ∉ freq.map Prod.fst) : bump (freq ++ [(ch, j)]) ch = freq ++ [(ch, j + 1)] := by
  induction freq with
  | nil => simp [bump]
  | cons q rest ih =>
    obtain ⟨key, count⟩ := q
    simp only [List.map_cons, List.mem_cons, not_or] at h
    have e : bump ((key, count) :: (rest ++ [(ch, j)])) ch
        = (key, count) :: bump (rest ++ [(ch, j)]) ch := by
      simp only [bump, if_neg (Ne.symm h.1)]
    rw [List.cons_append, e, ih h.2, List.cons_append]

theorem foldl_bump_replicate (freq : List (JSString × Nat)) (ch : JSString)
    (h : ch ∉ freq.map Prod.fst) (m : Nat) :
    (List.replicate (m + 1) ch).foldl bump freq = freq ++ [(ch, m + 1)] := by
  induction m with
  | zero => simp [bump_new freq ch h]
  | succ m ih =>
    rw [List.replicate_succ', List.foldl_append, ih, List.foldl_cons, List.foldl_nil,
      bump_last freq ch (m + 1) h]

theorem foldl_bump_blocks (table : List (Nat × Nat)) :
    ∀ freq : List (JSString × Nat),
      (freq.map Prod.fst ++ table.map fun e => [e.1]).Nodup → (∀ e ∈ table, 0 < e.2) →
      ((blocks table).map fun u => [u]).foldl bump freq
        = freq ++ table.map fun e => ([e.1], e.2) := by
  induction table with
  | nil => intro freq _ _; simp [blocks]
  | cons e rest ih =>
    intro freq hnd hpos
    obtain ⟨m, hm⟩ : ∃ m, e.2 = m + 1 :=
      ⟨e.2 - 1, by have := hpos e (List.mem_cons_self _ _); omega⟩
    have hnew : [e.1] ∉ freq.map Prod.fst := by
      intro hmem
      have := List.disjoint_of_nodup_append hnd hmem
      exact this (by simp)
    have hnd2 : ((freq ++ [([e.1], e.2)]).map Prod.fst ++ rest.map fun e => [e.1]).Nodup := by
      simpa [List.map_append, List.append_assoc] using hnd
    simp only [blocks, List.map_append, List.map_replicate, List.foldl_append]
    rw [hm, foldl_bump_replicate freq [e.1] hnew m, ← hm,
      ih (freq ++ [([e.1], e.2)]) hnd2 fun x hx => hpos x (List.mem_cons_of_mem _ hx)]
    simp

theorem mem_blocks (table : List (Nat × Nat)) (u : Nat) (h : u ∈ blocks table) :
    ∃ e ∈ table, u = e.1 := by
  induction table with
  | nil => simp [blocks] at h
  | cons e rest ih =>
    simp only [blocks, List.mem_append] at h
    rcases h with h | h
    · exact ⟨e, List.mem_cons_self _ _, List.eq_of_mem_replicate h⟩
    · obtain ⟨x, hx, rfl⟩ := ih h
      exact ⟨x, List.mem_cons_of_mem _ hx, rfl⟩

theorem blocks_length (table : List (Nat × Nat)) :
    (blocks table).length = (table.map Prod.snd).sum := by
  induction table with
  | nil => rfl
  | cons e rest ih => simp [blocks, ih]

/-- The frequency table of a string of blocks of distinct characters outside the surrogate
range: one entry for each block, in the order of the blocks. -/
theorem blocks_table (table : List (Nat × Nat))
    (hnd : (table.map fun e => [e.1]).Nodup) (hpos : ∀ e ∈ table, 0 < e.2)
    (hbmp : ∀ e ∈ table, isHighSurrogate e.1 = false) :
    (codePoints (blocks table)).foldl bump [] = table.map fun e => ([e.1], e.2) := by
  rw [codePoints_of_bmp, foldl_bump_blocks table [] (by simpa using hnd) hpos]
  · simp
  · intro u hu
    obtain ⟨e, he, rfl⟩ := mem_blocks table u hu
    exact hbmp e he

theorem nearlyUniform_table :
    (codePoints nearlyUniform).foldl bump [] =
      [([97], 10000001), ([98], 10000000), ([99], 10000000), ([100], 10000000),
        ([101], 10000000), ([102], 10000000), ([103], 10000000), ([104], 10000000),
        ([105], 10000000), ([106], 10000000), ([107], 10000000), ([108], 10000000),
        ([109], 10000000), ([110], 10000000), ([111], 10000000), ([112], 10000000)] := by
  unfold nearlyUniform
  rw [blocks_table _ (by decide) (by decide) (by decide)]
  rfl

theorem nearlyUniform_length : nearlyUniform.length = 160000001 := by
  unfold nearlyUniform
  rw [blocks_length]
  rfl

theorem nearlyUniform_distinct : (codePoints nearlyUniform).dedup.length = 16 := by
  rw [← counts_length]
  unfold calculateEntropy
  simp only []
  rw [nearlyUniform_table]
  rfl

theorem nearlyUniform_values :
    objectValues ((codePoints nearlyUniform).foldl bump []) =
      [10000001, 10000000, 10000000, 10000000, 10000000, 10000000, 10000000, 10000000,
        10000000, 10000000, 10000000, 10000000, 10000000, 10000000, 10000000, 10000000] := by
  rw [nearlyUniform_table]
  decide

theorem log_one_sub_bounds (x y : ℝ) (hy : |x| = y) (hy1 : y < 1) :
    -(x + x ^ 2 / 2) - y ^ 3 / (1 - y) ≤ Real.log (1 - x) ∧
    Real.log (1 - x) ≤ -(x + x ^ 2 / 2) + y ^ 3 / (1 - y) := by
  have h := Real.abs_log_sub_add_sum_range_le (x := x) (by rw [hy]; exact hy1) 2
  rw [hy] at h
  have hs : (∑ i ∈ Finset.range 2, x ^ (i + 1) / ((i : ℝ) + 1)) = x + x ^ 2 / 2 := by
    simp [Finset.sum_range_succ]
    norm_num
  rw [hs] at h
  have := abs_le.1 h
  constructor <;> linarith [this.1, this.2]

theorem mul_log_two_le (a t : ℝ) (h1 : a * (287209 / 414355 + 1 / 10 ^ 10) ≤ t)
    (h2 : a * (287209 / 414355 - 1 / 10 ^ 10) ≤ t) : a * Real.log 2 ≤ t := by
  have h := abs_le.1 Real.log_two_near_10
  rcases le_total 0 a with ha | ha
  · have : a * Real.log 2 ≤ a * (287209 / 414355 + 1 / 10 ^ 10) :=
      mul_le_mul_of_nonneg_left (by linarith [h.2]) ha
    linarith
  · have : a * Real.log 2 ≤ a * (287209 / 414355 - 1 / 10 ^ 10) :=
      mul_le_mul_of_nonpos_left (by linarith [h.1]) ha
    linarith

theorem le_mul_log_two (b t : ℝ) (h1 : t ≤ b * (287209 / 414355 + 1 / 10 ^ 10))
    (h2 : t ≤ b * (287209 / 414355 - 1 / 10 ^ 10)) : t ≤ b * Real.log 2 := by
  have := mul_log_two_le (-b) (-t) (by linarith) (by linarith)
  linarith

/-- Rational bounds for the base 2 logarithm of a number near 1 / 16. -/
theorem logb_two_bounds (P x y lo hi : ℝ) (hP : 16 * P = 1 - x) (hy : |x| = y) (hy1 : y < 1)
    (h1 : (lo + 4) * (287209 / 414355 + 1 / 10 ^ 10) ≤ -(x + x ^ 2 / 2) - y ^ 3 / (1 - y))
    (h2 : (lo + 4) * (287209 / 414355 - 1 / 10 ^ 10) ≤ -(x + x ^ 2 / 2) - y ^ 3 / (1 - y))
    (h3 : -(x + x ^ 2 / 2) + y ^ 3 / (1 - y) ≤ (hi + 4) * (287209 / 414355 + 1 / 10 ^ 10))
    (h4 : -(x + x ^ 2 / 2) + y ^ 3 / (1 - y) ≤ (hi + 4) * (287209 / 414355 - 1 / 10 ^ 10)) :
    lo ≤ Real.logb 2 P ∧ Real.logb 2 P ≤ hi := by
  have hl2 : 0 < Real.log 2 := Real.log_pos (by norm_num)
  have hx1 : 0 < 1 - x := by
    have := (abs_lt.1 (by rw [hy]; exact hy1 : |x| < 1)).2
    linarith
  obtain ⟨hb1, hb2⟩ := log_one_sub_bounds x y hy hy1
  have h16 : Real.log 16 = 4 * Real.log 2 := by
    have : (16 : ℝ) = 2 ^ 4 := by norm_num
    rw [this, Real.log_pow]
    norm_num
  have hlogP : Real.log P = Real.log (1 - x) - 4 * Real.log 2 := by
    have : P = (1 - x) / 16 := by linarith
    rw [this, Real.log_div hx1.ne' (by norm_num), h16]
  have ha := mul_log_two_le (lo + 4) _ (le_trans h1 hb1) (le_trans h2 hb1)
  have hb := le_mul_log_two (hi + 4) _ (le_trans hb2 h3) (le_trans hb2 h4)
  rw [Real.logb, hlogP]
  constructor
  · rw [le_div_iff₀ hl2]; linarith
  · rw [div_le_iff₀ hl2]; linarith

/-- The probability of the letter "a" (10000001 of the 160000001 characters). -/
theorem nearlyUniform_probability_first :
    roundDouble ((10000001 : ℝ) / 160000001) = 2251800024791479 / 2 ^ 55 :=
  roundDouble_eval _ _ 10000001 160000001
    4503600049582958 (2 ^ 56)
    (by norm_num) (by norm_num) (by decide) (by norm_num)

theorem nearlyUniform_log2_first :
    log2Rounded (2251800024791479 / 2 ^ 55) = -(4503599475089547 / 2 ^ 50) := by
  obtain ⟨h1, h2⟩ := logb_two_bounds (2251800024791479 / 2 ^ 55)
    (-(211106231 / 2 ^ 51)) (211106231 / 2 ^ 51)
    (-(9223371724983392005 / 2 ^ 61)) (-(73786973799867135319 / 2 ^ 64))
    (by norm_num) (by rw [abs_of_neg (by norm_num), neg_neg])
    (by norm_num) (by norm_num) (by norm_num) (by norm_num) (by norm_num)
  exact roundDouble_between _ _ _ _ h1 h2
    (roundDouble_eval _ _ (-9223371724983392005) (2 ^ 61)
      (-9007198950179094) (2 ^ 51)
      (by norm_num) (by norm_num) (by decide) (by norm_num))
    (roundDouble_eval _ _ (-73786973799867135319) (2 ^ 64)
      (-9007198950179094) (2 ^ 51)
      (by norm_num) (by norm_num) (by decide) (by norm_num))

set_option maxRecDepth 100000 in
theorem nearlyUniform_term_first :
    roundDouble (2251800024791479 / 2 ^ 55 * (-(4503599475089547 / 2 ^ 50)) : ℝ)
      = -(4503599897301995 / 2 ^ 54) :=
  roundDouble_eval _ _ (-10141205409657533745693527570013) (2 ^ 105)
    (-4503599897301995) (2 ^ 54)
    (by norm_num) (by norm_num) (by decide) (by norm_num)

/-- The probability of each of the letters "b" to "p" (10000000 of the 160000001 characters). -/
theorem nearlyUniform_probability_other :
    roundDouble ((10000000 : ℝ) / 160000001) = 9007199198445997 / 2 ^ 57 :=
  roundDouble_eval _ _ 10000000 160000001
    9007199198445997 (2 ^ 57)
    (by norm_num) (by norm_num) (by decide) (by norm_num)

theorem nearlyUniform_log2_other :
    log2Rounded (9007199198445997 / 2 ^ 57) = -(35184372168145 / 2 ^ 43) := by
  obtain ⟨h1, h2⟩ := logb_two_bounds (9007199198445997 / 2 ^ 57)
    (56294995 / 2 ^ 53) (56294995 / 2 ^ 53)
    (-(73786976461169619721 / 2 ^ 64)) (-(9223372057646202459 / 2 ^ 61))
    (by norm_num) (abs_of_pos (by norm_num))
    (by norm_num) (by norm_num) (by norm_num) (by norm_num) (by norm_num)
  exact roundDouble_between _ _ _ _ h1 h2
    (roundDouble_eval _ _ (-73786976461169619721) (2 ^ 64)
      (-4503599637522560) (2 ^ 50)
      (by norm_num) (by norm_num) (by decide) (by norm_num))
    (roundDouble_eval _ _ (-9223372057646202459) (2 ^ 61)
      (-4503599637522560) (2 ^ 50)
      (by norm_num) (by norm_num) (by decide) (by norm_num))

set_option maxRecDepth 100000 in
theorem nearlyUniform_term_other :
    roundDouble (9007199198445997 / 2 ^ 57 * (-(35184372168145 / 2 ^ 43)) : ℝ)
      = -(9007199218750125 / 2 ^ 55) :=
  roundDouble_eval _ _ (-316912648790741289581586165565) (2 ^ 100)
    (-9007199218750125) (2 ^ 55)
    (by norm_num) (by norm_num) (by decide) (by norm_num)

theorem nearlyUniform_step_1 :
    entropyStep log2Rounded 160000001 (0 : ℝ) 10000001
      = 4503599897301995 / 2 ^ 54 := by
  unfold entropyStep
  simp only [Nat.cast_ofNat]
  rw [nearlyUniform_probability_first, nearlyUniform_log2_first, nearlyUniform_term_first]
  exact roundDouble_eval _ _ 4503599897301995 (2 ^ 54)
    4503599897301995 (2 ^ 54)
    (by norm_num) (by norm_num) (by decide) (by norm_num)

theorem nearlyUniform_step_2 :
    entropyStep log2Rounded 160000001 (4503599897301995 / 2 ^ 54 : ℝ) 10000000
      = 4503599753338529 / 2 ^ 53 := by
  unfold entropyStep
  simp only [Nat.cast_ofNat]
  rw [nearlyUniform_probability_other, nearlyUniform_log2_other, nearlyUniform_term_other]
  exact roundDouble_eval _ _ 18014399013354115 (2 ^ 55)
    4503599753338529 (2 ^ 53)
    (by norm_num) (by norm_num) (by decide) (by norm_num)

theorem nearlyUniform_step_3 :
    entropyStep log2Rounded 160000001 (4503599753338529 / 2 ^ 53 : ℝ) 10000000
      = 1688849889506515 / 2 ^ 51 := by
  unfold entropyStep
  simp only [Nat.cast_ofNat]
  rw [nearlyUniform_probability_other, nearlyUniform_log2_other, nearlyUniform_term_other]
  exact roundDouble_eval _ _ 27021598232104241 (2 ^ 55)
    6755399558026060 (2 ^ 53)
    (by norm_num) (by norm_num) (by decide) (by norm_num)

theorem nearlyUniform_step_4 :
    entropyStep log2Rounded 160000001 (1688849889506515 / 2 ^ 51 : ℝ) 10000000
      = 1125899920339199 / 2 ^ 50 := by
  unfold entropyStep
  simp only [Nat.cast_ofNat]
  rw [nearlyUniform_probability_other, nearlyUniform_log2_other, nearlyUniform_term_other]
  exact roundDouble_eval _ _ 36028797450854365 (2 ^ 55)
    4503599681356796 (2 ^ 52)
    (by norm_num) (by norm_num) (by decide) (by norm_num)

theorem nearlyUniform_step_5 :
    entropyStep log2Rounded 160000001 (1125899920339199 / 2 ^ 50 : ℝ) 10000000
      = 2814749791850281 / 2 ^ 51 := by
  unfold entropyStep
  simp only [Nat.cast_ofNat]
  rw [nearlyUniform_probability_other, nearlyUniform_log2_other, nearlyUniform_term_other]
  exact roundDouble_eval _ _ 45035996669604493 (2 ^ 55)
    5629499583700562 (2 ^ 52)
    (by norm_num) (by norm_num) (by decide) (by norm_num)

theorem nearlyUniform_step_6 :
    entropyStep log2Rounded 160000001 (2814749791850281 / 2 ^ 51 : ℝ) 10000000
      = 844424935755541 / 2 ^ 49 := by
  unfold entropyStep
  simp only [Nat.cast_ofNat]
  rw [nearlyUniform_probability_other, nearlyUniform_log2_other, nearlyUniform_term_other]
  exact roundDouble_eval _ _ 54043195888354621 (2 ^ 55)
    6755399486044328 (2 ^ 52)
    (by norm_num) (by norm_num) (by decide) (by norm_num)

theorem nearlyUniform_step_7 :
    entropyStep log2Rounded 160000001 (844424935755541 / 2 ^ 49 : ℝ) 10000000
      = 3940649694194047 / 2 ^ 51 := by
  unfold entropyStep
  simp only [Nat.cast_ofNat]
  rw [nearlyUniform_probability_other, nearlyUniform_log2_other, nearlyUniform_term_other]
  exact roundDouble_eval _ _ 63050395107104749 (2 ^ 55)
    7881299388388094 (2 ^ 52)
    (by norm_num) (by norm_num) (by decide) (by norm_num)

theorem nearlyUniform_step_8 :
    entropyStep log2Rounded 160000001 (3940649694194047 / 2 ^ 51 : ℝ) 10000000
      = 2251799822682965 / 2 ^ 50 := by
  unfold entropyStep
  simp only [Nat.cast_ofNat]
  rw [nearlyUniform_probability_other, nearlyUniform_log2_other, nearlyUniform_term_other]
  exact roundDouble_eval _ _ 72057594325854877 (2 ^ 55)
    4503599645365930 (2 ^ 51)
    (by norm_num) (by norm_num) (by decide) (by norm_num)

theorem nearlyUniform_step_9 :
    entropyStep log2Rounded 160000001 (2251799822682965 / 2 ^ 50 : ℝ) 10000000
      = 5066549596537813 / 2 ^ 51 := by
  unfold entropyStep
  simp only [Nat.cast_ofNat]
  rw [nearlyUniform_probability_other, nearlyUniform_log2_other, nearlyUniform_term_other]
  exact roundDouble_eval _ _ 81064793544605005 (2 ^ 55)
    5066549596537813 (2 ^ 51)
    (by norm_num) (by norm_num) (by decide) (by norm_num)

theorem nearlyUniform_step_10 :
    entropyStep log2Rounded 160000001 (5066549596537813 / 2 ^ 51 : ℝ) 10000000
      = 21990232608241 / 2 ^ 43 := by
  unfold entropyStep
  simp only [Nat.cast_ofNat]
  rw [nearlyUniform_probability_other, nearlyUniform_log2_other, nearlyUniform_term_other]
  exact roundDouble_eval _ _ 90071992763355133 (2 ^ 55)
    5629499547709696 (2 ^ 51)
    (by norm_num) (by norm_num) (by decide) (by norm_num)

theorem nearlyUniform_step_11 :
    entropyStep log2Rounded 160000001 (21990232608241 / 2 ^ 43 : ℝ) 10000000
      = 6192449498881579 / 2 ^ 51 := by
  unfold entropyStep
  simp only [Nat.cast_ofNat]
  rw [nearlyUniform_probability_other, nearlyUniform_log2_other, nearlyUniform_term_other]
  exact roundDouble_eval _ _ 99079191982105261 (2 ^ 55)
    6192449498881579 (2 ^ 51)
    (by norm_num) (by norm_num) (by decide) (by norm_num)

theorem nearlyUniform_step_12 :
    entropyStep log2Rounded 160000001 (6192449498881579 / 2 ^ 51 : ℝ) 10000000
      = 3377699725026731 / 2 ^ 50 := by
  unfold entropyStep
  simp only [Nat.cast_ofNat]
  rw [nearlyUniform_probability_other, nearlyUniform_log2_other, nearlyUniform_term_other]
  exact roundDouble_eval _ _ 108086391200855389 (2 ^ 55)
    6755399450053462 (2 ^ 51)
    (by norm_num) (by norm_num) (by decide) (by norm_num)

theorem nearlyUniform_step_13 :
    entropyStep log2Rounded 160000001 (3377699725026731 / 2 ^ 50 : ℝ) 10000000
      = 7318349401225345 / 2 ^ 51 := by
  unfold entropyStep
  simp only [Nat.cast_ofNat]
  rw [nearlyUniform_probability_other, nearlyUniform_log2_other, nearlyUniform_term_other]
  exact roundDouble_eval _ _ 117093590419605517 (2 ^ 55)
    7318349401225345 (2 ^ 51)
    (by norm_num) (by norm_num) (by decide) (by norm_num)

theorem nearlyUniform_step_14 :
    entropyStep log2Rounded 160000001 (7318349401225345 / 2 ^ 51 : ℝ) 10000000
      = 1970324838099307 / 2 ^ 49 := by
  unfold entropyStep
  simp only [Nat.cast_ofNat]
  rw [nearlyUniform_probability_other, nearlyUniform_log2_other, nearlyUniform_term_other]
  exact roundDouble_eval _ _ 126100789638355645 (2 ^ 55)
    7881299352397228 (2 ^ 51)
    (by norm_num) (by norm_num) (by decide) (by norm_num)

theorem nearlyUniform_step_15 :
    entropyStep log2Rounded 160000001 (1970324838099307 / 2 ^ 49 : ℝ) 10000000
      = 8444249303569111 / 2 ^ 51 := by
  unfold entropyStep
  simp only [Nat.cast_ofNat]
  rw [nearlyUniform_probability_other, nearlyUniform_log2_other, nearlyUniform_term_other]
  exact roundDouble_eval _ _ 135107988857105773 (2 ^ 55)
    8444249303569111 (2 ^ 51)
    (by norm_num) (by norm_num) (by decide) (by norm_num)

theorem nearlyUniform_step_16 :
    entropyStep log2Rounded 160000001 (8444249303569111 / 2 ^ 51 : ℝ) 10000000
      = 4503599627370497 / 2 ^ 50 := by
  unfold entropyStep
  simp only [Nat.cast_ofNat]
  rw [nearlyUniform_probability_other, nearlyUniform_log2_other, nearlyUniform_term_other]
  exact roundDouble_eval _ _ 144115188075855901 (2 ^ 55)
    4503599627370497 (2 ^ 50)
    (by norm_num) (by norm_num) (by decide) (by norm_num)

/-- The loop of `calculateEntropy` over `nearlyUniform` in binary64, with the correctly
rounded `Math.log2`, ends at 4 + 2 ^ -50 (4.000000000000001). -/
theorem nearlyUniform_entropy :
    calculateEntropy64 log2Rounded nearlyUniform = 4503599627370497 / 2 ^ 50 := by
  unfold calculateEntropy64
  rw [nearlyUniform_values, nearlyUniform_length]
  simp only [List.foldl_cons, List.foldl_nil]
  rw [nearlyUniform_step_1, nearlyUniform_step_2, nearlyUniform_step_3, nearlyUniform_step_4,
    nearlyUniform_step_5, nearlyUniform_step_6, nearlyUniform_step_7, nearlyUniform_step_8,
    nearlyUniform_step_9, nearlyUniform_step_10, nearlyUniform_step_11, nearlyUniform_step_12,
    nearlyUniform_step_13, nearlyUniform_step_14, nearlyUniform_step_15, nearlyUniform_step_16]

/-- C30 (counterexample). The string `nearlyUniform` has 160000001 characters, 16 of them
distinct (10000001 times "a", 10000000 times each of "b" to "p").  Its exact entropy is at
most 4, but the loop of `calculateEntropy` in binary64, with the correctly rounded
`Math.log2`, returns 4 + 2 ^ -50 (4.000000000000001), which is greater than 4. -/
theorem calculateEntropy64_exceeds_four :
    (codePoints nearlyUniform).dedup.length = 16 ∧
    nearlyUniform.length = 160000001 ∧
    (calculateEntropy nearlyUniform).value ≤ 4 ∧
    calculateEntropy64 log2Rounded nearlyUniform = 4503599627370497 / 2 ^ 50 ∧
    (4 : ℝ) < calculateEntropy64 log2Rounded nearlyUniform := by
  have hlen : 0 < (calculateEntropy nearlyUniform).len := by
    show 0 < nearlyUniform.length
    rw [nearlyUniform_length]
    norm_num
  have hval := Entropy.value_le_four (calculateEntropy nearlyUniform) hlen
    (calculateEntropy_counts_pos _) (by rw [counts_length, nearlyUniform_distinct])
    (by rw [counts_sum]; exact codePoints_length_le _)
  refine ⟨nearlyUniform_distinct, nearlyUniform_length, hval, nearlyUniform_entropy, ?_⟩
  rw [nearlyUniform_entropy]
  norm_num

end NexusIG
